import Mathlib

/-!
# Field-override mutation (`pkg/controller/mutation/owner.go`)

A shallow embedding of `GetOverrideMutation` and of the part of Go's `reflect`
and `strings` packages it drives, followed by the properties of the mutator.

Modelling choices, all visible in the definitions below:

* A Go value is a finite tree `Val`; every node carries its declared type `Ty`
  (what `reflect.Value.Type` returns).  Kinds that the code treats alike
  (slice, map, chan, func, interface: never entered, zero exactly when nil) are
  one constructor `ref`.  Floats, complex numbers and arrays are not modelled.
* A struct is its list of declared fields in declaration order; a field has a
  name, the result of `Tag.Lookup("defaulter")` and a value.  No field has the
  empty name.
* A `reflect.Value` reached during a walk is a `Value`: the tree it points at
  and the read-only flag (`flagRO`) that `reflect` sets once an unexported
  field has been traversed.  The zero `reflect.Value` is `none`.
* The code is embedded three times.  The first embedding (`fieldByName`,
  `walk`, `applyReplace`, `mutate`, `search`, `GetOverrideMutation`) is for
  struct types in which every lookup is decided among the declared fields: an
  embedded field is an ordinary field named after its type.
* The second embedding (`FieldByName`, `walkE`, `applyReplaceE`, `mutateE`,
  `searchE`, `GetOverrideMutationE`) has the embedded fields: what the struct
  types declare about them is a `TypeInfo`, `FieldByName` finds a promoted
  field and panics on a nil embedded pointer on the way to it, and an
  unexported embedded field gets the flag that its fields do not inherit.  The
  two embeddings give the same mutator when no segment of a plan path names a
  promoted field or an unexported embedded field (`Plain`, `mutateE_plain`).
* In both, `reflect.Value.Set` copies a tree: the statements over them are
  about a target in which no object is reached along two paths and that shares
  nothing with the deep copy of the parent when the call starts.  `Set` panics
  when the value to be stored was obtained through an unexported field.
* The third embedding is over a memory of objects in which a pointer is an
  address (`HVal`, `Heap`; `walkH`, `applyReplaceH`, `mutateH`, `searchH`,
  `GetOverrideMutationH`, and with the embedded fields `FieldByNameH`,
  `walkHE`, `applyReplaceHE`, `mutateHE`): there the plan holds references to
  slots of the deep copy, `Set` copies the content of a slot, an address when
  the slot holds a pointer, and an object can be reached along any number of
  paths.
* `strings.Title` and the exported-name test are modelled on ASCII; other
  runes are letters without case.
* The parent and the target are the structs the two pointers point at.
* The mutator works in place and may panic inside `reflect`; an `Outcome` is
  the state of the target when the call ends together with whether the call
  panicked instead of returning `nil`.
-/

namespace Mutation

/-! ## Values -/

/-- Identity of a Go type, as compared by `reflect.Type` equality. -/
inductive Ty where
  | basic (name : String)
  | named (pkg name : String)
  | ptr (elem : Ty)
  | slice (elem : Ty)
  | map (key elem : Ty)
  deriving DecidableEq, Repr

/-- The kinds `reflect.Value.Kind` distinguishes here. -/
inductive Kind where
  | Invalid | Bool | Int | String | Ref | Ptr | Struct
  deriving DecidableEq, Repr

mutual
/-- Go values as trees. -/
inductive Val where
  | bool (ty : Ty) (b : Bool)
  | int (ty : Ty) (n : Int)
  | str (ty : Ty) (s : String)
  | ref (ty : Ty) (content : Option Nat)
  | nilptr (ty : Ty)
  | ptr (ty : Ty) (elem : Val)
  | struct (ty : Ty) (fields : Fields)
  deriving DecidableEq
/-- Declared fields of a struct value, in declaration order: name, the
`defaulter` tag if the field has one, and the field's value. -/
inductive Fields where
  | nil
  | cons (name : String) (defaulter : Option String) (val : Val) (rest : Fields)
  deriving DecidableEq
end

/-- Declared type of a value: `reflect.Value.Type`. -/
def Val.Type : Val → Ty
  | .bool ty _ => ty
  | .int ty _ => ty
  | .str ty _ => ty
  | .ref ty _ => ty
  | .nilptr ty => ty
  | .ptr ty _ => ty
  | .struct ty _ => ty

/-- Kind of a value: `reflect.Value.Kind`. -/
def Val.Kind : Val → Kind
  | .bool _ _ => .Bool
  | .int _ _ => .Int
  | .str _ _ => .String
  | .ref _ _ => .Ref
  | .nilptr _ => .Ptr
  | .ptr _ _ => .Ptr
  | .struct _ _ => .Struct

mutual
/-- Zero test of `reflect.Value.IsZero`: false, 0, the empty string, nil, or
a struct all of whose fields are zero. -/
def Val.IsZero : Val → Bool
  | .bool _ b => !b
  | .int _ n => n == 0
  | .str _ s => s == ""
  | .ref _ c => c.isNone
  | .nilptr _ => true
  | .ptr _ _ => false
  | .struct _ fs => fs.allZero
/-- All fields of a struct are zero. -/
def Fields.allZero : Fields → Bool
  | .nil => true
  | .cons _ _ v rest => v.IsZero && rest.allZero
end

/-- First declared field with the given name. -/
def Fields.find : Fields → String → Option Val
  | .nil, _ => none
  | .cons n _ v rest, name => if n = name then some v else rest.find name

/-- Replace the value of the first declared field with the given name. -/
def Fields.modify : Fields → String → (Val → Val) → Fields
  | .nil, _, _ => .nil
  | .cons n t v rest, name, f =>
    if n = name then .cons n t (f v) rest else .cons n t v (rest.modify name f)

/-! ## `strings` -/

/-- Separator test used by `strings.Title`: ASCII letters, digits and the
underscore are not separators, any other ASCII character is. -/
def isSeparator (r : Char) : Bool :=
  if r.toNat ≤ 0x7F then !(r.isDigit || r.isLower || r.isUpper || r == '_') else false

/-- Title case of a rune (`unicode.ToTitle`). -/
def toTitle (r : Char) : Char :=
  if r.isLower then Char.ofNat (r.toNat - 32) else r

/-- The mapping closure of `strings.Title`; `prev` is the rune seen before. -/
def titleMap : Char → List Char → List Char
  | _, [] => []
  | prev, r :: rs => (if isSeparator prev then toTitle r else r) :: titleMap r rs

/-- Upper-case the first letter of every word: `strings.Title`. -/
def Title (s : String) : String := String.mk (titleMap (Char.ofNat 32) s.data)

/-- Split a list of characters around every occurrence of `sep`. -/
def splitChars (sep : Char) : List Char → List (List Char)
  | [] => [[]]
  | c :: cs =>
    if c = sep then [] :: splitChars sep cs
    else
      match splitChars sep cs with
      | [] => [[c]]
      | h :: t => (c :: h) :: t

/-- Split around a one-character separator: `strings.Split`. -/
def Split (s : String) (sep : Char) : List String :=
  (splitChars sep s.data).map String.mk

/-- A name is exported when it starts with an upper-case letter. -/
def isExported (name : String) : Bool :=
  match name.data with
  | [] => false
  | c :: _ => c.isUpper

/-! ## `reflect.Value` -/

/-- A valid `reflect.Value` reached by a walk: the value it points at and
its read-only flag. -/
structure Value where
  val : Val
  ro : Bool
  deriving DecidableEq

/-- Kind of a possibly zero `reflect.Value`. -/
def kindOf : Option Value → Kind
  | none => .Invalid
  | some v => v.val.Kind

/-- Pointee of a pointer: `reflect.Value.Elem`; nil gives the zero Value. The
read-only flag is kept. -/
def elemOf : Option Value → Option Value
  | some ⟨.ptr _ e, ro⟩ => some ⟨e, ro⟩
  | _ => none

/-- Field of a struct by name: `reflect.Value.FieldByName` on a struct type
whose lookups are decided among the declared fields; the zero Value when there
is no such field.  An unexported field makes the result read-only.  The
promoted fields of embedded structs are in `FieldByName` below. -/
def fieldByName : Option Value → String → Option Value
  | some ⟨.struct _ fs, ro⟩, name =>
    match fs.find name with
    | some fv => some ⟨fv, ro || !isExported name⟩
    | none => none
  | _, _ => none

/-- Settable test: `reflect.Value.CanSet`.  Every value reached from the
dereferenced target is addressable, so only the read-only flag decides. -/
def canSet : Option Value → Bool
  | none => false
  | some v => !v.ro

/-! ## The plan and the applier -/

/-- One element of `replaces`: the split path and the captured field value,
with the read-only flag of the `reflect.Value` that holds it. -/
structure Replace where
  field : List String
  value : Val
  ro : Bool
  deriving DecidableEq

/-- The inner loop over `replace.field`.  `none` is `continue notFound`;
otherwise the cursor after the last segment, possibly the zero Value. -/
def walk : List String → Option Value → Option (Option Value)
  | [], filed => some filed
  | name :: rest, filed =>
    let filed := if kindOf filed = Kind.Ptr then elemOf filed else filed
    if kindOf filed ≠ Kind.Struct then none
    else walk rest (fieldByName filed (Title name))

/-- The same walk over exact field names: the slot a path of field names
addresses, pointers being dereferenced on the way. -/
def lookup : List String → Option Value → Option (Option Value)
  | [], filed => some filed
  | name :: rest, filed =>
    let filed := if kindOf filed = Kind.Ptr then elemOf filed else filed
    if kindOf filed ≠ Kind.Struct then none
    else lookup rest (fieldByName filed name)

/-- Store `x` in the slot that `lookup` reaches along `names`; the rest of the
tree is rebuilt unchanged.  This is `reflect.Value.Set` on a target in which
the slot is reached along this path only; over the memory it is `store`. -/
def assign : List String → Val → Val → Val
  | [], _, x => x
  | name :: rest, .ptr pty (.struct ty fs), x =>
    .ptr pty (.struct ty (fs.modify name (fun f => assign rest f x)))
  | name :: rest, .struct ty fs, x =>
    .struct ty (fs.modify name (fun f => assign rest f x))
  | _ :: _, v, _ => v

/-- What processing one plan entry did. -/
inductive Effect where
  | skipped | assigned | panicked
  deriving DecidableEq, Repr

/-- One iteration of the loop over `replaces` on the target `value`.
`reflect.Value.Set` panics when its argument was obtained through an
unexported field. -/
def applyReplace (replace : Replace) (value : Val) : Val × Effect :=
  match walk replace.field (some ⟨value, false⟩) with
  | none => (value, .skipped)
  | some none => (value, .skipped)
  | some (some filed) =>
    if canSet (some filed) && filed.val.IsZero && filed.val.Type == replace.value.Type then
      if replace.ro then (value, .panicked)
      else (assign (replace.field.map Title) value replace.value, .assigned)
    else (value, .skipped)

/-- State of the target when the mutator call ends, and whether it ended in a
panic instead of returning `nil`. -/
structure Outcome where
  result : Val
  panicked : Bool
  deriving DecidableEq

/-- The returned mutator: the loop over `replaces`. -/
def mutate : List Replace → Val → Outcome
  | [], value => ⟨value, false⟩
  | replace :: rest, value =>
    match applyReplace replace value with
    | (value', .panicked) => ⟨value', true⟩
    | (value', _) => mutate rest value'

/-! ## The plan builder -/

/-- The entries one tagged field adds: one per comma-separated item. -/
def appendItems (replaces : List Replace) (v : String) (value : Val) (ro : Bool) :
    List Replace :=
  (Split v ',').foldl (fun acc item => acc ++ [⟨Split item '.', value, ro⟩]) replaces

/-- The loop of `search` over the fields of a struct value, adding to
`replaces`.  `ro` is the read-only flag of the struct being searched. -/
def search : Fields → Bool → List Replace → List Replace
  | .nil, _, replaces => replaces
  | .cons name (some v) value rest, ro, replaces =>
    search rest ro (appendItems replaces v value (ro || !isExported name))
  | .cons name none (.ptr _ (.struct _ fs)) rest, ro, replaces =>
    search rest ro (search fs (ro || !isExported name) replaces)
  | .cons name none (.struct _ fs) rest, ro, replaces =>
    search rest ro (search fs (ro || !isExported name) replaces)
  | .cons _ none _ rest, ro, replaces => search rest ro replaces

/-- Build the mutator for the struct `owner` points at (`owner` is the deep
copy's pointee, `result` the target's).  `NumField` panics on anything that is
not a struct: `none`. -/
def GetOverrideMutation (owner : Val) : Option (Val → Outcome) :=
  match owner with
  | .struct _ fs => some (fun result => mutate (search fs false []) result)
  | _ => none

/-! ## Vocabulary of the specification -/

/-- The struct a walk step enters at a value: the value itself, or what a
non-nil pointer points at. -/
def Val.fieldsOf : Val → Option Fields
  | .struct _ fs => some fs
  | .ptr _ (.struct _ fs) => some fs
  | _ => none

/-- The value with the fields of the struct a walk step enters replaced. -/
def Val.setFields : Val → Fields → Val
  | .struct ty _, fs => .struct ty fs
  | .ptr pty (.struct ty _), fs => .ptr pty (.struct ty fs)
  | v, _ => v

/-- The slot `T[names]`: what `lookup` ends on when it ends on a valid value,
starting from `v` with read-only flag `ro`. -/
def slot : List String → Val → Bool → Option Value
  | [], v, ro => some ⟨v, ro⟩
  | n :: rest, v, ro =>
    match v.fieldsOf with
    | none => none
    | some fs =>
      match fs.find n with
      | none => none
      | some fv => slot rest fv (ro || !isExported n)

/-- Neither path is a prefix of the other. -/
def Incomp (p q : List String) : Prop := ¬ p <+: q ∧ ¬ q <+: p

instance (p q : List String) : Decidable (Incomp p q) := by
  unfold Incomp; infer_instance

/-- The path of an entry as field names: every segment in title case. -/
def Replace.path (r : Replace) : List String := r.field.map Title

/-- The entry finds its destination slot settable, zero and of its own type. -/
def writable (r : Replace) (T : Val) : Bool :=
  match slot r.path T false with
  | none => false
  | some c => !c.ro && c.val.IsZero && c.val.Type == r.value.Type

/-- State of the target after one entry has been processed. -/
def step (r : Replace) (T : Val) : Val := (applyReplace r T).1

/-- State of the target after the entries have been processed one after the
other, a panicking entry leaving the state as it is. -/
def run : List Replace → Val → Val
  | [], T => T
  | r :: rs, T => run rs (step r T)

/-- Effect of an entry on the content of its own destination slot. -/
def slotStep (r : Replace) (c : Value) : Value :=
  if !r.ro && !c.ro && c.val.IsZero && c.val.Type == r.value.Type then ⟨r.value, c.ro⟩ else c

/-- Effect of an entry on the content of the slot at `p`, for an entry whose
path is `p` or incomparable with `p`. -/
def classStep (p : List String) (r : Replace) (c : Value) : Value :=
  if r.path = p then slotStep r c else c

/-- Effect of a list of such entries on the content of the slot at `p`. -/
def slotRun (p : List String) : List Replace → Value → Value
  | [], c => c
  | r :: rs, c => slotRun p rs (classStep p r c)

/-- No path of the plan is a proper prefix of another path of the plan. -/
def NoProperPrefix (rs : List Replace) : Prop :=
  ∀ r₁ ∈ rs, ∀ r₂ ∈ rs, r₁.path <+: r₂.path → r₁.path = r₂.path

/-- Apply a mutator, and apply it again to what the first call left unless
the first call panicked. -/
def twice (m : Val → Outcome) (T : Val) : Outcome :=
  if (m T).panicked then m T else m (m T).result

/-! ## Typing -/

/-- Declaration of a struct field: name, the tag and the declared type. -/
structure FieldDecl where
  name : String
  defaulter : Option String
  ty : Ty

/-- Type declarations: the kind of every type and, for a struct type, its
declared fields. -/
structure TypeEnv where
  kind : Ty → Kind
  fields : Ty → List FieldDecl

mutual
/-- The value is a value of its declared type. -/
def Val.WellTyped (Γ : TypeEnv) : Val → Bool
  | .bool ty _ => Γ.kind ty == .Bool
  | .int ty _ => Γ.kind ty == .Int
  | .str ty _ => Γ.kind ty == .String
  | .ref ty _ => Γ.kind ty == .Ref
  | .nilptr ty => Γ.kind ty == .Ptr
  | .ptr ty e => Γ.kind ty == .Ptr && e.WellTyped Γ
  | .struct ty fs => Γ.kind ty == .Struct && fs.WellTyped Γ (Γ.fields ty)
/-- The fields are the declared ones, each holding a value of its type. -/
def Fields.WellTyped (Γ : TypeEnv) : Fields → List FieldDecl → Bool
  | .nil, [] => true
  | .cons n t v rest, d :: ds =>
    n == d.name && t == d.defaulter && v.Type == d.ty && v.WellTyped Γ && rest.WellTyped Γ ds
  | _, _ => false
end

/-! ## The plan in the words of the specification -/

/-- Split a string by a separator as the specification words it: the pieces
between the occurrences of the separator, in order, an empty piece kept as it
is. -/
def pieces (s : String) (sep : Char) : List String :=
  (s.data.splitOn sep).map String.mk

/-- The plan as the specification words it: a pre-order walk of the fields in
declared order.  A tagged field contributes one entry per comma-separated
item of its tag, the item split on the dot, with the field's value, and is not
entered; an untagged field is entered when it is a struct or a non-nil
pointer to a struct; any other field contributes nothing. -/
def specPlan : Fields → Bool → List Replace
  | .nil, _ => []
  | .cons name (some v) value rest, ro =>
    (pieces v ',').map (fun item => ⟨pieces item '.', value, ro || !isExported name⟩)
      ++ specPlan rest ro
  | .cons name none (.ptr _ (.struct _ fs)) rest, ro =>
    specPlan fs (ro || !isExported name) ++ specPlan rest ro
  | .cons name none (.struct _ fs) rest, ro =>
    specPlan fs (ro || !isExported name) ++ specPlan rest ro
  | .cons _ none _ rest, ro => specPlan rest ro

/-- The plan `GetOverrideMutation` builds for `owner`; empty when `owner` is
not a struct. -/
def planOf : Val → List Replace
  | .struct _ fs => search fs false []
  | _ => []

instance (rs : List Replace) : Decidable (NoProperPrefix rs) := by
  unfold NoProperPrefix; infer_instance

/-! ## Sample values -/

/-- Go's `int`. -/
def tInt : Ty := .basic "int"

/-- The struct type `Inner` with the `int` fields `B` and `C`. -/
def tInner : Ty := .named "example" "Inner"

/-- A parent struct type of the examples. -/
def tParent : Ty := .named "example" "Parent"

/-- A target struct type of the examples. -/
def tTarget : Ty := .named "example" "Target"

/-- An `Inner` value. -/
def inner (b c : Int) : Val :=
  .struct tInner (.cons "B" none (.int tInt b) (.cons "C" none (.int tInt c) .nil))

/-- A target with the single field `A *Inner`, nil. -/
def targetNilA : Val := .struct tTarget (.cons "A" none (.nilptr (.ptr tInner)) .nil)

/-- A target with the single field `A *Inner`, pointing at `v`. -/
def targetPtrA (v : Val) : Val := .struct tTarget (.cons "A" none (.ptr (.ptr tInner) v) .nil)

/-- A target with the single field `A Inner`. -/
def targetStructA (v : Val) : Val := .struct tTarget (.cons "A" none v .nil)

/-- A target with the single field `Y int`. -/
def targetY (n : Int) : Val := .struct tTarget (.cons "Y" none (.int tInt n) .nil)

/-- A target with the single field `X int`. -/
def targetX (n : Int) : Val := .struct tTarget (.cons "X" none (.int tInt n) .nil)

/-- A parent whose unexported field `x int`, holding 7, is tagged
`defaulter:"y"`. -/
def ownerUnexported : Val := .struct tParent (.cons "x" (some "y") (.int tInt 7) .nil)

/-- A parent with `B int` tagged `defaulter:"a.b"`, holding 5, followed by
`A *Inner` tagged `defaulter:"a"`, pointing at a zero `Inner`. -/
def ownerNestedFirst : Val :=
  .struct tParent
    (.cons "B" (some "a.b") (.int tInt 5)
      (.cons "A" (some "a") (.ptr (.ptr tInner) (inner 0 0)) .nil))

/-- A parent with `B int` tagged `defaulter:"a.b"`, holding 5, followed by
`A Inner` tagged `defaulter:"a"`, holding a non-zero `Inner`. -/
def ownerNestedStruct : Val :=
  .struct tParent
    (.cons "B" (some "a.b") (.int tInt 5) (.cons "A" (some "a") (inner 1 1) .nil))

/-- A parent with `A *Inner` tagged `defaulter:"a"`, pointing at a zero
`Inner`, followed by `B int` tagged `defaulter:"a.b"`, holding 5. -/
def ownerNestedLast : Val :=
  .struct tParent
    (.cons "A" (some "a") (.ptr (.ptr tInner) (inner 0 0))
      (.cons "B" (some "a.b") (.int tInt 5) .nil))

/-- A parent with two `int` fields tagged `defaulter:"x"`: `A`, holding
`a`, followed by `B`, holding `b`. -/
def ownerSamePath (a b : Int) : Val :=
  .struct tParent
    (.cons "A" (some "x") (.int tInt a) (.cons "B" (some "x") (.int tInt b) .nil))

/-- The type `corev1.Affinity`. -/
def tAffinity : Ty := .named "k8s.io/api/core/v1" "Affinity"

/-- The type `corev1.NodeAffinity`. -/
def tNodeAffinity : Ty := .named "k8s.io/api/core/v1" "NodeAffinity"

/-- An `Affinity` whose only field `NodeAffinity` holds `na`. -/
def affinity (na : Val) : Val := .struct tAffinity (.cons "NodeAffinity" none na .nil)

/-- The value `&corev1.Affinity{}`. -/
def affinityEmpty : Val := .ptr (.ptr tAffinity) (affinity (.nilptr (.ptr tNodeAffinity)))

/-- The value `&corev1.Affinity{NodeAffinity: &corev1.NodeAffinity{}}`. -/
def affinityNode : Val :=
  .ptr (.ptr tAffinity) (affinity (.ptr (.ptr tNodeAffinity) (.struct tNodeAffinity .nil)))

/-- A `Harbor`-shaped parent: the field named `specName` holds a struct whose
`Affinity` is tagged `defaulter:"spec.template.spec.affinity"` and whose
`Replicas int` is untagged. -/
def harbor (specName : String) (aff : Val) : Val :=
  .struct (.named "goharbor.io/v1beta1" "Harbor")
    (.cons specName none
      (.struct (.named "goharbor.io/v1beta1" "HarborSpec")
        (.cons "Affinity" (some "spec.template.spec.affinity") aff
          (.cons "Replicas" none (.int tInt 1) .nil)))
      .nil)

/-- A `Deployment`-shaped target: `Spec.Replicas int` and
`Spec.Template.Spec.Affinity *Affinity`. -/
def deployment (replicas : Int) (aff : Val) : Val :=
  .struct (.named "k8s.io/api/apps/v1" "Deployment")
    (.cons "Spec" none
      (.struct (.named "k8s.io/api/apps/v1" "DeploymentSpec")
        (.cons "Replicas" none (.int tInt replicas)
          (.cons "Template" none
            (.struct (.named "k8s.io/api/core/v1" "PodTemplateSpec")
              (.cons "Spec" none
                (.struct (.named "k8s.io/api/core/v1" "PodSpec")
                  (.cons "Affinity" none aff .nil))
                .nil))
            .nil)))
      .nil)

/-- Type declarations for `harbor` and `deployment` values. -/
def sampleEnv : TypeEnv where
  kind := fun ty =>
    if ty = tInt then .Int
    else if ty = .ptr tAffinity ∨ ty = .ptr tNodeAffinity then .Ptr
    else .Struct
  fields := fun ty =>
    if ty = tAffinity then [⟨"NodeAffinity", none, .ptr tNodeAffinity⟩]
    else if ty = tNodeAffinity then []
    else if ty = .named "goharbor.io/v1beta1" "Harbor" then
      [⟨"Spec", none, .named "goharbor.io/v1beta1" "HarborSpec"⟩]
    else if ty = .named "goharbor.io/v1beta1" "HarborSpec" then
      [⟨"Affinity", some "spec.template.spec.affinity", .ptr tAffinity⟩,
        ⟨"Replicas", none, tInt⟩]
    else if ty = .named "k8s.io/api/apps/v1" "Deployment" then
      [⟨"Spec", none, .named "k8s.io/api/apps/v1" "DeploymentSpec"⟩]
    else if ty = .named "k8s.io/api/apps/v1" "DeploymentSpec" then
      [⟨"Replicas", none, tInt⟩, ⟨"Template", none, .named "k8s.io/api/core/v1" "PodTemplateSpec"⟩]
    else if ty = .named "k8s.io/api/core/v1" "PodTemplateSpec" then
      [⟨"Spec", none, .named "k8s.io/api/core/v1" "PodSpec"⟩]
    else if ty = .named "k8s.io/api/core/v1" "PodSpec" then
      [⟨"Affinity", none, .ptr tAffinity⟩]
    else []

/-! ## Variants of a plan -/

/-- The second path is the first with some of its segments replaced by their
title-case form. -/
def titleVariant : List String → List String → Bool
  | [], [] => true
  | s :: p, s' :: p' => (s' == s || s' == Title s) && titleVariant p p'
  | _, _ => false

/-- The second plan is the first with some path segments replaced by their
title-case form: same values, same order. -/
def planVariant : List Replace → List Replace → Bool
  | [], [] => true
  | r :: rs, r' :: rs' =>
    (r'.value == r.value) && (r'.ro == r.ro) && titleVariant r.field r'.field &&
      planVariant rs rs'
  | _, _ => false

/-- A target with the `int` fields `Y` and `Z`. -/
def targetYZ (y z : Int) : Val :=
  .struct tTarget (.cons "Y" none (.int tInt y) (.cons "Z" none (.int tInt z) .nil))

/-- A target with `N int` and `A *Inner`. -/
def targetNA (n : Int) (a : Val) : Val :=
  .struct tTarget (.cons "N" none (.int tInt n) (.cons "A" none a .nil))

/-! ## The owner mutator -/

/-- An owner reference (`metav1.OwnerReference`); the two flags are pointers
to booleans, `none` when nil. -/
structure OwnerReference where
  apiVersion : String
  kind : String
  name : String
  uid : String
  controller : Option Bool
  blockOwnerDeletion : Option Bool
  deriving DecidableEq, Repr

/-- The part of an object's metadata the owner mutator deals with. -/
structure ObjectMeta where
  name : String
  ownerReferences : List OwnerReference
  deriving DecidableEq, Repr

/-- A `runtime.Object` handed to a mutator: one that carries object metadata
(the type assertion to `metav1.Object` succeeds) or one that does not. -/
inductive Resource where
  | object (meta : ObjectMeta)
  | plain (content : String)
  deriving DecidableEq, Repr

/-- The parent as the owner mutator sees it: its Go type, which the scheme
maps to an API version and kind, its name and its UID. -/
structure Owner where
  goType : String
  name : String
  uid : String
  deriving DecidableEq, Repr

/-- The kind registry (`runtime.Scheme`): API version and kind of a Go type. -/
abbrev Scheme := String → String × String

/-- Errors of the owner mutator. -/
inductive Error where
  | resourceType
  | alreadyOwned (existing : OwnerReference)
  | wrapped (cause : Error) (message : String)
  deriving DecidableEq, Repr

/-- Modelled from the spec: the package variable `ErrorResourceType`
(`WrongResourceKind`), declared outside the files at hand. -/
def ErrorResourceType : Error := .resourceType

/-- Wrap an error with a message, nil staying nil: `errors.Wrapf`. -/
def Wrapf (err : Option Error) (message : String) : Option Error :=
  err.map (fun e => .wrapped e message)

/-- The mutator `GetOwnerMutation` returns, for any controller-reference
setter: the target when the call ends, and the error returned. -/
def GetOwnerMutation (setControllerReference : Owner → ObjectMeta → Scheme → ObjectMeta × Option Error)
    (scheme : Scheme) (owner : Owner) (result : Resource) : Resource × Option Error :=
  match result with
  | .plain content => (.plain content, some ErrorResourceType)
  | .object resourceMeta =>
    let r := setControllerReference owner resourceMeta scheme
    (.object r.1, Wrapf r.2 "cannot set controller reference")

/-- The controller reference of the parent: its API version and kind from the
scheme, its name and UID, `controller` and `blockOwnerDeletion` true. -/
def controllerRef (scheme : Scheme) (owner : Owner) : OwnerReference :=
  ⟨(scheme owner.goType).1, (scheme owner.goType).2, owner.name, owner.uid, some true, some true⟩

/-- The reference identifies the same owner as `ref`: same kind, name, UID
and API group and version. -/
def identifies (r ref : OwnerReference) : Bool :=
  r.apiVersion == ref.apiVersion && r.kind == ref.kind && r.name == ref.name && r.uid == ref.uid

/-- The reference marked `controller=true` and `blockOwnerDeletion=true`. -/
def mark (r : OwnerReference) : OwnerReference :=
  { r with controller := some true, blockOwnerDeletion := some true }

/-- Modelled from the spec: the marking step of the "set controller
owner-reference" primitive.  The first reference that satisfies `p` is marked,
the others are left as they are. -/
def markFirst (p : OwnerReference → Bool) : List OwnerReference → List OwnerReference
  | [] => []
  | r :: rs => if p r then mark r :: rs else r :: markFirst p rs

/-- Modelled from the spec: the "locates or appends" step of the "set
controller owner-reference" primitive.  The reference that identifies the
owner of `ref` is located and marked, or `ref` is appended when there is none.
When the owner already is the controller, its controller reference is the one
located, so that the same owner is a no-op up to `blockOwnerDeletion`;
otherwise the first reference that identifies the owner is. -/
def upsertOwnerRef (ref : OwnerReference) (refs : List OwnerReference) : List OwnerReference :=
  if refs.any (fun r => identifies r ref && r.controller == some true) then
    markFirst (fun r => identifies r ref && r.controller == some true) refs
  else if refs.any (fun r => identifies r ref) then markFirst (fun r => identifies r ref) refs
  else refs ++ [ref]

/-- Modelled from the spec: the "set controller owner-reference" primitive
(`controllerutil.SetControllerReference`), which is not among the files at
hand.  A reference with `controller=true` that belongs to a different owner
makes the call fail with `AlreadyOwned` and the object untouched; otherwise the
reference identifying the parent is located or appended and marked
`controller=true` and `blockOwnerDeletion=true`, the parent's controller
reference being the one located when the parent already is the controller. -/
def SetControllerReference (owner : Owner) (controlled : ObjectMeta) (scheme : Scheme) :
    ObjectMeta × Option Error :=
  let ref := controllerRef scheme owner
  match controlled.ownerReferences.find?
      (fun r => r.controller == some true && !identifies r ref) with
  | some existing => (controlled, some (.alreadyOwned existing))
  | none => ({ controlled with ownerReferences := upsertOwnerRef ref controlled.ownerReferences },
      none)

/-- The references with `controller=true`. -/
def controllers (refs : List OwnerReference) : List OwnerReference :=
  refs.filter (fun r => r.controller == some true)

/-- The scheme of the examples: every type is the core `v1` kind `Namespace`. -/
def sampleScheme : Scheme := fun _ => ("v1", "Namespace")

/-- The parent of the repository's owner tests. -/
def unesco : Owner := ⟨"*v1.Namespace", "unesco", "775665789"⟩

/-- A reference to a `v1` `Namespace`. -/
def nsRef (name uid : String) (controller : Option Bool) (block : Option Bool) :
    OwnerReference :=
  ⟨"v1", "Namespace", name, uid, controller, block⟩

/-! ## Objects in memory

The same mutator over a memory in which pointers are addresses, so that an
object can be reached from the deep copy of the parent and from a target at
once. -/

mutual
/-- A value as it lies in memory: a pointer holds the address of the object
it points at, or nothing when nil. -/
inductive HVal where
  | bool (ty : Ty) (b : Bool)
  | int (ty : Ty) (n : Int)
  | str (ty : Ty) (s : String)
  | ref (ty : Ty) (content : Option Nat)
  | ptr (ty : Ty) (addr : Option Nat)
  | struct (ty : Ty) (fields : HFields)
  deriving DecidableEq
/-- Declared fields of a struct in memory. -/
inductive HFields where
  | nil
  | cons (name : String) (defaulter : Option String) (val : HVal) (rest : HFields)
  deriving DecidableEq
end

/-- Declared type of a value in memory. -/
def HVal.Type : HVal → Ty
  | .bool ty _ => ty
  | .int ty _ => ty
  | .str ty _ => ty
  | .ref ty _ => ty
  | .ptr ty _ => ty
  | .struct ty _ => ty

/-- Kind of a value in memory. -/
def HVal.Kind : HVal → Kind
  | .bool _ _ => .Bool
  | .int _ _ => .Int
  | .str _ _ => .String
  | .ref _ _ => .Ref
  | .ptr _ _ => .Ptr
  | .struct _ _ => .Struct

mutual
/-- Zero test of a value in memory. -/
def HVal.IsZero : HVal → Bool
  | .bool _ b => !b
  | .int _ n => n == 0
  | .str _ s => s == ""
  | .ref _ c => c.isNone
  | .ptr _ a => a.isNone
  | .struct _ fs => fs.allZero
/-- All fields of a struct in memory are zero. -/
def HFields.allZero : HFields → Bool
  | .nil => true
  | .cons _ _ v rest => v.IsZero && rest.allZero
end

mutual
/-- The addresses held by the pointers of a value. -/
def HVal.ptrs : HVal → List Nat
  | .ptr _ (some a) => [a]
  | .struct _ fs => fs.ptrs
  | _ => []
/-- The addresses held by the pointers of the fields. -/
def HFields.ptrs : HFields → List Nat
  | .nil => []
  | .cons _ _ v rest => v.ptrs ++ rest.ptrs
end

/-- First declared field with the given name. -/
def HFields.find : HFields → String → Option HVal
  | .nil, _ => none
  | .cons n _ v rest, name => if n = name then some v else rest.find name

/-- Replace the value of the first declared field with the given name. -/
def HFields.modify : HFields → String → (HVal → HVal) → HFields
  | .nil, _, _ => .nil
  | .cons n t v rest, name, f =>
    if n = name then .cons n t (f v) rest else .cons n t v (rest.modify name f)

/-- The part of an object at a path of field names through nested structs. -/
def HVal.getIn : List String → HVal → Option HVal
  | [], v => some v
  | n :: rest, .struct _ fs =>
    match fs.find n with
    | some fv => getIn rest fv
    | none => none
  | _ :: _, _ => none

/-- The object with the part at a path of field names replaced. -/
def HVal.putIn : List String → HVal → HVal → HVal
  | [], _, x => x
  | n :: rest, .struct ty fs, x => .struct ty (fs.modify n (fun f => putIn rest f x))
  | _ :: _, v, _ => v

/-- The memory: the object at every address. -/
abbrev Heap := List HVal

/-- A slot in memory: an object and a path of field names inside it. -/
structure Loc where
  cell : Nat
  path : List String
  deriving DecidableEq

/-- The content of a slot. -/
def load (h : Heap) (l : Loc) : Option HVal :=
  match h[l.cell]? with
  | some v => v.getIn l.path
  | none => none

/-- The memory after a slot has been overwritten. -/
def store (h : Heap) (l : Loc) (x : HVal) : Heap :=
  match h[l.cell]? with
  | some v => h.set l.cell (v.putIn l.path x)
  | none => h

/-- A valid `reflect.Value` over the memory: the slot it refers to and its
read-only flag. -/
structure HValue where
  loc : Loc
  ro : Bool
  deriving DecidableEq

/-- Kind of a possibly zero `reflect.Value` over the memory. -/
def kindAt (h : Heap) : Option HValue → Kind
  | none => .Invalid
  | some v =>
    match load h v.loc with
    | some x => x.Kind
    | none => .Invalid

/-- Pointee of a pointer over the memory: `reflect.Value.Elem`. -/
def elemAt (h : Heap) : Option HValue → Option HValue
  | none => none
  | some v =>
    match load h v.loc with
    | some (.ptr _ (some a)) => some ⟨⟨a, []⟩, v.ro⟩
    | _ => none

/-- Field of a struct by name over the memory: `reflect.Value.FieldByName`. -/
def fieldAt (h : Heap) : Option HValue → String → Option HValue
  | none, _ => none
  | some v, name =>
    match load h v.loc with
    | some (.struct _ fs) =>
      match fs.find name with
      | some _ => some ⟨⟨v.loc.cell, v.loc.path ++ [name]⟩, v.ro || !isExported name⟩
      | none => none
    | _ => none

/-- The inner loop over `replace.field`, over the memory. -/
def walkH (h : Heap) : List String → Option HValue → Option (Option HValue)
  | [], filed => some filed
  | name :: rest, filed =>
    let filed := if kindAt h filed = Kind.Ptr then elemAt h filed else filed
    if kindAt h filed ≠ Kind.Struct then none
    else walkH h rest (fieldAt h filed (Title name))

/-- One element of `replaces` over the memory: the split path and the
`reflect.Value` of the tagged field, which refers to a slot of the deep copy. -/
structure HReplace where
  field : List String
  value : HValue
  deriving DecidableEq

/-- One iteration of the loop over `replaces`, over the memory: the target is
the object at `target`.  `Set` copies the current content of the slot that
`replace.value` refers to; a pointer is copied as the address it holds. -/
def applyReplaceH (replace : HReplace) (target : Nat) (h : Heap) : Heap × Effect :=
  match walkH h replace.field (some ⟨⟨target, []⟩, false⟩) with
  | none => (h, .skipped)
  | some none => (h, .skipped)
  | some (some filed) =>
    match load h filed.loc, load h replace.value.loc with
    | some cur, some src =>
      if !filed.ro && cur.IsZero && cur.Type == src.Type then
        if replace.value.ro then (h, .panicked) else (store h filed.loc src, .assigned)
      else (h, .skipped)
    | _, _ => (h, .skipped)

/-- The memory when a mutator call ends, and whether it ended in a panic. -/
structure HOutcome where
  heap : Heap
  panicked : Bool
  deriving DecidableEq

/-- The returned mutator over the memory: the loop over `replaces` on the
target at `target`. -/
def mutateH : List HReplace → Nat → Heap → HOutcome
  | [], _, h => ⟨h, false⟩
  | replace :: rest, target, h =>
    match applyReplaceH replace target h with
    | (h', .panicked) => ⟨h', true⟩
    | (h', _) => mutateH rest target h'

mutual
/-- Modelled from the spec: the deep-copy primitive on parent values
(`DeepCopyObject`), which is not among the files at hand.  It lays a value out
in fresh objects appended to the memory, one for every non-nil pointer, and
returns the memory and the copy of the value; no existing object is touched. -/
def deepCopy : Val → Heap → Heap × HVal
  | .bool ty b, h => (h, .bool ty b)
  | .int ty n, h => (h, .int ty n)
  | .str ty s, h => (h, .str ty s)
  | .ref ty c, h => (h, .ref ty c)
  | .nilptr ty, h => (h, .ptr ty none)
  | .ptr ty e, h => (((deepCopy e h).1 ++ [(deepCopy e h).2]), .ptr ty (some (deepCopy e h).1.length))
  | .struct ty fs, h => ((deepCopyFields fs h).1, .struct ty (deepCopyFields fs h).2)
/-- The deep copy of the fields of a struct. -/
def deepCopyFields : Fields → Heap → Heap × HFields
  | .nil, h => (h, .nil)
  | .cons n t v rest, h =>
    ((deepCopyFields rest (deepCopy v h).1).1,
      .cons n t (deepCopy v h).2 (deepCopyFields rest (deepCopy v h).1).2)
end

/-- The entries one tagged field adds, over the memory. -/
def appendItemsH (replaces : List HReplace) (v : String) (value : HValue) : List HReplace :=
  (Split v ',').foldl (fun acc item => acc ++ [⟨Split item '.', value⟩]) replaces

/-- The loop of `search` over the fields of the struct at `loc` in the deep
copy.  The walk follows the parent's value, which the copy mirrors field by
field, and takes the addresses of the pointees from the copy. -/
def searchH (h : Heap) : Fields → Loc → Bool → List HReplace → List HReplace
  | .nil, _, _, replaces => replaces
  | .cons name (some v) _ rest, loc, ro, replaces =>
    searchH h rest loc ro
      (appendItemsH replaces v ⟨⟨loc.cell, loc.path ++ [name]⟩, ro || !isExported name⟩)
  | .cons name none (.ptr _ (.struct _ fs)) rest, loc, ro, replaces =>
    match load h ⟨loc.cell, loc.path ++ [name]⟩ with
    | some (.ptr _ (some a)) =>
      searchH h rest loc ro (searchH h fs ⟨a, []⟩ (ro || !isExported name) replaces)
    | _ => searchH h rest loc ro replaces
  | .cons name none (.struct _ fs) rest, loc, ro, replaces =>
    searchH h rest loc ro
      (searchH h fs ⟨loc.cell, loc.path ++ [name]⟩ (ro || !isExported name) replaces)
  | .cons _ none _ rest, loc, ro, replaces => searchH h rest loc ro replaces

/-- The factory over the memory, for a parent whose value is `owner`: the
memory with the deep copy added, and the plan, whose values refer to slots of
the copy. -/
def GetOverrideMutationH (owner : Val) (h : Heap) : Option (Heap × List HReplace) :=
  match owner with
  | .struct ty fs =>
    let copy := deepCopyFields fs h
    let h' := copy.1 ++ [.struct ty copy.2]
    some (h', searchH h' fs ⟨copy.1.length, []⟩ false [])
  | _ => none

/-- The addresses held by the pointers of the object at an address. -/
def cellPtrs (h : Heap) (a : Nat) : List Nat :=
  match h[a]? with
  | some v => v.ptrs
  | none => []

/-- The objects of the region point at objects of the region only. -/
def Closed (h : Heap) (A : Nat → Bool) : Prop :=
  ∀ a, a < h.length → A a = true → ∀ b ∈ cellPtrs h a, A b = true

instance (h : Heap) (A : Nat → Bool) : Decidable (Closed h A) := by
  unfold Closed; infer_instance

/-- The two memories hold the same objects throughout the region. -/
def AgreeOn (A : Nat → Bool) (h₁ h₂ : Heap) : Prop :=
  ∀ a, A a = true → h₁[a]? = h₂[a]?

/-- A parent `Parent{B int "a.b"; A *Inner "a"}` with `B = 5` and `A` pointing
at a zero `Inner`. -/
def parentBA : Val :=
  .struct tParent (.cons "B" (some "a.b") (.int tInt 5)
    (.cons "A" (some "a") (.ptr (.ptr tInner) (inner 0 0)) .nil))

/-- A fresh target `Target{A *Inner}` in memory, `A` nil. -/
def freshTarget : HVal := .struct tTarget (.cons "A" none (.ptr (.ptr tInner) none) .nil)

/-- What a caller reads at a dotted path of the target at `target`. -/
def readAt (h : Heap) (target : Nat) (path : List String) : Option HVal :=
  match walkH h path (some ⟨⟨target, []⟩, false⟩) with
  | some (some v) => load h v.loc
  | _ => none

/-- The slot a `reflect.Value` refers to lies in the region. -/
def InRegion (A : Nat → Bool) (filed : Option HValue) : Prop :=
  ∀ v, filed = some v → A v.loc.cell = true

/-- The objects added to a memory that had `lo` objects and now has `hi`. -/
def fresh (lo hi : Nat) (a : Nat) : Bool := decide (lo ≤ a) && decide (a < hi)

/-- The pointers of a value and of the objects added with it point at objects
added with it. -/
def FreshCopy (h h' : Heap) (ptrs : List Nat) : Prop :=
  (∀ b ∈ ptrs, h.length ≤ b ∧ b < h'.length) ∧
    ∀ a, h.length ≤ a → a < h'.length → ∀ b ∈ cellPtrs h' a, h.length ≤ b ∧ b < h'.length

mutual
/-- The value an object in memory stands for, pointers followed `fuel` levels
deep. -/
def HVal.toVal : Nat → Heap → HVal → Option Val
  | 0, _, _ => none
  | _ + 1, _, .bool ty b => some (.bool ty b)
  | _ + 1, _, .int ty n => some (.int ty n)
  | _ + 1, _, .str ty s => some (.str ty s)
  | _ + 1, _, .ref ty c => some (.ref ty c)
  | _ + 1, _, .ptr ty none => some (.nilptr ty)
  | fuel + 1, h, .ptr ty (some a) =>
    match h[a]? with
    | some x => (HVal.toVal fuel h x).map (Val.ptr ty)
    | none => none
  | fuel + 1, h, .struct ty fs => (HFields.toFields fuel h fs).map (Val.struct ty)
/-- The fields the fields of an object in memory stand for. -/
def HFields.toFields : Nat → Heap → HFields → Option Fields
  | 0, _, _ => none
  | _ + 1, _, .nil => some .nil
  | fuel + 1, h, .cons n t v rest =>
    match HVal.toVal fuel h v, HFields.toFields fuel h rest with
    | some v', some rest' => some (.cons n t v' rest')
    | _, _ => none
end

/-- The memory with a value laid out in fresh objects, the last of which holds
the value itself. -/
def layOut (v : Val) (h : Heap) : Heap := (deepCopy v h).1 ++ [(deepCopy v h).2]

/-- The original parent of value `parentBA`: `Inner` at address 0, `Parent` at
address 1. -/
def memParentBA : Heap := layOut parentBA []

/-- The memory after the mutator for `memParentBA` has been built: the copy
of `Inner` at address 2, the copy of `Parent` at address 3. -/
def memCopyBA : Heap := layOut parentBA memParentBA

/-- The plan of the mutator built for `parentBA` with its copy at address
`root`. -/
def planBA (root : Nat) : List HReplace :=
  [⟨["a", "b"], ⟨⟨root, ["B"]⟩, false⟩⟩, ⟨["a"], ⟨⟨root, ["A"]⟩, false⟩⟩]

/-! ## Further sample values -/

/-- A parent with a tag of two items, a tag with an empty segment and an empty
item, a tagged field behind a pointer, a nil pointer and an untagged scalar. -/
def ownerTags : Val :=
  .struct tParent
    (.cons "Secrets" (some "imagePullSecrets,spec.imagePullSecrets") (.int tInt 1)
      (.cons "Odd" (some "a..b,") (.int tInt 2)
        (.cons "Inner" none
          (.ptr (.ptr tInner) (.struct tInner (.cons "Deep" (some "x") (.int tInt 3) .nil)))
          (.cons "Nil" none (.nilptr (.ptr tInner))
            (.cons "Plain" none (.int tInt 4) .nil)))))

/-- The reference carries the kind and the name of `ref`, whatever its UID and
API version. -/
def named (r ref : OwnerReference) : Bool := r.kind == ref.kind && r.name == ref.name
mutual
/-- The value is non-zero and has no zero field inside it: a non-zero scalar,
a non-nil pointer or reference, or a struct with at least one field all of
whose fields are filled.  Pointers are not followed. -/
def HVal.filled : HVal → Bool
  | .bool _ b => b
  | .int _ n => n != 0
  | .str _ s => s != ""
  | .ref _ c => c.isSome
  | .ptr _ a => a.isSome
  | .struct _ .nil => false
  | .struct _ (.cons _ _ v rest) => v.filled && rest.everyFilled
/-- Every field is filled. -/
def HFields.everyFilled : HFields → Bool
  | .nil => true
  | .cons _ _ v rest => v.filled && rest.everyFilled
end
/-! ## Embedded fields

The applier and the plan builder once more, for struct types with embedded
fields: `reflect.Value.FieldByName` also finds the fields promoted from
embedded structs and panics when the way to one leads through a nil embedded
pointer, and the read-only flag of an unexported embedded field is not passed
on to its fields. -/

/-- What the struct types of the program declare about embedded fields.
`embedded ty name`: the declared field `name` of the struct type `ty` is an
embedded field.  `promoted ty name`: what `reflect.Type.FieldByName` finds for
a name that is no declared field of `ty`, namely the names of the embedded
fields to go through followed by the name of the field, or nothing when no
embedded struct has such a field at a least depth where it is the only one. -/
structure TypeInfo where
  embedded : Ty → String → Bool
  promoted : Ty → String → Option (List String)

/-- A valid `reflect.Value` with its two read-only flags: `ro` is
`flagStickyRO`, which the fields of a struct inherit, `ero` is `flagEmbedRO`,
which an unexported embedded field gets and its fields do not inherit. -/
structure Cursor where
  val : Val
  ro : Bool
  ero : Bool
  deriving DecidableEq

/-- The declared field `name`, holding `fv`, of a struct of type `ty` that
was reached with the sticky flag `ro`: `reflect.Value.Field`. -/
def fieldOf (τ : TypeInfo) (ty : Ty) (ro : Bool) (name : String) (fv : Val) : Cursor :=
  ⟨fv, ro || (!isExported name && !τ.embedded ty name), !isExported name && τ.embedded ty name⟩

/-- Go down the names of a promoted field: `reflect.Value.FieldByIndex`.
Between two names a pointer is dereferenced, and a nil pointer there makes the
call panic, as does a value without the field: `none`. -/
def FieldByIndex (τ : TypeInfo) : List String → Val → Bool → Option Cursor
  | [], _, _ => none
  | [x], .struct ty fs, ro => (fs.find x).map (fieldOf τ ty ro x)
  | x :: y :: rest, .struct ty fs, ro =>
    match fs.find x with
    | some (.ptr _ e) => FieldByIndex τ (y :: rest) e (fieldOf τ ty ro x e).ro
    | some (.nilptr _) => none
    | some fv => FieldByIndex τ (y :: rest) fv (fieldOf τ ty ro x fv).ro
    | none => none
  | _ :: _, _, _ => none

/-- What `reflect.Value.FieldByName` gives: a field together with the declared
names that lead to it from the struct, the zero Value, or a panic. -/
inductive Lookup where
  | found (c : Cursor) (names : List String)
  | absent
  | panic
  deriving DecidableEq

/-- Field of a struct by name, promoted fields included:
`reflect.Value.FieldByName`.  A declared field is found first; otherwise the
type is asked for a promoted field and the value is walked down to it. -/
def FieldByName (τ : TypeInfo) : Option Cursor → String → Lookup
  | some ⟨.struct ty fs, ro, _⟩, name =>
    match fs.find name with
    | some fv => .found (fieldOf τ ty ro name fv) [name]
    | none =>
      match τ.promoted ty name with
      | none => .absent
      | some index =>
        match FieldByIndex τ index (.struct ty fs) ro with
        | some c => .found c index
        | none => .panic
  | _, _ => .absent

/-- Kind of a possibly zero `reflect.Value`. -/
def kindOfE : Option Cursor → Kind
  | none => .Invalid
  | some c => c.val.Kind

/-- Pointee of a pointer: `reflect.Value.Elem`; both read-only flags are
kept. -/
def elemOfE : Option Cursor → Option Cursor
  | some ⟨.ptr _ e, ro, ero⟩ => some ⟨e, ro, ero⟩
  | _ => none

/-- How the inner loop over `replace.field` ends: with `continue notFound`,
with a panic inside `FieldByName`, or after the last segment, on a cursor that
may be the zero Value, reached along the declared names `names`. -/
inductive Walk where
  | aborted
  | panicked
  | ended (filed : Option Cursor) (names : List String)
  deriving DecidableEq

/-- The inner loop over `replace.field`; `names` are the declared names gone
down so far. -/
def walkE (τ : TypeInfo) : List String → Option Cursor → List String → Walk
  | [], filed, names => .ended filed names
  | name :: rest, filed, names =>
    let filed := if kindOfE filed = Kind.Ptr then elemOfE filed else filed
    if kindOfE filed ≠ Kind.Struct then .aborted
    else
      match FieldByName τ filed (Title name) with
      | .found c index => walkE τ rest (some c) (names ++ index)
      | .absent => walkE τ rest none names
      | .panic => .panicked

/-- One iteration of the loop over `replaces` on the target `value`: a panic
in `FieldByName` or in `Set` ends the call. -/
def applyReplaceE (τ : TypeInfo) (replace : Replace) (value : Val) : Val × Effect :=
  match walkE τ replace.field (some ⟨value, false, false⟩) [] with
  | .aborted => (value, .skipped)
  | .panicked => (value, .panicked)
  | .ended none _ => (value, .skipped)
  | .ended (some filed) names =>
    if !(filed.ro || filed.ero) && filed.val.IsZero && filed.val.Type == replace.value.Type then
      if replace.ro then (value, .panicked)
      else (assign names value replace.value, .assigned)
    else (value, .skipped)

/-- The returned mutator: the loop over `replaces`. -/
def mutateE (τ : TypeInfo) : List Replace → Val → Outcome
  | [], value => ⟨value, false⟩
  | replace :: rest, value =>
    match applyReplaceE τ replace value with
    | (value', .panicked) => ⟨value', true⟩
    | (value', _) => mutateE τ rest value'

/-- The loop of `search` over the fields of a struct value of type `ty`.  A
captured value is read-only when its field is unexported or the struct was
reached through an unexported field that is not embedded. -/
def searchE (τ : TypeInfo) : Ty → Fields → Bool → List Replace → List Replace
  | _, .nil, _, replaces => replaces
  | ty, .cons name (some v) value rest, ro, replaces =>
    searchE τ ty rest ro (appendItems replaces v value (ro || !isExported name))
  | ty, .cons name none (.ptr _ (.struct ty' fs)) rest, ro, replaces =>
    searchE τ ty rest ro
      (searchE τ ty' fs (ro || (!isExported name && !τ.embedded ty name)) replaces)
  | ty, .cons name none (.struct ty' fs) rest, ro, replaces =>
    searchE τ ty rest ro
      (searchE τ ty' fs (ro || (!isExported name && !τ.embedded ty name)) replaces)
  | ty, .cons _ none _ rest, ro, replaces => searchE τ ty rest ro replaces

/-- The plan `GetOverrideMutation` builds for `owner`. -/
def planE (τ : TypeInfo) : Val → List Replace
  | .struct ty fs => searchE τ ty fs false []
  | _ => []

/-- Build the mutator for the struct `owner` points at. -/
def GetOverrideMutationE (τ : TypeInfo) (owner : Val) : Option (Val → Outcome) :=
  match owner with
  | .struct ty fs => some (fun result => mutateE τ (searchE τ ty fs false []) result)
  | _ => none

mutual
/-- The struct types that occur in a value. -/
def Val.structTypes : Val → List Ty
  | .ptr _ e => e.structTypes
  | .struct ty fs => ty :: fs.structTypes
  | _ => []
/-- The struct types that occur in the fields. -/
def Fields.structTypes : Fields → List Ty
  | .nil => []
  | .cons _ _ v rest => v.structTypes ++ rest.structTypes
end

/-- In the struct types `tys` no name of `names` is a field promoted from an
embedded struct or an unexported embedded field. -/
def PlainFor (τ : TypeInfo) (tys : List Ty) (names : List String) : Prop :=
  ∀ ty ∈ tys, ∀ name ∈ names,
    τ.promoted ty name = none ∧ (τ.embedded ty name = true → isExported name = true)

instance (τ : TypeInfo) (tys : List Ty) (names : List String) :
    Decidable (PlainFor τ tys names) := by
  unfold PlainFor; infer_instance

/-- The struct types of a target and of the values of a plan. -/
def typesOf (rs : List Replace) (T : Val) : List Ty :=
  T.structTypes ++ (rs.map (fun r => r.value.structTypes)).flatten

/-- The field names the paths of a plan are looked up by. -/
def namesOf (rs : List Replace) : List String :=
  (rs.map Replace.path).flatten

/-- No segment of a plan path names, in a struct type of the target or of a
plan value, a field promoted from an embedded struct or an unexported embedded
field: every lookup is decided among the declared fields. -/
def Plain (τ : TypeInfo) (rs : List Replace) (T : Val) : Prop :=
  PlainFor τ (typesOf rs T) (namesOf rs)

instance (τ : TypeInfo) (rs : List Replace) (T : Val) : Decidable (Plain τ rs T) := by
  unfold Plain; infer_instance

/-- The cursor of the first embedding as a cursor with both flags. -/
def Value.toCursor (c : Value) : Cursor := ⟨c.val, c.ro, false⟩

/-- The outcome of the walk of the first embedding as an outcome of the
walk with embedded fields, when the walk ended on a valid cursor or was
aborted. -/
def Walk.agrees (w : Walk) (o : Option (Option Value)) (names : List String) : Prop :=
  match o with
  | none => w = .aborted
  | some none => ∃ ns, w = .ended none ns
  | some (some c) => w = .ended (some c.toCursor) names


/-- The type `string`. -/
def tString : Ty := .basic "string"

/-- The struct type `Meta` with the fields `Name string` and `X *Inner`. -/
def tMeta : Ty := .named "example" "Meta"

/-- The struct type `Holder`, which embeds `Meta`. -/
def tHolder : Ty := .named "example" "Holder"

/-- The struct type `PtrHolder`, which embeds `*Meta`. -/
def tPtrHolder : Ty := .named "example" "PtrHolder"

/-- A `Meta` value. -/
def metaOf (name : String) (x : Val) : Val :=
  .struct tMeta (.cons "Name" none (.str tString name) (.cons "X" none x .nil))

/-- A target `Holder{Meta: Meta{Name: name, X: x}}`. -/
def holder (name : String) (x : Val) : Val :=
  .struct tHolder (.cons "Meta" none (metaOf name x) .nil)

/-- A target `PtrHolder{Meta: nil}`. -/
def ptrHolderNil : Val := .struct tPtrHolder (.cons "Meta" none (.nilptr (.ptr tMeta)) .nil)

/-- Embedded fields of the examples: `Holder` embeds `Meta` and `PtrHolder`
embeds `*Meta`, so `Name` and `X` are promoted fields of both; no other type
has an embedded field. -/
def metaInfo : TypeInfo where
  embedded := fun ty name => (ty == tHolder || ty == tPtrHolder) && name == "Meta"
  promoted := fun ty name =>
    if (ty = tHolder ∨ ty = tPtrHolder) ∧ (name = "Name" ∨ name = "X") then some ["Meta", name]
    else none

/-- A parent with `N string` tagged `defaulter:"name"`, holding `"x"`. -/
def ownerName : Val := .struct tParent (.cons "N" (some "name") (.str tString "x") .nil)

/-- A parent with `B int` tagged `defaulter:"x.b"`, holding 5, followed by
`A *Inner` tagged `defaulter:"meta.x"`, pointing at a zero `Inner`. -/
def ownerPromoted : Val :=
  .struct tParent
    (.cons "B" (some "x.b") (.int tInt 5)
      (.cons "A" (some "meta.x") (.ptr (.ptr tInner) (inner 0 0)) .nil))

/-! ## Objects in memory, with embedded fields

The applier over the memory once more, with the promoted fields and the two
read-only flags of `reflect.Value.FieldByName`. -/

/-- A valid `reflect.Value` over the memory with its two read-only flags. -/
structure HCursor where
  loc : Loc
  ro : Bool
  ero : Bool
  deriving DecidableEq

/-- The declared field `name` of the struct of type `ty` in the slot `l`, which
was reached with the sticky flag `ro`: `reflect.Value.Field`. -/
def fieldOfH (τ : TypeInfo) (ty : Ty) (l : Loc) (ro : Bool) (name : String) : HCursor :=
  ⟨⟨l.cell, l.path ++ [name]⟩, ro || (!isExported name && !τ.embedded ty name),
    !isExported name && τ.embedded ty name⟩

/-- Go down the names of a promoted field from the struct in the slot `l`:
`reflect.Value.FieldByIndex`.  Between two names a pointer is dereferenced, and
a nil pointer there makes the call panic, as does a value without the field:
`none`. -/
def FieldByIndexH (τ : TypeInfo) (h : Heap) : List String → Loc → Bool → Option HCursor
  | [], _, _ => none
  | [x], l, ro =>
    match load h l with
    | some (.struct ty fs) => (fs.find x).map (fun _ => fieldOfH τ ty l ro x)
    | _ => none
  | x :: y :: rest, l, ro =>
    match load h l with
    | some (.struct ty fs) =>
      match fs.find x with
      | some (.ptr _ (some a)) => FieldByIndexH τ h (y :: rest) ⟨a, []⟩ (fieldOfH τ ty l ro x).ro
      | some (.ptr _ none) => none
      | some _ => FieldByIndexH τ h (y :: rest) (fieldOfH τ ty l ro x).loc (fieldOfH τ ty l ro x).ro
      | none => none
    | _ => none

/-- What `reflect.Value.FieldByName` gives over the memory: a field, the zero
Value, or a panic. -/
inductive HLookup where
  | found (c : HCursor)
  | absent
  | panic
  deriving DecidableEq

/-- Field of a struct by name over the memory, promoted fields included:
`reflect.Value.FieldByName`. -/
def FieldByNameH (τ : TypeInfo) (h : Heap) : Option HCursor → String → HLookup
  | none, _ => .absent
  | some c, name =>
    match load h c.loc with
    | some (.struct ty fs) =>
      match fs.find name with
      | some _ => .found (fieldOfH τ ty c.loc c.ro name)
      | none =>
        match τ.promoted ty name with
        | none => .absent
        | some index =>
          match FieldByIndexH τ h index c.loc c.ro with
          | some f => .found f
          | none => .panic
    | _ => .absent

/-- Kind of a possibly zero `reflect.Value` over the memory. -/
def kindAtE (h : Heap) : Option HCursor → Kind
  | none => .Invalid
  | some c =>
    match load h c.loc with
    | some x => x.Kind
    | none => .Invalid

/-- Pointee of a pointer over the memory: `reflect.Value.Elem`; both read-only
flags are kept. -/
def elemAtE (h : Heap) : Option HCursor → Option HCursor
  | none => none
  | some c =>
    match load h c.loc with
    | some (.ptr _ (some a)) => some ⟨⟨a, []⟩, c.ro, c.ero⟩
    | _ => none

/-- How the inner loop over `replace.field` ends over the memory: with
`continue notFound`, with a panic inside `FieldByName`, or after the last
segment, on a cursor that may be the zero Value. -/
inductive HWalk where
  | aborted
  | panicked
  | ended (filed : Option HCursor)
  deriving DecidableEq

/-- The inner loop over `replace.field`, over the memory. -/
def walkHE (τ : TypeInfo) (h : Heap) : List String → Option HCursor → HWalk
  | [], filed => .ended filed
  | name :: rest, filed =>
    let filed := if kindAtE h filed = Kind.Ptr then elemAtE h filed else filed
    if kindAtE h filed ≠ Kind.Struct then .aborted
    else
      match FieldByNameH τ h filed (Title name) with
      | .found c => walkHE τ h rest (some c)
      | .absent => walkHE τ h rest none
      | .panic => .panicked

/-- One iteration of the loop over `replaces`, over the memory: the target is
the object at `target`.  A panic in `FieldByName` or in `Set` ends the call;
`Set` copies the current content of the slot that `replace.value` refers to. -/
def applyReplaceHE (τ : TypeInfo) (replace : HReplace) (target : Nat) (h : Heap) :
    Heap × Effect :=
  match walkHE τ h replace.field (some ⟨⟨target, []⟩, false, false⟩) with
  | .aborted => (h, .skipped)
  | .panicked => (h, .panicked)
  | .ended none => (h, .skipped)
  | .ended (some filed) =>
    match load h filed.loc, load h replace.value.loc with
    | some cur, some src =>
      if !(filed.ro || filed.ero) && cur.IsZero && cur.Type == src.Type then
        if replace.value.ro then (h, .panicked) else (store h filed.loc src, .assigned)
      else (h, .skipped)
    | _, _ => (h, .skipped)

/-- The returned mutator over the memory: the loop over `replaces` on the
target at `target`. -/
def mutateHE (τ : TypeInfo) : List HReplace → Nat → Heap → HOutcome
  | [], _, h => ⟨h, false⟩
  | replace :: rest, target, h =>
    match applyReplaceHE τ replace target h with
    | (h', .panicked) => ⟨h', true⟩
    | (h', _) => mutateHE τ rest target h'

/-- What a caller reads at a dotted path of the target at `target`. -/
def readAtE (τ : TypeInfo) (h : Heap) (target : Nat) (path : List String) : Option HVal :=
  match walkHE τ h path (some ⟨⟨target, []⟩, false, false⟩) with
  | .ended (some c) => load h c.loc
  | _ => none

/-- A target `Target{A *ty; Z *ty}` in memory whose two pointers hold the same
address `a`. -/
def sharedTarget (ty : Ty) (a : Nat) : HVal :=
  .struct tTarget
    (.cons "A" none (.ptr (.ptr ty) (some a)) (.cons "Z" none (.ptr (.ptr ty) (some a)) .nil))

/-- The memory of the examples with a shared pointee: an `Inner{B: 0, C: 3}` at
address 0, the copy of a parent `Parent{B int "a.b"; D int "z.b"}` holding 5
and 7 at address 1, and at address 2 a target whose `A` and `Z` both point at
the `Inner`. -/
def memShared : Heap :=
  [.struct tInner (.cons "B" none (.int tInt 0) (.cons "C" none (.int tInt 3) .nil)),
    .struct tParent (.cons "B" (some "a.b") (.int tInt 5) (.cons "D" (some "z.b") (.int tInt 7) .nil)),
    sharedTarget tInner 0]

/-- The memory of the example with a shared `Meta`: a `Meta` with `X` nil at
address 0, a zero `Inner` at address 1, the copy of a parent
`Parent{B int "a.x.b"; Q *Inner "z.x"}` holding 5 and the address 1 at
address 2, and at address 3 a target whose `A` and `Z` both point at the
`Meta`. -/
def memSharedMeta : Heap :=
  [.struct tMeta (.cons "Name" none (.str tString "") (.cons "X" none (.ptr (.ptr tInner) none) .nil)),
    .struct tInner (.cons "B" none (.int tInt 0) (.cons "C" none (.int tInt 0) .nil)),
    .struct tParent (.cons "B" (some "a.x.b") (.int tInt 5)
      (.cons "Q" (some "z.x") (.ptr (.ptr tInner) (some 1)) .nil)),
    sharedTarget tMeta 0]

/-- A parent `Parent{P *Meta "a,z"; B int "a.x.b"; Q *Inner "z.x"}`: one tag
names the two paths `a` and `z`. -/
def ownerTwoPaths : Val :=
  .struct tParent
    (.cons "P" (some "a,z") (.ptr (.ptr tMeta) (metaOf "" (.nilptr (.ptr tInner))))
      (.cons "B" (some "a.x.b") (.int tInt 5)
        (.cons "Q" (some "z.x") (.ptr (.ptr tInner) (inner 0 0)) .nil)))

/-- A target `Target{A *Meta; Z *Meta}`, both nil. -/
def targetAZ : Val :=
  .struct tTarget (.cons "A" none (.nilptr (.ptr tMeta)) (.cons "Z" none (.nilptr (.ptr tMeta)) .nil))

/-- The memory of the example with a filled slot: the copy of a parent
`Parent{A *Inner "a"}` at address 1, its `A` pointing at the `Inner{1, 1}` at
address 0, and a target `Target{A *Inner}` at address 3, its `A` pointing at
the `Inner{0, 3}` at address 2. -/
def memFilled : Heap :=
  [.struct tInner (.cons "B" none (.int tInt 1) (.cons "C" none (.int tInt 1) .nil)),
    .struct tParent (.cons "A" (some "a") (.ptr (.ptr tInner) (some 0)) .nil),
    .struct tInner (.cons "B" none (.int tInt 0) (.cons "C" none (.int tInt 3) .nil)),
    .struct tTarget (.cons "A" none (.ptr (.ptr tInner) (some 2)) .nil)]

/-- The memory of the example with two entries for one path: the copy of a
parent `Parent{A int "x"; B int "x"}` holding 5 and 9 at address 0 and a
target `Target{X int}` holding 0 at address 1. -/
def memSamePath : Heap :=
  [.struct tParent (.cons "A" (some "x") (.int tInt 5) (.cons "B" (some "x") (.int tInt 9) .nil)),
    .struct tTarget (.cons "X" none (.int tInt 0) .nil)]

/-! ## Plans that fill ancestors first -/

/-- In the plan no path is a proper prefix of the path of an earlier entry: an
entry that fills an ancestor comes before the entries that go through it. -/
def AncestorsFirst (rs : List Replace) : Prop :=
  rs.Pairwise (fun r₁ r₂ => r₂.path <+: r₁.path → r₂.path = r₁.path)

instance (rs : List Replace) : Decidable (AncestorsFirst rs) := by
  unfold AncestorsFirst; infer_instance

/-- The tags `search` reads in the fields of a struct value, in the order it
reads them. -/
def tagsOf : Fields → List String
  | .nil => []
  | .cons _ (some v) _ rest => v :: tagsOf rest
  | .cons _ none (.ptr _ (.struct _ fs)) rest => tagsOf fs ++ tagsOf rest
  | .cons _ none (.struct _ fs) rest => tagsOf fs ++ tagsOf rest
  | .cons _ none _ rest => tagsOf rest

/-- Every tag of the parent names one path, so that no field of the copy is
offered to two slots of the target. -/
def OnePathPerTag (owner : Val) : Prop :=
  match owner with
  | .struct _ fs => ∀ tag ∈ tagsOf fs, (Split tag ',').length = 1
  | _ => True

instance (owner : Val) : Decidable (OnePathPerTag owner) := by
  unfold OnePathPerTag; split <;> infer_instance

/-- Type declarations for the `Parent`, `Target` and `Inner` of
`ownerNestedLast` and `targetNilA`. -/
def nestedEnv : TypeEnv where
  kind := fun ty => if ty = tInt then .Int else if ty = .ptr tInner then .Ptr else .Struct
  fields := fun ty =>
    if ty = tInner then [⟨"B", none, tInt⟩, ⟨"C", none, tInt⟩]
    else if ty = tParent then [⟨"A", some "a", .ptr tInner⟩, ⟨"B", some "a.b", tInt⟩]
    else if ty = tTarget then [⟨"A", none, .ptr tInner⟩]
    else []

/-! ## Lemmas -/

theorem lookup_none (names : List String) :
    (lookup names none).join = none := by
  cases names <;> simp [lookup, kindOf]

theorem lookup_struct (n : String) (rest : List String) (ty : Ty) (fs : Fields) (ro : Bool) :
    lookup (n :: rest) (some ⟨.struct ty fs, ro⟩) =
      lookup rest ((fs.find n).map (fun fv => ⟨fv, ro || !isExported n⟩)) := by
  cases h : fs.find n <;> simp [lookup, kindOf, Val.Kind, fieldByName, h]

theorem lookup_ptr_struct (n : String) (rest : List String) (pty ty : Ty) (fs : Fields)
    (ro : Bool) :
    lookup (n :: rest) (some ⟨.ptr pty (.struct ty fs), ro⟩) =
      lookup rest ((fs.find n).map (fun fv => ⟨fv, ro || !isExported n⟩)) := by
  cases h : fs.find n <;> simp [lookup, kindOf, Val.Kind, fieldByName, elemOf, h]

theorem lookup_join (names : List String) (v : Val) (ro : Bool) :
    (lookup names (some ⟨v, ro⟩)).join = slot names v ro := by
  induction names generalizing v ro with
  | nil => simp [lookup, slot]
  | cons n rest ih =>
    cases v with
    | struct ty fs =>
      rw [lookup_struct]
      cases h : fs.find n with
      | none => simpa [slot, Val.fieldsOf, h] using lookup_none rest
      | some fv => simpa [slot, Val.fieldsOf, h] using ih fv _
    | ptr pty e =>
      cases e with
      | struct ty fs =>
        rw [lookup_ptr_struct]
        cases h : fs.find n with
        | none => simpa [slot, Val.fieldsOf, h] using lookup_none rest
        | some fv => simpa [slot, Val.fieldsOf, h] using ih fv _
      | _ => simp [lookup, slot, kindOf, Val.Kind, Val.fieldsOf, elemOf]
    | _ => simp [lookup, slot, kindOf, Val.Kind, Val.fieldsOf, elemOf]

theorem walk_eq_lookup (p : List String) (c : Option Value) :
    walk p c = lookup (p.map Title) c := by
  induction p generalizing c with
  | nil => rfl
  | cons n rest ih => simp only [walk, lookup, List.map, ih]

/-- Induction over the declared fields of a struct. -/
@[induction_eliminator]
theorem Fields.listInd {motive : Fields → Prop} (nil : motive .nil)
    (cons : ∀ n t v rest, motive rest → motive (.cons n t v rest)) : ∀ fs, motive fs
  | .nil => nil
  | .cons n t v rest => cons n t v rest (Fields.listInd nil cons rest)

theorem Fields.find_modify_same (fs : Fields) (n : String) (f : Val → Val) :
    (fs.modify n f).find n = (fs.find n).map f := by
  induction fs with
  | nil => rfl
  | cons m t v rest ih =>
    by_cases h : m = n
    · simp [Fields.modify, Fields.find, h]
    · simp [Fields.modify, Fields.find, h, ih]

theorem Fields.find_modify_ne (fs : Fields) {n m : String} (f : Val → Val) (h : n ≠ m) :
    (fs.modify n f).find m = fs.find m := by
  induction fs with
  | nil => rfl
  | cons k t v rest ih =>
    by_cases hk : k = n
    · subst hk
      simp [Fields.modify, Fields.find, h]
    · by_cases hm : k = m
      · subst hm
        simp [Fields.modify, Fields.find, hk]
      · simp [Fields.modify, Fields.find, hk, hm, ih]

theorem Fields.modify_congr (fs : Fields) (n : String) (f g : Val → Val)
    (h : ∀ v, fs.find n = some v → f v = g v) : fs.modify n f = fs.modify n g := by
  induction fs with
  | nil => rfl
  | cons m t v rest ih =>
    by_cases hm : m = n
    · simp [Fields.modify, hm, h v (by simp [Fields.find, hm])]
    · have := ih (fun w hw => h w (by simpa [Fields.find, hm] using hw))
      simp [Fields.modify, hm, this]

theorem Fields.modify_id (fs : Fields) (n : String) (f : Val → Val)
    (h : ∀ v, fs.find n = some v → f v = v) : fs.modify n f = fs := by
  induction fs with
  | nil => rfl
  | cons m t v rest ih =>
    by_cases hm : m = n
    · simp [Fields.modify, hm, h v (by simp [Fields.find, hm])]
    · have := ih (fun w hw => h w (by simpa [Fields.find, hm] using hw))
      simp [Fields.modify, hm, this]

theorem Fields.modify_modify_same (fs : Fields) (n : String) (f g : Val → Val) :
    (fs.modify n f).modify n g = fs.modify n (fun v => g (f v)) := by
  induction fs with
  | nil => rfl
  | cons m t v rest ih =>
    by_cases hm : m = n
    · simp [Fields.modify, hm]
    · simp [Fields.modify, hm, ih]

theorem Fields.modify_modify_comm (fs : Fields) {n m : String} (f g : Val → Val)
    (h : n ≠ m) : (fs.modify n f).modify m g = (fs.modify m g).modify n f := by
  induction fs with
  | nil => rfl
  | cons k t v rest ih =>
    by_cases hk : k = n
    · subst hk
      simp [Fields.modify, h]
    · by_cases hm : k = m
      · subst hm
        simp [Fields.modify, hk]
      · simp [Fields.modify, hk, hm, ih]

theorem Fields.allZero_find {fs : Fields} {n : String} {v : Val}
    (hz : fs.allZero = true) (h : fs.find n = some v) : v.IsZero = true := by
  induction fs with
  | nil => simp [Fields.find] at h
  | cons m t w rest ih =>
    simp only [Fields.allZero, Bool.and_eq_true] at hz
    by_cases hm : m = n
    · simp [Fields.find, hm] at h
      subst h
      exact hz.1
    · exact ih hz.2 (by simpa [Fields.find, hm] using h)

theorem Val.fieldsOf_setFields {v : Val} {fs : Fields} (gs : Fields)
    (h : v.fieldsOf = some fs) : (v.setFields gs).fieldsOf = some gs := by
  cases v with
  | struct ty fs0 => rfl
  | ptr pty e => cases e <;> first | rfl | simp [Val.fieldsOf] at h
  | _ => simp [Val.fieldsOf] at h

theorem Val.setFields_self {v : Val} {fs : Fields} (h : v.fieldsOf = some fs) :
    v.setFields fs = v := by
  cases v with
  | struct ty fs0 => simp [Val.fieldsOf] at h; simp [Val.setFields, h]
  | ptr pty e =>
    cases e with
    | struct ty fs0 => simp [Val.fieldsOf] at h; simp [Val.setFields, h]
    | _ => simp [Val.fieldsOf] at h
  | _ => simp [Val.fieldsOf] at h

theorem Val.setFields_setFields (v : Val) (gs hs : Fields) :
    (v.setFields gs).setFields hs = v.setFields hs := by
  cases v with
  | ptr pty e => cases e <;> rfl
  | _ => rfl

theorem Val.type_setFields (v : Val) (gs : Fields) : (v.setFields gs).Type = v.Type := by
  cases v with
  | ptr pty e => cases e <;> rfl
  | _ => rfl

theorem assign_cons (n : String) (rest : List String) (v x : Val) :
    assign (n :: rest) v x =
      match v.fieldsOf with
      | none => v
      | some fs => v.setFields (fs.modify n (fun f => assign rest f x)) := by
  cases v with
  | ptr pty e => cases e <;> rfl
  | _ => rfl

theorem slot_cons (n : String) (rest : List String) (v : Val) (ro : Bool) :
    slot (n :: rest) v ro =
      match v.fieldsOf with
      | none => none
      | some fs =>
        match fs.find n with
        | none => none
        | some fv => slot rest fv (ro || !isExported n) := rfl

theorem Incomp.symm {p q : List String} (h : Incomp p q) : Incomp q p := ⟨h.2, h.1⟩

theorem incomp_cons {a b : String} {p q : List String} :
    Incomp (a :: p) (b :: q) ↔ a ≠ b ∨ Incomp p q := by
  unfold Incomp
  simp only [List.cons_prefix_cons]
  by_cases h : a = b
  · subst h; simp
  · simp [h, Ne.symm h]

theorem not_incomp_nil_left (q : List String) : ¬ Incomp [] q := fun h => h.1 List.nil_prefix

theorem not_incomp_nil_right (p : List String) : ¬ Incomp p [] := fun h => h.2 List.nil_prefix

theorem slot_assign_same {p : List String} {v : Val} {ro : Bool} {c : Value} (x : Val)
    (h : slot p v ro = some c) : slot p (assign p v x) ro = some ⟨x, c.ro⟩ := by
  induction p generalizing v ro with
  | nil =>
    simp only [slot, Option.some.injEq] at h
    subst h
    rfl
  | cons n rest ih =>
    rw [slot_cons] at h
    rw [assign_cons, slot_cons]
    cases hf : v.fieldsOf with
    | none => simp [hf] at h
    | some fs =>
      simp only [hf] at h ⊢
      rw [Val.fieldsOf_setFields _ hf]
      simp only [Fields.find_modify_same]
      cases hn : fs.find n with
      | none => simp [hn] at h
      | some fv =>
        simp only [hn] at h
        simpa using ih h

theorem assign_slot_val {p : List String} {v : Val} {ro : Bool} {c : Value}
    (h : slot p v ro = some c) : assign p v c.val = v := by
  induction p generalizing v ro with
  | nil =>
    simp only [slot, Option.some.injEq] at h
    subst h
    rfl
  | cons n rest ih =>
    rw [slot_cons] at h
    rw [assign_cons]
    cases hf : v.fieldsOf with
    | none => rfl
    | some fs =>
      simp only [hf] at h ⊢
      cases hn : fs.find n with
      | none => simp [hn] at h
      | some fv =>
        simp only [hn] at h
        rw [Fields.modify_id fs n _ (fun w hw => by
          rw [hn] at hw
          cases hw
          exact ih h)]
        exact Val.setFields_self hf

theorem assign_of_slot_none {p : List String} {v : Val} {ro : Bool} (x : Val)
    (h : slot p v ro = none) : assign p v x = v := by
  induction p generalizing v ro with
  | nil => simp [slot] at h
  | cons n rest ih =>
    rw [slot_cons] at h
    rw [assign_cons]
    cases hf : v.fieldsOf with
    | none => rfl
    | some fs =>
      simp only [hf] at h ⊢
      rw [Fields.modify_id fs n _ (fun w hw => by
        rw [hw] at h
        exact ih h)]
      exact Val.setFields_self hf

theorem assign_assign (p : List String) (v x y : Val) :
    assign p (assign p v x) y = assign p v y := by
  induction p generalizing v with
  | nil => rfl
  | cons n rest ih =>
    cases hf : v.fieldsOf with
    | none => simp [assign_cons, hf]
    | some fs =>
      simp only [assign_cons n rest v, hf]
      rw [assign_cons]
      simp only [Val.fieldsOf_setFields _ hf, Val.setFields_setFields,
        Fields.modify_modify_same, ih]

theorem slot_assign_incomp {p q : List String} (v x : Val) (ro : Bool) (h : Incomp p q) :
    slot q (assign p v x) ro = slot q v ro := by
  induction p generalizing q v ro with
  | nil => exact absurd h (not_incomp_nil_left q)
  | cons a p ih =>
    cases q with
    | nil => exact absurd h (not_incomp_nil_right _)
    | cons b q =>
      rw [assign_cons, slot_cons, slot_cons]
      cases hf : v.fieldsOf with
      | none => simp [hf]
      | some fs =>
        simp only [Val.fieldsOf_setFields _ hf]
        by_cases hab : a = b
        · subst hab
          have hpq : Incomp p q := by
            rcases incomp_cons.1 h with h1 | h1
            · exact absurd rfl h1
            · exact h1
          rw [Fields.find_modify_same]
          cases hn : fs.find a with
          | none => rfl
          | some fv => simpa using ih fv _ hpq
        · rw [Fields.find_modify_ne _ _ hab]

theorem assign_comm {p q : List String} (v x y : Val) (h : Incomp p q) :
    assign p (assign q v y) x = assign q (assign p v x) y := by
  induction p generalizing q v with
  | nil => exact absurd h (not_incomp_nil_left q)
  | cons a p ih =>
    cases q with
    | nil => exact absurd h (not_incomp_nil_right _)
    | cons b q =>
      rw [assign_cons, assign_cons, assign_cons, assign_cons]
      cases hf : v.fieldsOf with
      | none => simp [hf]
      | some fs =>
        simp only [Val.fieldsOf_setFields _ hf, Val.setFields_setFields]
        by_cases hab : a = b
        · subst hab
          have hpq : Incomp p q := by
            rcases incomp_cons.1 h with h1 | h1
            · exact absurd rfl h1
            · exact h1
          simp only [Fields.modify_modify_same]
          congr 1
          exact Fields.modify_congr _ _ _ _ (fun w _ => ih w hpq)
        · rw [Fields.modify_modify_comm _ _ _ (Ne.symm hab)]

theorem slot_append (p s : List String) (v : Val) (ro : Bool) :
    slot (p ++ s) v ro = (slot p v ro).bind (fun c => slot s c.val c.ro) := by
  induction p generalizing v ro with
  | nil => rfl
  | cons n rest ih =>
    simp only [List.cons_append, slot_cons]
    cases hf : v.fieldsOf with
    | none => rfl
    | some fs =>
      cases hn : fs.find n with
      | none => simp [hn]
      | some fv => simpa [hn] using ih fv _

theorem walk_slot (p : List String) (T : Val) :
    (walk p (some ⟨T, false⟩)).join = slot (p.map Title) T false := by
  rw [walk_eq_lookup, lookup_join]

theorem applyReplace_eq (r : Replace) (T : Val) :
    applyReplace r T =
      if writable r T then
        if r.ro then (T, .panicked) else (assign r.path T r.value, .assigned)
      else (T, .skipped) := by
  have h := walk_slot r.field T
  unfold applyReplace writable Replace.path
  cases hw : walk r.field (some ⟨T, false⟩) with
  | none =>
    rw [hw] at h
    simp only [Option.join] at h
    simp [← h]
  | some o =>
    rw [hw] at h
    cases o with
    | none =>
      simp only [Option.join] at h
      simp [← h]
    | some filed =>
      simp only [Option.join] at h
      simp only [← h, canSet]
      rfl

theorem step_eq (r : Replace) (T : Val) :
    step r T = if writable r T && !r.ro then assign r.path T r.value else T := by
  unfold step
  rw [applyReplace_eq]
  by_cases hw : writable r T = true <;> by_cases hr : r.ro = true <;> simp [hw, hr]

theorem mutate_result {rs : List Replace} {T : Val} (h : (mutate rs T).panicked = false) :
    (mutate rs T).result = run rs T := by
  induction rs generalizing T with
  | nil => rfl
  | cons r rs ih =>
    unfold mutate at h ⊢
    unfold run step
    cases ha : applyReplace r T with
    | mk v e =>
      cases e with
      | panicked => simp [ha] at h
      | skipped => simp only [ha] at h ⊢; exact ih h
      | assigned => simp only [ha] at h ⊢; exact ih h

theorem slot_step_same {r : Replace} {p : List String} (Z : Val) (h : r.path = p) :
    slot p (step r Z) false = (slot p Z false).map (slotStep r) := by
  rw [step_eq]
  unfold writable
  subst h
  cases hs : slot r.path Z false with
  | none => simp [hs]
  | some c =>
    cases hro : c.ro <;> cases hz : c.val.IsZero <;>
      by_cases ht : c.val.Type = r.value.Type <;> cases hr : r.ro <;>
      simp [hs, slotStep, hro, hz, ht, hr, slot_assign_same _ hs]

theorem slot_step_incomp {r : Replace} {p : List String} (Z : Val) (h : Incomp r.path p) :
    slot p (step r Z) false = slot p Z false := by
  rw [step_eq]
  by_cases hw : (writable r Z && !r.ro) = true
  · rw [if_pos hw]
    exact slot_assign_incomp _ _ _ h
  · rw [if_neg hw]

theorem slot_step {r : Replace} {p : List String} (Z : Val)
    (h : r.path = p ∨ Incomp r.path p) :
    slot p (step r Z) false = (slot p Z false).map (classStep p r) := by
  rcases h with h | h
  · rw [slot_step_same Z h]
    have : classStep p r = slotStep r := by
      funext c
      simp [classStep, h]
    rw [this]
  · rw [slot_step_incomp Z h]
    have hne : r.path ≠ p := fun e => h.1 (e ▸ List.prefix_refl _)
    have : classStep p r = id := by
      funext c
      simp [classStep, hne]
    rw [this, Option.map_id]
    rfl

theorem slot_run {G : List Replace} {p : List String} (Z : Val)
    (h : ∀ r ∈ G, r.path = p ∨ Incomp r.path p) :
    slot p (run G Z) false = (slot p Z false).map (slotRun p G) := by
  induction G generalizing Z with
  | nil => cases hs : slot p Z false <;> simp [run, slotRun, hs]
  | cons r G ih =>
    simp only [run]
    rw [ih _ (fun r' hr' => h r' (List.mem_cons_of_mem _ hr')),
      slot_step Z (h r (List.mem_cons_self _ _))]
    cases slot p Z false <;> simp [slotRun]

theorem classStep_ro (p : List String) (r : Replace) (c : Value) :
    (classStep p r c).ro = c.ro := by
  unfold classStep slotStep
  split <;> [split; skip] <;> rfl

theorem classStep_type (p : List String) (r : Replace) (c : Value) :
    (classStep p r c).val.Type = c.val.Type := by
  unfold classStep slotStep
  by_cases h1 : r.path = p
  · by_cases h2 : (!r.ro && !c.ro && c.val.IsZero && c.val.Type == r.value.Type) = true
    · rw [if_pos h1, if_pos h2]
      simp only [Bool.and_eq_true, beq_iff_eq] at h2
      exact h2.2.symm
    · rw [if_pos h1, if_neg h2]
  · rw [if_neg h1]

theorem classStep_nonzero (p : List String) (r : Replace) {c : Value}
    (h : c.val.IsZero = false) : classStep p r c = c := by
  unfold classStep slotStep
  simp [h]

theorem slotRun_ro (p : List String) (G : List Replace) (c : Value) :
    (slotRun p G c).ro = c.ro := by
  induction G generalizing c with
  | nil => rfl
  | cons r G ih => rw [slotRun, ih, classStep_ro]

theorem slotRun_type (p : List String) (G : List Replace) (c : Value) :
    (slotRun p G c).val.Type = c.val.Type := by
  induction G generalizing c with
  | nil => rfl
  | cons r G ih => rw [slotRun, ih, classStep_type]

theorem slotRun_nonzero (p : List String) (G : List Replace) {c : Value}
    (h : c.val.IsZero = false) : slotRun p G c = c := by
  induction G with
  | nil => rfl
  | cons r G ih => rw [slotRun, classStep_nonzero p r h, ih]

theorem step_assign_same {r : Replace} {p : List String} {Z : Val} {c : Value} (u : Val)
    (h : r.path = p) (hs : slot p Z false = some c) :
    step r (assign p Z u) = assign p Z (slotStep r ⟨u, c.ro⟩).val := by
  rw [step_eq]
  unfold writable
  subst h
  rw [slot_assign_same u hs]
  cases hro : c.ro <;> cases hz : u.IsZero <;>
    by_cases ht : u.Type = r.value.Type <;> cases hr : r.ro <;>
    simp [slotStep, hro, hz, ht, hr, assign_assign]

theorem step_assign_incomp {r : Replace} {p : List String} (Z u : Val)
    (h : Incomp r.path p) :
    step r (assign p Z u) = assign p (step r Z) u := by
  rw [step_eq, step_eq]
  have hw : writable r (assign p Z u) = writable r Z := by
    unfold writable
    rw [slot_assign_incomp _ _ _ h.symm]
  rw [hw]
  by_cases hc : (writable r Z && !r.ro) = true
  · rw [if_pos hc, if_pos hc]
    exact assign_comm _ _ _ h
  · rw [if_neg hc, if_neg hc]

theorem step_assign {r : Replace} {p : List String} {Z : Val} {c : Value} (u : Val)
    (h : r.path = p ∨ Incomp r.path p) (hs : slot p Z false = some c) :
    step r (assign p Z u) = assign p (step r Z) (classStep p r ⟨u, c.ro⟩).val := by
  rcases h with h | h
  · rw [step_assign_same u h hs]
    have hZ : step r Z = assign p Z (slotStep r c).val := by
      have := step_assign_same c.val h hs
      rwa [assign_slot_val hs] at this
    rw [hZ, assign_assign]
    simp [classStep, h]
  · rw [step_assign_incomp Z u h]
    have hne : r.path ≠ p := fun e => h.1 (e ▸ List.prefix_refl _)
    simp [classStep, hne]

theorem run_assign {G : List Replace} {p : List String} {Z : Val} {c : Value} (u : Val)
    (h : ∀ r ∈ G, r.path = p ∨ Incomp r.path p) (hs : slot p Z false = some c) :
    run G (assign p Z u) = assign p (run G Z) (slotRun p G ⟨u, c.ro⟩).val := by
  induction G generalizing Z c u with
  | nil => rfl
  | cons r G ih =>
    have hr := h r (List.mem_cons_self _ _)
    have hG : ∀ r' ∈ G, r'.path = p ∨ Incomp r'.path p :=
      fun r' hr' => h r' (List.mem_cons_of_mem _ hr')
    have hs' : slot p (step r Z) false = some (classStep p r c) := by
      rw [slot_step Z hr, hs]
      rfl
    simp only [run, slotRun]
    rw [step_assign u hr hs, ih _ hG hs', classStep_ro]
    have : classStep p r ⟨u, c.ro⟩ = ⟨(classStep p r ⟨u, c.ro⟩).val, c.ro⟩ := by
      have := classStep_ro p r ⟨u, c.ro⟩
      cases hc : classStep p r ⟨u, c.ro⟩ with
      | mk v ro =>
        rw [hc] at this
        simp only at this
        simp [this]
    rw [← this]

theorem noProperPrefix_tail {r : Replace} {rs : List Replace} (h : NoProperPrefix (r :: rs)) :
    NoProperPrefix rs :=
  fun r₁ h₁ r₂ h₂ => h r₁ (List.mem_cons_of_mem _ h₁) r₂ (List.mem_cons_of_mem _ h₂)

theorem noProperPrefix_head {r : Replace} {rs : List Replace} (h : NoProperPrefix (r :: rs)) :
    ∀ r' ∈ rs, r'.path = r.path ∨ Incomp r'.path r.path := by
  intro r' hr'
  by_cases h1 : r'.path <+: r.path
  · exact Or.inl (h r' (List.mem_cons_of_mem _ hr') r (List.mem_cons_self _ _) h1)
  · by_cases h2 : r.path <+: r'.path
    · exact Or.inl (h r (List.mem_cons_self _ _) r' (List.mem_cons_of_mem _ hr') h2).symm
    · exact Or.inr ⟨h1, h2⟩

theorem run_idem {rs : List Replace} (h : NoProperPrefix rs) (X : Val) :
    run rs (run rs X) = run rs X := by
  induction rs generalizing X with
  | nil => rfl
  | cons r G ih =>
    have hG := noProperPrefix_tail h
    have hc := noProperPrefix_head h
    simp only [run]
    generalize hX1 : step r X = X1
    generalize hY : run G X1 = Y
    have hYY : run G Y = Y := by rw [← hY]; exact ih hG X1
    by_cases hw : (writable r Y && !r.ro) = true
    · -- the entry would write again: its slot in `Y` is zero
      rw [step_eq, if_pos hw]
      simp only [Bool.and_eq_true, Bool.not_eq_true'] at hw
      obtain ⟨hwY, hro⟩ := hw
      unfold writable at hwY
      cases hsY : slot r.path Y false with
      | none => simp [hsY] at hwY
      | some cY =>
        simp only [hsY, Bool.and_eq_true, Bool.not_eq_true', beq_iff_eq] at hwY
        obtain ⟨⟨hcro, hcz⟩, hct⟩ := hwY
        have hs1 := slot_run X1 hc
        rw [hY, hsY] at hs1
        cases hsX1 : slot r.path X1 false with
        | none => simp [hsX1] at hs1
        | some c1 =>
          simp only [hsX1, Option.map_some', Option.some.injEq] at hs1
          have hs0 := slot_step_same X (rfl : r.path = r.path)
          rw [hX1, hsX1] at hs0
          cases hsX : slot r.path X false with
          | none => simp [hsX] at hs0
          | some c0 =>
            simp only [hsX, Option.map_some', Option.some.injEq] at hs0
            -- zero at the end, hence zero all along
            have hz1 : c1.val.IsZero = true := by
              by_contra hn
              have hn' : c1.val.IsZero = false := by simpa using hn
              rw [slotRun_nonzero _ _ hn'] at hs1
              rw [← hs1, hcz] at hn'
              exact Bool.noConfusion hn'
            have hz0 : c0.val.IsZero = true := by
              by_contra hn
              have hn' : c0.val.IsZero = false := by simpa using hn
              have : slotStep r c0 = c0 := by
                have := classStep_nonzero r.path r hn'
                simpa [classStep] using this
              rw [this] at hs0
              rw [← hs0, hz1] at hn'
              exact Bool.noConfusion hn'
            have ht1 : c1.val.Type = r.value.Type := by
              rw [← hct, hs1, slotRun_type]
            have hro1 : c1.ro = false := by
              rw [← hcro, hs1, slotRun_ro]
            have ht0 : c0.val.Type = r.value.Type := by
              have := classStep_type r.path r c0
              simp only [classStep, if_true] at this
              rw [hs0] at ht1
              rw [← this, ht1]
            have hro0 : c0.ro = false := by
              have := classStep_ro r.path r c0
              simp only [classStep, if_true] at this
              rw [hs0] at hro1
              rw [← this, hro1]
            have hc1 : c1 = ⟨r.value, false⟩ := by
              rw [hs0]
              simp [slotStep, hro, hro0, hz0, ht0]
            rw [run_assign r.value hc hsY, hYY, hcro]
            have : slotRun r.path G ⟨r.value, false⟩ = cY := by
              rw [← hc1, ← hs1]
            rw [this]
            exact assign_slot_val hsY
    · rw [step_eq, if_neg hw, hYY]

theorem mutate_cons (r : Replace) (G : List Replace) (X : Val) :
    mutate (r :: G) X = if writable r X && r.ro then ⟨X, true⟩ else mutate G (step r X) := by
  unfold step
  rw [mutate, applyReplace_eq]
  cases hw : writable r X <;> cases hr : r.ro <;> simp

theorem writable_step_false {r r' : Replace} {Z : Val}
    (hc : r'.path = r.path ∨ Incomp r'.path r.path) (h : writable r Z = false) :
    writable r (step r' Z) = false := by
  unfold writable at h ⊢
  rw [slot_step Z hc]
  cases hs : slot r.path Z false with
  | none => rfl
  | some c =>
    rw [hs] at h
    simp only [Option.map_some'] at h ⊢
    by_cases hz : c.val.IsZero = false
    · rw [classStep_nonzero _ _ hz]
      exact h
    · rw [classStep_ro, classStep_type]
      have hz' : c.val.IsZero = true := by simpa using hz
      rw [hz'] at h
      cases hro : c.ro
      · have ht : (c.val.Type == r.value.Type) = false := by simpa [hro] using h
        simp [ht]
      · simp

theorem writable_run_false {r : Replace} {G : List Replace} {Z : Val}
    (hc : ∀ r' ∈ G, r'.path = r.path ∨ Incomp r'.path r.path) (h : writable r Z = false) :
    writable r (run G Z) = false := by
  induction G generalizing Z with
  | nil => exact h
  | cons r' G ih =>
    exact ih (fun r'' h'' => hc r'' (List.mem_cons_of_mem _ h''))
      (writable_step_false (hc r' (List.mem_cons_self _ _)) h)

theorem not_writable_after {rs : List Replace} {X : Val} (hp : NoProperPrefix rs)
    (h : (mutate rs X).panicked = false) :
    ∀ r ∈ rs, r.ro = true → writable r (run rs X) = false := by
  induction rs generalizing X with
  | nil => intro r hr; cases hr
  | cons r₀ G ih =>
    rw [mutate_cons] at h
    by_cases hw : (writable r₀ X && r₀.ro) = true
    · rw [if_pos hw] at h
      exact Bool.noConfusion h
    · rw [if_neg hw] at h
      intro r hr hro
      rcases List.mem_cons.1 hr with rfl | hr
      · have hw0 : writable r X = false := by
          cases hx : writable r X
          · rfl
          · simp [hx, hro] at hw
        have hh : ∀ r' ∈ G, r'.path = r.path ∨ Incomp r'.path r.path :=
          noProperPrefix_head hp
        have h1 : writable r (step r X) = false := writable_step_false (Or.inl rfl) hw0
        show writable r (run G (step r X)) = false
        exact writable_run_false hh h1
      · show writable r (run G (step r₀ X)) = false
        exact ih (noProperPrefix_tail hp) h r hr hro

theorem no_panic_of_not_writable {rs : List Replace} {Y : Val} (hp : NoProperPrefix rs)
    (h : ∀ r ∈ rs, r.ro = true → writable r Y = false) :
    (mutate rs Y).panicked = false := by
  induction rs generalizing Y with
  | nil => rfl
  | cons r₀ G ih =>
    rw [mutate_cons]
    have hw : ¬ (writable r₀ Y && r₀.ro) = true := by
      intro hw
      simp only [Bool.and_eq_true] at hw
      have := h r₀ (List.mem_cons_self _ _) hw.2
      rw [hw.1] at this
      exact Bool.noConfusion this
    rw [if_neg hw]
    apply ih (noProperPrefix_tail hp)
    intro r hr hro
    have hc : r₀.path = r.path ∨ Incomp r₀.path r.path := by
      rcases noProperPrefix_head hp r hr with e | e
      · exact Or.inl e.symm
      · exact Or.inr e.symm
    exact writable_step_false hc (h r (List.mem_cons_of_mem _ hr) hro)

theorem mutate_idempotent {rs : List Replace} (hp : NoProperPrefix rs) (T : Val) :
    twice (mutate rs) T = mutate rs T := by
  unfold twice
  by_cases h : (mutate rs T).panicked = true
  · rw [if_pos h]
  · rw [if_neg h]
    have h' : (mutate rs T).panicked = false := by simpa using h
    have hres := mutate_result h'
    have h2 : (mutate rs (run rs T)).panicked = false :=
      no_panic_of_not_writable hp (not_writable_after hp h')
    have hres2 := mutate_result h2
    rw [run_idem hp] at hres2
    rw [hres]
    cases hm : mutate rs T with
    | mk res pan =>
      cases hm2 : mutate rs (run rs T) with
      | mk res2 pan2 =>
        rw [hm] at h' hres
        rw [hm2] at h2 hres2
        simp only at h' hres h2 hres2
        rw [h', hres, h2, hres2]

theorem Val.kind_of_wellTyped {Γ : TypeEnv} {v : Val} (h : v.WellTyped Γ = true) :
    Γ.kind v.Type = v.Kind := by
  cases v <;> simp [Val.WellTyped] at h <;> simp [Val.Type, Val.Kind, h]

mutual
theorem Val.zero_unique {Γ : TypeEnv} : ∀ (v w : Val), v.WellTyped Γ = true →
    w.WellTyped Γ = true → v.Type = w.Type → v.IsZero = true → w.IsZero = true → v = w
  | .struct ty fs, .struct ty' gs, hv, hw, ht, hzv, hzw => by
    simp only [Val.Type] at ht
    subst ht
    simp only [Val.WellTyped, Bool.and_eq_true] at hv hw
    simp only [Val.IsZero] at hzv hzw
    rw [Fields.allZero_unique fs gs (Γ.fields ty) hv.2 hw.2 hzv hzw]
  | .struct ty fs, .bool _ _, hv, hw, ht, _, _ => by
    have h1 := Val.kind_of_wellTyped hv
    have h2 := Val.kind_of_wellTyped hw
    rw [ht, h2] at h1
    simp [Val.Kind] at h1
  | .struct ty fs, .int _ _, hv, hw, ht, _, _ => by
    have h1 := Val.kind_of_wellTyped hv
    have h2 := Val.kind_of_wellTyped hw
    rw [ht, h2] at h1
    simp [Val.Kind] at h1
  | .struct ty fs, .str _ _, hv, hw, ht, _, _ => by
    have h1 := Val.kind_of_wellTyped hv
    have h2 := Val.kind_of_wellTyped hw
    rw [ht, h2] at h1
    simp [Val.Kind] at h1
  | .struct ty fs, .ref _ _, hv, hw, ht, _, _ => by
    have h1 := Val.kind_of_wellTyped hv
    have h2 := Val.kind_of_wellTyped hw
    rw [ht, h2] at h1
    simp [Val.Kind] at h1
  | .struct ty fs, .nilptr _, hv, hw, ht, _, _ => by
    have h1 := Val.kind_of_wellTyped hv
    have h2 := Val.kind_of_wellTyped hw
    rw [ht, h2] at h1
    simp [Val.Kind] at h1
  | .struct ty fs, .ptr _ _, _, _, _, _, hzw => by
    simp [Val.IsZero] at hzw
  | .bool ty b, w, hv, hw, ht, hzv, hzw => by
    have h1 := Val.kind_of_wellTyped hv
    have h2 := Val.kind_of_wellTyped hw
    rw [ht, h2] at h1
    cases w <;> simp [Val.Kind] at h1
    simp only [Val.IsZero, Bool.not_eq_true'] at hzv hzw
    simp only [Val.Type] at ht
    rw [ht, hzv, hzw]
  | .int ty n, w, hv, hw, ht, hzv, hzw => by
    have h1 := Val.kind_of_wellTyped hv
    have h2 := Val.kind_of_wellTyped hw
    rw [ht, h2] at h1
    cases w <;> simp [Val.Kind] at h1
    simp only [Val.IsZero, beq_iff_eq] at hzv hzw
    simp only [Val.Type] at ht
    rw [ht, hzv, hzw]
  | .str ty s, w, hv, hw, ht, hzv, hzw => by
    have h1 := Val.kind_of_wellTyped hv
    have h2 := Val.kind_of_wellTyped hw
    rw [ht, h2] at h1
    cases w <;> simp [Val.Kind] at h1
    simp only [Val.IsZero, beq_iff_eq] at hzv hzw
    simp only [Val.Type] at ht
    rw [ht, hzv, hzw]
  | .ref ty c, w, hv, hw, ht, hzv, hzw => by
    have h1 := Val.kind_of_wellTyped hv
    have h2 := Val.kind_of_wellTyped hw
    rw [ht, h2] at h1
    cases w <;> simp [Val.Kind] at h1
    simp only [Val.IsZero, Option.isNone_iff_eq_none] at hzv hzw
    simp only [Val.Type] at ht
    rw [ht, hzv, hzw]
  | .nilptr ty, w, hv, hw, ht, hzv, hzw => by
    have h1 := Val.kind_of_wellTyped hv
    have h2 := Val.kind_of_wellTyped hw
    rw [ht, h2] at h1
    cases w <;> simp [Val.Kind] at h1
    · simp only [Val.Type] at ht
      rw [ht]
    · simp [Val.IsZero] at hzw
  | .ptr ty e, _, _, _, _, hzv, _ => by
    simp [Val.IsZero] at hzv
theorem Fields.allZero_unique {Γ : TypeEnv} : ∀ (fs gs : Fields) (ds : List FieldDecl),
    fs.WellTyped Γ ds = true → gs.WellTyped Γ ds = true → fs.allZero = true →
    gs.allZero = true → fs = gs
  | .nil, .nil, _, _, _, _, _ => rfl
  | .nil, .cons _ _ _ _, [], _, hg, _, _ => by simp [Fields.WellTyped] at hg
  | .nil, .cons _ _ _ _, _ :: _, hf, _, _, _ => by simp [Fields.WellTyped] at hf
  | .cons _ _ _ _, .nil, [], hf, _, _, _ => by simp [Fields.WellTyped] at hf
  | .cons _ _ _ _, .nil, _ :: _, _, hg, _, _ => by simp [Fields.WellTyped] at hg
  | .cons _ _ _ _, .cons _ _ _ _, [], hf, _, _, _ => by simp [Fields.WellTyped] at hf
  | .cons n t v rest, .cons n' t' v' rest', d :: ds, hf, hg, hzf, hzg => by
    simp only [Fields.WellTyped, Bool.and_eq_true, beq_iff_eq] at hf hg
    simp only [Fields.allZero, Bool.and_eq_true] at hzf hzg
    obtain ⟨⟨⟨⟨hn, ht⟩, hty⟩, hv⟩, hr⟩ := hf
    obtain ⟨⟨⟨⟨hn', ht'⟩, hty'⟩, hv'⟩, hr'⟩ := hg
    rw [hn, ht, hn', ht', Val.zero_unique v v' hv hv' (hty.trans hty'.symm) hzf.1 hzg.1,
      Fields.allZero_unique rest rest' ds hr hr' hzf.2 hzg.2]
end

theorem Fields.wellTyped_find {Γ : TypeEnv} {fs : Fields} {ds : List FieldDecl} {n : String}
    {fv : Val} (h : fs.WellTyped Γ ds = true) (hf : fs.find n = some fv) :
    fv.WellTyped Γ = true := by
  induction fs generalizing ds with
  | nil => simp [Fields.find] at hf
  | cons m t v rest ih =>
    cases ds with
    | nil => simp [Fields.WellTyped] at h
    | cons d ds =>
      simp only [Fields.WellTyped, Bool.and_eq_true] at h
      by_cases hm : m = n
      · simp [Fields.find, hm] at hf
        subst hf
        exact h.1.2
      · exact ih h.2 (by simpa [Fields.find, hm] using hf)

theorem Val.wellTyped_fieldsOf {Γ : TypeEnv} {v : Val} {fs : Fields}
    (h : v.WellTyped Γ = true) (hf : v.fieldsOf = some fs) :
    ∃ ds, fs.WellTyped Γ ds = true := by
  cases v with
  | struct ty gs =>
    simp only [Val.fieldsOf, Option.some.injEq] at hf
    subst hf
    simp only [Val.WellTyped, Bool.and_eq_true] at h
    exact ⟨_, h.2⟩
  | ptr pty e =>
    cases e with
    | struct ty gs =>
      simp only [Val.fieldsOf, Option.some.injEq] at hf
      subst hf
      simp only [Val.WellTyped, Bool.and_eq_true] at h
      exact ⟨_, h.2.2⟩
    | _ => simp [Val.fieldsOf] at hf
  | _ => simp [Val.fieldsOf] at hf

theorem slot_wellTyped {Γ : TypeEnv} {p : List String} {v : Val} {ro : Bool} {c : Value}
    (h : v.WellTyped Γ = true) (hs : slot p v ro = some c) : c.val.WellTyped Γ = true := by
  induction p generalizing v ro with
  | nil =>
    simp only [slot, Option.some.injEq] at hs
    subst hs
    exact h
  | cons n rest ih =>
    rw [slot_cons] at hs
    cases hf : v.fieldsOf with
    | none => simp [hf] at hs
    | some fs =>
      simp only [hf] at hs
      cases hn : fs.find n with
      | none => simp [hn] at hs
      | some fv =>
        simp only [hn] at hs
        obtain ⟨ds, hds⟩ := Val.wellTyped_fieldsOf h hf
        exact ih (Fields.wellTyped_find hds hn) hs

theorem specPlan_wellTyped {Γ : TypeEnv} (fs : Fields) (ro : Bool) :
    ∀ ds, fs.WellTyped Γ ds = true → ∀ r ∈ specPlan fs ro, r.value.WellTyped Γ = true := by
  induction fs, ro using specPlan.induct with
  | case1 ro => intro ds _ r hr; simp [specPlan] at hr
  | case2 name v value rest ro ih =>
    intro ds h r hr
    cases ds with
    | nil => simp [Fields.WellTyped] at h
    | cons d ds =>
      simp only [Fields.WellTyped, Bool.and_eq_true] at h
      rw [specPlan, List.mem_append] at hr
      rcases hr with hr | hr
      · obtain ⟨item, _, rfl⟩ := List.mem_map.1 hr
        exact h.1.2
      · exact ih ds h.2 r hr
  | case3 name pty ty fs rest ro ih1 ih2 =>
    intro ds h r hr
    cases ds with
    | nil => simp [Fields.WellTyped] at h
    | cons d ds =>
      simp only [Fields.WellTyped, Val.WellTyped, Bool.and_eq_true] at h
      rw [specPlan, List.mem_append] at hr
      rcases hr with hr | hr
      · exact ih1 _ h.1.2.2.2 r hr
      · exact ih2 ds h.2 r hr
  | case4 name ty fs rest ro ih1 ih2 =>
    intro ds h r hr
    cases ds with
    | nil => simp [Fields.WellTyped] at h
    | cons d ds =>
      simp only [Fields.WellTyped, Val.WellTyped, Bool.and_eq_true] at h
      rw [specPlan, List.mem_append] at hr
      rcases hr with hr | hr
      · exact ih1 _ h.1.2.2 r hr
      · exact ih2 ds h.2 r hr
  | case5 name value rest ro h1 h2 ih =>
    intro ds h r hr
    cases ds with
    | nil => simp [Fields.WellTyped] at h
    | cons d ds =>
      simp only [Fields.WellTyped, Bool.and_eq_true] at h
      rw [specPlan] at hr
      · exact ih ds h.2 r hr
      · exact h1
      · exact h2

theorem appendItems_eq (replaces : List Replace) (v : String) (value : Val) (ro : Bool) :
    appendItems replaces v value ro =
      replaces ++ (Split v ',').map (fun item => ⟨Split item '.', value, ro⟩) := by
  unfold appendItems
  generalize Split v ',' = items
  induction items generalizing replaces with
  | nil => simp
  | cons i is ih => simp [List.foldl, ih]

theorem splitChars_eq_splitOn (sep : Char) (cs : List Char) :
    splitChars sep cs = cs.splitOn sep := by
  induction cs with
  | nil => rfl
  | cons c cs ih =>
    unfold splitChars
    rw [ih]
    unfold List.splitOn
    rw [List.splitOnP_cons]
    by_cases h : c = sep
    · simp [h]
    · have hb : (c == sep) = false := by simpa using h
      rw [if_neg h, hb]
      cases hs : List.splitOnP (fun x => x == sep) cs with
      | nil => exact absurd hs (List.splitOnP_ne_nil _ _)
      | cons a t => simp [List.modifyHead]

/-- The model of `strings.Split` gives the pieces the specification speaks
of. -/
theorem Split_eq_pieces (s : String) (sep : Char) : Split s sep = pieces s sep := by
  unfold Split pieces
  rw [splitChars_eq_splitOn]

theorem search_eq_specPlan (fs : Fields) (ro : Bool) (replaces : List Replace) :
    search fs ro replaces = replaces ++ specPlan fs ro := by
  induction fs, ro, replaces using search.induct with
  | case1 ro replaces => simp [search, specPlan]
  | case2 name v value rest ro replaces ih =>
    rw [search, ih, appendItems_eq, specPlan, List.append_assoc, Split_eq_pieces]
    simp only [Split_eq_pieces]
  | case3 name pty ty fs rest ro replaces ih1 ih2 =>
    rw [search, ih2, ih1, specPlan, List.append_assoc]
  | case4 name ty fs rest ro replaces ih1 ih2 =>
    rw [search, ih2, ih1, specPlan, List.append_assoc]
  | case5 name value rest ro replaces h1 h2 ih =>
    rw [search, specPlan, ih]
    · exact h1
    · exact h2
    · exact h1
    · exact h2

theorem splitChars_ne_nil (sep : Char) (cs : List Char) : splitChars sep cs ≠ [] := by
  induction cs with
  | nil => simp [splitChars]
  | cons c cs ih =>
    unfold splitChars
    by_cases h : c = sep
    · simp [h]
    · rw [if_neg h]
      cases hs : splitChars sep cs with
      | nil => exact absurd hs ih
      | cons a t => simp

theorem intercalate_cons_cons (sep x y : List Char) (l : List (List Char)) :
    List.intercalate sep (x :: y :: l) = x ++ sep ++ List.intercalate sep (y :: l) := by
  simp [List.intercalate, List.intersperse]

/-- Joining the pieces with the separator gives the string back: no piece is
dropped, empty ones included. -/
theorem splitChars_intercalate (sep : Char) (cs : List Char) :
    List.intercalate [sep] (splitChars sep cs) = cs := by
  induction cs with
  | nil => simp [splitChars, List.intercalate, List.intersperse]
  | cons c cs ih =>
    unfold splitChars
    by_cases h : c = sep
    · rw [if_pos h]
      cases hs : splitChars sep cs with
      | nil => exact absurd hs (splitChars_ne_nil sep cs)
      | cons a t =>
        rw [intercalate_cons_cons, ← hs, ih, h]
        rfl
    · rw [if_neg h]
      cases hs : splitChars sep cs with
      | nil => exact absurd hs (splitChars_ne_nil sep cs)
      | cons a t =>
        rw [hs] at ih
        simp only
        cases t with
        | nil =>
          simp [List.intercalate, List.intersperse] at ih ⊢
          exact ih
        | cons b t =>
          rw [intercalate_cons_cons] at ih ⊢
          simp only [List.cons_append, List.append_assoc] at ih ⊢
          rw [ih]

/-- No piece contains the separator. -/
theorem splitChars_no_sep (sep : Char) (cs : List Char) :
    ∀ seg ∈ splitChars sep cs, sep ∉ seg := by
  induction cs with
  | nil => simp [splitChars]
  | cons c cs ih =>
    unfold splitChars
    by_cases h : c = sep
    · rw [if_pos h]
      intro seg hseg
      rcases List.mem_cons.1 hseg with rfl | hseg
      · simp
      · exact ih seg hseg
    · rw [if_neg h]
      cases hs : splitChars sep cs with
      | nil => exact absurd hs (splitChars_ne_nil sep cs)
      | cons a t =>
        rw [hs] at ih
        intro seg hseg
        rcases List.mem_cons.1 hseg with rfl | hseg
        · intro hmem
          rcases List.mem_cons.1 hmem with e | e
          · exact h e.symm
          · exact ih a (List.mem_cons_self _ _) e
        · exact ih seg (List.mem_cons_of_mem _ hseg)

/-! ## The mutator as a whole -/

theorem getOverrideMutation_eq {owner : Val} {m : Val → Outcome}
    (h : GetOverrideMutation owner = some m) : m = mutate (planOf owner) := by
  cases owner <;> simp [GetOverrideMutation] at h
  subst h
  rfl

theorem mutate_invariant (P : Val → Prop) {rs : List Replace}
    (hstep : ∀ r ∈ rs, ∀ Z, P Z → P (step r Z)) {T : Val} (h : P T) :
    P (mutate rs T).result := by
  induction rs generalizing T with
  | nil => exact h
  | cons r G ih =>
    rw [mutate_cons]
    by_cases hw : (writable r T && r.ro) = true
    · rw [if_pos hw]
      exact h
    · rw [if_neg hw]
      exact ih (fun r' hr' => hstep r' (List.mem_cons_of_mem _ hr'))
        (hstep r (List.mem_cons_self _ _) T h)

theorem step_of_not_writable {r : Replace} {Z : Val} (h : writable r Z = false) :
    step r Z = Z := by
  rw [step_eq, h]
  rfl

theorem nonzero_of_slot_nonzero {s : List String} {v : Val} {ro : Bool} {c : Value}
    (hs : slot s v ro = some c) (hz : c.val.IsZero = false) : v.IsZero = false := by
  induction s generalizing v ro with
  | nil =>
    simp only [slot, Option.some.injEq] at hs
    subst hs
    exact hz
  | cons n rest ih =>
    rw [slot_cons] at hs
    cases hf : v.fieldsOf with
    | none => simp [hf] at hs
    | some fs =>
      simp only [hf] at hs
      cases hn : fs.find n with
      | none => simp [hn] at hs
      | some fv =>
        simp only [hn] at hs
        have hfv := ih hs
        cases v with
        | struct ty gs =>
          simp only [Val.fieldsOf, Option.some.injEq] at hf
          subst hf
          cases hall : gs.allZero with
          | false => simpa [Val.IsZero] using hall
          | true =>
            rw [Fields.allZero_find hall hn] at hfv
            exact Bool.noConfusion hfv
        | ptr pty e => rfl
        | _ => simp [Val.fieldsOf] at hf

theorem writable_false_of_slot_none {r : Replace} {Z : Val}
    (h : slot r.path Z false = none) : writable r Z = false := by
  unfold writable
  rw [h]

theorem writable_false_of_nonzero {r : Replace} {Z : Val} {c : Value}
    (h : slot r.path Z false = some c) (hz : c.val.IsZero = false) : writable r Z = false := by
  unfold writable
  rw [h]
  simp [hz]

/-- An entry whose path is a prefix of `p`, or incomparable with `p`, leaves a
non-zero slot at `p` as it is. -/
theorem slot_step_of_nonzero {r : Replace} {p : List String} {Z : Val} {c : Value}
    (hr : p <+: r.path → r.path = p) (hs : slot p Z false = some c)
    (hz : c.val.IsZero = false) : slot p (step r Z) false = some c := by
  by_cases h1 : r.path <+: p
  · obtain ⟨s, hps⟩ := h1
    have hsl := slot_append r.path s Z false
    rw [hps, hs] at hsl
    cases hq : slot r.path Z false with
    | none => simp [hq] at hsl
    | some cq =>
      rw [hq] at hsl
      simp only [Option.some_bind] at hsl
      have hnz := nonzero_of_slot_nonzero hsl.symm hz
      rw [step_of_not_writable (writable_false_of_nonzero hq hnz)]
      exact hs
  · have hinc : Incomp r.path p := ⟨h1, fun h2 => h1 (hr h2 ▸ List.prefix_refl _)⟩
    rw [slot_step_incomp Z hinc]
    exact hs

theorem slot_mutate_of_nonzero {rs : List Replace} {p : List String} {T : Val} {c : Value}
    (hr : ∀ r ∈ rs, p <+: r.path → r.path = p) (hs : slot p T false = some c)
    (hz : c.val.IsZero = false) : slot p (mutate rs T).result false = some c :=
  mutate_invariant (fun Z => slot p Z false = some c)
    (fun r h _ hZ => slot_step_of_nonzero (hr r h) hZ hz) hs

/-- An entry whose path is not a proper prefix of `p` leaves a missing slot at
`p` missing. -/
theorem slot_step_of_missing {r : Replace} {p : List String} {Z : Val}
    (hr : r.path <+: p → r.path = p) (hs : slot p Z false = none) :
    slot p (step r Z) false = none := by
  by_cases h1 : p <+: r.path
  · obtain ⟨s, hps⟩ := h1
    have hsl := slot_append p s Z false
    rw [hps, hs] at hsl
    simp only [Option.none_bind] at hsl
    rw [step_of_not_writable (writable_false_of_slot_none hsl)]
    exact hs
  · have hinc : Incomp r.path p := ⟨fun h2 => h1 (hr h2 ▸ List.prefix_refl _), h1⟩
    rw [slot_step_incomp Z hinc]
    exact hs

theorem slot_mutate_of_missing {rs : List Replace} {p : List String} {T : Val}
    (hr : ∀ r ∈ rs, r.path <+: p → r.path = p) (hs : slot p T false = none) :
    slot p (mutate rs T).result false = none :=
  mutate_invariant (fun Z => slot p Z false = none)
    (fun r h _ hZ => slot_step_of_missing (hr r h) hZ) hs

theorem slot_mutate_of_incomp {rs : List Replace} {q : List String} (T : Val)
    (hq : ∀ r ∈ rs, Incomp r.path q) :
    slot q (mutate rs T).result false = slot q T false :=
  mutate_invariant (fun Z => slot q Z false = slot q T false)
    (fun r h Z hZ => (slot_step_incomp Z (hq r h)).trans hZ) rfl

/-- A plan whose values were all read through exported fields never panics. -/
theorem mutate_no_panic {rs : List Replace} (h : ∀ r ∈ rs, r.ro = false) (T : Val) :
    (mutate rs T).panicked = false := by
  induction rs generalizing T with
  | nil => rfl
  | cons r G ih =>
    rw [mutate_cons, h r (List.mem_cons_self _ _)]
    simp only [Bool.and_false, Bool.false_eq_true, if_false]
    exact ih (fun r' hr' => h r' (List.mem_cons_of_mem _ hr')) _

theorem applyReplace_exported {r : Replace} (T : Val) (h : r.ro = false) :
    applyReplace r T =
      if writable r T then (assign r.path T r.value, .assigned) else (T, .skipped) := by
  rw [applyReplace_eq, h]
  rfl

theorem writable_iff (r : Replace) (T : Val) :
    writable r T = true ↔
      ∃ c, slot r.path T false = some c ∧ c.ro = false ∧ c.val.IsZero = true ∧
        c.val.Type = r.value.Type := by
  unfold writable
  cases hs : slot r.path T false with
  | none => simp
  | some c => simp [and_assoc]

/-! ## Properties of the override mutator -/

/-- C1 (the code departs from it): a single entry is assigned exactly when its
slot is reachable, settable, zero and of the value's type.  Here the entry was
read from the unexported field `x` of the parent; the slot `Y` of the target
is reachable, settable, zero and of the value's type, and yet 7 is not stored:
`reflect.Value.Set` panics and the target is left as it was. -/
theorem unexported_source_not_assigned :
    planOf ownerUnexported = [⟨["y"], .int tInt 7, true⟩] ∧
    slot ["Y"] (targetY 0) false = some ⟨.int tInt 0, false⟩ ∧
    (Val.int tInt 0).IsZero = true ∧
    (Val.int tInt 0).Type = (Val.int tInt 7).Type ∧
    (GetOverrideMutation ownerUnexported).map (fun m => m (targetY 0)) =
      some ⟨targetY 0, true⟩ ∧
    assign ["Y"] (targetY 0) (.int tInt 7) = targetY 7 ∧
    targetY 7 ≠ targetY 0 := by
  decide

/-- C2, counterexample: with the path `a.b` ahead of the path `a` in the plan,
the first call fills the nil pointer `A` and only the second call fills `A.B`,
so the second call changes the target again. -/
theorem idempotence_fails_for_nested_paths :
    (planOf ownerNestedFirst).map Replace.path = [["A", "B"], ["A"]] ∧
    (GetOverrideMutation ownerNestedFirst).map (fun m => m targetNilA) =
      some ⟨targetPtrA (inner 0 0), false⟩ ∧
    (GetOverrideMutation ownerNestedFirst).map (fun m => twice m targetNilA) =
      some ⟨targetPtrA (inner 5 0), false⟩ ∧
    targetPtrA (inner 5 0) ≠ targetPtrA (inner 0 0) := by
  decide

/-- C3, counterexample: the slot `A` is non-zero before the call and is the
destination of the entry with path `a`, yet the entry with path `a.b` writes
its field `B`, so the slot is not identical afterwards. -/
theorem zero_only_write_fails_for_nested_paths :
    (planOf ownerNestedStruct).map Replace.path = [["A", "B"], ["A"]] ∧
    slot ["A"] (targetStructA (inner 0 3)) false = some ⟨inner 0 3, false⟩ ∧
    (inner 0 3).IsZero = false ∧
    (GetOverrideMutation ownerNestedStruct).map
        (fun m => slot ["A"] (m (targetStructA (inner 0 3))).result false) =
      some (some ⟨inner 5 3, false⟩) ∧
    inner 5 3 ≠ inner 0 3 := by
  decide

/-- C5, counterexample: the path `a.b` meets a nil pointer in the target when
the call starts, but the entry with path `a` ahead of it fills that pointer, and
the entry with path `a.b` then writes 5 along the very path. -/
theorem missing_path_written_after_ancestor :
    (planOf ownerNestedLast).map Replace.path = [["A"], ["A", "B"]] ∧
    slot ["A", "B"] targetNilA false = none ∧
    (GetOverrideMutation ownerNestedLast).map (fun m => m targetNilA) =
      some ⟨targetPtrA (inner 5 0), false⟩ ∧
    slot ["A", "B"] (targetPtrA (inner 5 0)) false = some ⟨.int tInt 5, false⟩ := by
  decide

/-- C6: an entry whose destination slot has a declared type other than the
type captured with the entry's value does not write the slot: the entry is
skipped and the target is as before. -/
theorem type_mismatch_skipped (r : Replace) (T : Val) (c : Value)
    (hs : slot r.path T false = some c) (ht : c.val.Type ≠ r.value.Type) :
    applyReplace r T = (T, .skipped) := by
  have hw : writable r T = false := by
    unfold writable
    rw [hs]
    simp [ht]
  rw [applyReplace_eq, hw]
  rfl

/-- Witness of `type_mismatch_skipped`: a struct value offered to a slot of
pointer type. -/
theorem type_mismatch_skipped_witness :
    slot (Replace.path ⟨["a"], inner 1 1, false⟩) targetNilA false =
      some ⟨.nilptr (.ptr tInner), false⟩ ∧
    (Val.nilptr (.ptr tInner)).Type ≠ (inner 1 1).Type ∧
    applyReplace ⟨["a"], inner 1 1, false⟩ targetNilA = (targetNilA, .skipped) :=
  ⟨by decide, by decide,
    type_mismatch_skipped ⟨["a"], inner 1 1, false⟩ targetNilA ⟨.nilptr (.ptr tInner), false⟩
      (by decide) (by decide)⟩

/-- C7 (the code departs from it): the override mutator never fails.  Here
the tagged `Affinity` sits in the unexported field `spec` of the parent and the
target's `Affinity` is nil: the call panics in `reflect.Value.Set`. -/
theorem override_panics_on_unexported_field :
    (planOf (harbor "spec" affinityNode)) =
      [⟨["spec", "template", "spec", "affinity"], affinityNode, true⟩] ∧
    (GetOverrideMutation (harbor "spec" affinityNode)).map
        (fun m => m (deployment 3 (.nilptr (.ptr tAffinity)))) =
      some ⟨deployment 3 (.nilptr (.ptr tAffinity)), true⟩ := by
  decide

/-- C8, counterexample: two entries target `x`, the slot `X` is writable, and
the first entry's value is 0: the slot is still zero after the first write,
the second entry writes 5 and the slot ends up holding the later value. -/
theorem zero_first_writer_loses :
    planOf (ownerSamePath 0 5) = [⟨["x"], .int tInt 0, false⟩, ⟨["x"], .int tInt 5, false⟩] ∧
    writable ⟨["x"], .int tInt 0, false⟩ (targetX 0) = true ∧
    writable ⟨["x"], .int tInt 5, false⟩ (targetX 0) = true ∧
    (GetOverrideMutation (ownerSamePath 0 5)).map (fun m => m (targetX 0)) =
      some ⟨targetX 5, false⟩ ∧
    slot ["X"] (targetX 5) false = some ⟨.int tInt 5, false⟩ := by
  decide

/-- C9: the plan built for a struct parent is the pre-order list `specPlan`
of its fields, and the mutator returned applies that list.  The pieces a tag
and an item are split into are those between the separators, none removed:
joined with the separator they give the string back, and no piece holds the
separator. -/
theorem plan_eq_preorder (ty : Ty) (fs : Fields) :
    planOf (.struct ty fs) = specPlan fs false ∧
    GetOverrideMutation (.struct ty fs) = some (mutate (specPlan fs false)) ∧
    (∀ (s : String) (sep : Char),
      List.intercalate [sep] ((pieces s sep).map String.data) = s.data ∧
      ∀ piece ∈ pieces s sep, sep ∉ piece.data) := by
  have h : search fs false [] = specPlan fs false := by
    rw [search_eq_specPlan]
    rfl
  refine ⟨h, ?_, ?_⟩
  · show some (fun result => mutate (search fs false []) result) = _
    rw [h]
  · intro s sep
    have hmap : (pieces s sep).map String.data = splitChars sep s.data := by
      rw [← Split_eq_pieces]
      unfold Split
      rw [List.map_map]
      exact List.map_id _
    refine ⟨?_, ?_⟩
    · rw [hmap]
      exact splitChars_intercalate sep s.data
    · intro piece hp
      have hmem : piece.data ∈ (pieces s sep).map String.data := List.mem_map_of_mem _ hp
      rw [hmap] at hmem
      exact splitChars_no_sep sep s.data _ hmem

/-- Witness of `plan_eq_preorder`: a parent with a tag of two items, a tag
with an empty segment and an empty item, a tagged field behind a pointer, a nil
pointer and an untagged scalar. -/
theorem plan_eq_preorder_witness :
    planOf ownerTags =
      [⟨["imagePullSecrets"], .int tInt 1, false⟩,
        ⟨["spec", "imagePullSecrets"], .int tInt 1, false⟩,
        ⟨["a", "", "b"], .int tInt 2, false⟩,
        ⟨[""], .int tInt 2, false⟩,
        ⟨["x"], .int tInt 3, false⟩] ∧
    pieces "a..b," ',' = ["a..b", ""] ∧
    pieces "a..b" '.' = ["a", "", "b"] :=
  ⟨(plan_eq_preorder tParent _).1.trans (by decide), by decide, by decide⟩

/-- C10: when every value captured from the parent's tagged fields is the
zero value of its type, the call leaves the target as it was, for a parent and
a target that are well typed under some type declarations `Γ`. -/
theorem zero_parent_leaves_target (Γ : TypeEnv) (owner : Val) (m : Val → Outcome) (T : Val)
    (hm : GetOverrideMutation owner = some m) (hwo : owner.WellTyped Γ = true)
    (hwt : T.WellTyped Γ = true) (hz : ∀ r ∈ planOf owner, r.value.IsZero = true) :
    (m T).result = T := by
  rw [getOverrideMutation_eq hm]
  have hplan : ∀ r ∈ planOf owner, r.value.WellTyped Γ = true := by
    cases owner with
    | struct ty fs =>
      simp only [Val.WellTyped, Bool.and_eq_true] at hwo
      intro r hr
      have hr' : r ∈ specPlan fs false := by
        have hp : planOf (.struct ty fs) = specPlan fs false := by
          show search fs false [] = specPlan fs false
          rw [search_eq_specPlan]
          rfl
        rw [hp] at hr
        exact hr
      exact specPlan_wellTyped fs false _ hwo.2 r hr'
    | _ => intro r hr; simp [planOf] at hr
  apply mutate_invariant (fun Z => Z = T) _ rfl
  intro r hr Z hZ
  subst hZ
  rw [step_eq]
  by_cases hw : writable r Z = true
  · obtain ⟨c, hc, -, hcz, hct⟩ := (writable_iff r Z).1 hw
    have heq : c.val = r.value :=
      Val.zero_unique c.val r.value (slot_wellTyped hwt hc) (hplan r hr) hct hcz (hz r hr)
    by_cases hro : r.ro = true
    · simp [hro]
    · rw [← heq, assign_slot_val hc]
      simp
  · simp [hw]

/-- Witness of `zero_parent_leaves_target`: the repository's `not setting`
test. -/
theorem zero_parent_leaves_target_witness :
    GetOverrideMutation (harbor "Spec" (.nilptr (.ptr tAffinity))) =
      some (mutate (planOf (harbor "Spec" (.nilptr (.ptr tAffinity))))) ∧
    (harbor "Spec" (.nilptr (.ptr tAffinity))).WellTyped sampleEnv = true ∧
    (deployment 3 (.nilptr (.ptr tAffinity))).WellTyped sampleEnv = true ∧
    (mutate (planOf (harbor "Spec" (.nilptr (.ptr tAffinity))))
        (deployment 3 (.nilptr (.ptr tAffinity)))).result =
      deployment 3 (.nilptr (.ptr tAffinity)) :=
  ⟨rfl, by decide, by decide,
    zero_parent_leaves_target sampleEnv (harbor "Spec" (.nilptr (.ptr tAffinity))) _ _ rfl
      (by decide) (by decide) (by decide)⟩

/-! ## Title case -/

theorem lower_range {r : Char} (h : r.isLower = true) : 97 ≤ r.toNat ∧ r.toNat ≤ 122 := by
  simp only [Char.isLower, Bool.and_eq_true, decide_eq_true_eq] at h
  exact ⟨h.1, h.2⟩

theorem upper_of_lower (n : Nat) (h1 : 97 ≤ n) (h2 : n ≤ 122) :
    (Char.ofNat (n - 32)).isLower = false ∧ isSeparator (Char.ofNat (n - 32)) = false := by
  interval_cases n <;> decide

theorem toTitle_toTitle (r : Char) : toTitle (toTitle r) = toTitle r := by
  unfold toTitle
  by_cases h : r.isLower = true
  · rw [if_pos h]
    have := (upper_of_lower r.toNat (lower_range h).1 (lower_range h).2).1
    simp [this]
  · rw [if_neg h, if_neg h]

theorem isSeparator_toTitle (r : Char) : isSeparator (toTitle r) = isSeparator r := by
  unfold toTitle
  by_cases h : r.isLower = true
  · rw [if_pos h]
    rw [(upper_of_lower r.toNat (lower_range h).1 (lower_range h).2).2]
    have hr := lower_range h
    unfold isSeparator
    have : r.toNat ≤ 0x7F := by omega
    simp [this, h]
  · rw [if_neg h]

theorem titleMap_congr {a b : Char} (h : isSeparator a = isSeparator b) (cs : List Char) :
    titleMap a cs = titleMap b cs := by
  cases cs with
  | nil => rfl
  | cons c cs => simp [titleMap, h]

theorem titleMap_idem (a : Char) (cs : List Char) :
    titleMap a (titleMap a cs) = titleMap a cs := by
  induction cs generalizing a with
  | nil => rfl
  | cons c cs ih =>
    by_cases h : isSeparator a = true
    · simp only [titleMap, h, if_true, toTitle_toTitle]
      rw [titleMap_congr (isSeparator_toTitle c) (titleMap c cs), ih]
    · simp only [titleMap, h, if_false]
      simp only [Bool.false_eq_true, if_false, ih]

/-- Title case of a string in title case is the string itself. -/
theorem Title_idem (s : String) : Title (Title s) = Title s := by
  unfold Title
  simp [titleMap_idem]

theorem titleVariant_map {p p' : List String} (h : titleVariant p p' = true) :
    p'.map Title = p.map Title := by
  induction p generalizing p' with
  | nil =>
    cases p' with
    | nil => rfl
    | cons s' p' => simp [titleVariant] at h
  | cons s p ih =>
    cases p' with
    | nil => simp [titleVariant] at h
    | cons s' p' =>
      simp only [titleVariant, Bool.and_eq_true, Bool.or_eq_true, beq_iff_eq] at h
      simp only [List.map, ih h.2]
      rcases h.1 with e | e
      · rw [e]
      · rw [e, Title_idem]

/-- An entry acts through its title-case path, its value and its read-only
flag only. -/
theorem applyReplace_congr {r r' : Replace} (hp : r'.path = r.path) (hv : r'.value = r.value)
    (hro : r'.ro = r.ro) (T : Val) : applyReplace r' T = applyReplace r T := by
  rw [applyReplace_eq, applyReplace_eq]
  unfold writable
  rw [hp, hv, hro]

theorem mutate_planVariant {rs rs' : List Replace} (h : planVariant rs rs' = true) (T : Val) :
    mutate rs' T = mutate rs T := by
  induction rs generalizing rs' T with
  | nil =>
    cases rs' with
    | nil => rfl
    | cons r' rs' => simp [planVariant] at h
  | cons r rs ih =>
    cases rs' with
    | nil => simp [planVariant] at h
    | cons r' rs' =>
      simp only [planVariant, Bool.and_eq_true, beq_iff_eq] at h
      obtain ⟨⟨⟨hv, hro⟩, hf⟩, hrest⟩ := h
      have hp : r'.path = r.path := titleVariant_map hf
      unfold mutate
      rw [applyReplace_congr hp hv hro T]
      cases applyReplace r T with
      | mk v e => cases e <;> simp [ih hrest]

/-! ## Independent entries -/

theorem writable_step_incomp {r r' : Replace} (Z : Val) (h : Incomp r'.path r.path) :
    writable r (step r' Z) = writable r Z := by
  unfold writable
  rw [slot_step_incomp Z h]

theorem step_comm {r₁ r₂ : Replace} (T : Val) (h : Incomp r₁.path r₂.path) :
    step r₂ (step r₁ T) = step r₁ (step r₂ T) := by
  rw [step_eq r₁ (step r₂ T), writable_step_incomp T h.symm, step_eq r₁ T]
  by_cases hw : (writable r₁ T && !r₁.ro) = true
  · rw [if_pos hw, if_pos hw]
    exact step_assign_incomp T r₁.value h.symm
  · rw [if_neg hw, if_neg hw]

theorem mutate_pair (r₁ r₂ : Replace) (T : Val) :
    mutate [r₁, r₂] T =
      if writable r₁ T && r₁.ro then ⟨T, true⟩
      else if writable r₂ (step r₁ T) && r₂.ro then ⟨step r₁ T, true⟩
      else ⟨step r₂ (step r₁ T), false⟩ := by
  rw [mutate_cons, mutate_cons]
  rfl

/-! ## Slots that are already filled -/

theorem slot_assign_extension (q s : List String) (Z v : Val) (ro : Bool) :
    slot q (assign (q ++ s) Z v) ro = (slot q Z ro).map (fun c => ⟨assign s c.val v, c.ro⟩) := by
  induction q generalizing Z ro with
  | nil => rfl
  | cons n q ih =>
    rw [List.cons_append, assign_cons, slot_cons, slot_cons]
    cases hf : Z.fieldsOf with
    | none => simp [hf]
    | some fs =>
      simp only [Val.fieldsOf_setFields _ hf, Fields.find_modify_same]
      cases hn : fs.find n with
      | none => rfl
      | some fv => simpa using ih fv _

theorem slot_none_of_leaf {s : List String} {v : Val} (ro : Bool) (hs : s ≠ [])
    (hv : v.fieldsOf = none) : slot s v ro = none := by
  cases s with
  | nil => exact absurd rfl hs
  | cons n rest => rw [slot_cons, hv]

theorem fieldsOf_none_of_kind {v : Val} (h1 : v.Kind ≠ Kind.Struct) (h2 : v.Kind ≠ Kind.Ptr) :
    v.fieldsOf = none := by
  cases v <;> simp [Val.Kind] at h1 h2 <;> rfl

/-- No entry changes a non-zero slot that holds neither a struct nor a
pointer. -/
theorem slot_step_of_leaf {r : Replace} {q : List String} {Z : Val} {c : Value}
    (hs : slot q Z false = some c) (hleaf : c.val.fieldsOf = none)
    (hz : c.val.IsZero = false) : slot q (step r Z) false = some c := by
  by_cases h1 : q <+: r.path
  · by_cases h2 : r.path = q
    · exact slot_step_of_nonzero (fun _ => h2) hs hz
    · obtain ⟨s, hps⟩ := h1
      have hne : s ≠ [] := by
        intro e
        rw [e, List.append_nil] at hps
        exact h2 hps.symm
      have hsl := slot_append q s Z false
      rw [hps, hs] at hsl
      simp only [Option.some_bind] at hsl
      rw [slot_none_of_leaf c.ro hne hleaf] at hsl
      rw [step_of_not_writable (writable_false_of_slot_none hsl)]
      exact hs
  · exact slot_step_of_nonzero (fun h => absurd h h1) hs hz

theorem assign_ptr_cons (n : String) (rest : List String) (ty : Ty) (e v : Val) :
    ∃ e', assign (n :: rest) (.ptr ty e) v = .ptr ty e' := by
  cases e <;> exact ⟨_, rfl⟩

/-- No entry makes a non-nil pointer nil. -/
theorem slot_step_of_ptr {r : Replace} {q : List String} {Z : Val} {ty : Ty} {e : Val}
    {ro : Bool} (hs : slot q Z false = some ⟨.ptr ty e, ro⟩) :
    ∃ e', slot q (step r Z) false = some ⟨.ptr ty e', ro⟩ := by
  by_cases h1 : q <+: r.path
  · by_cases h2 : r.path = q
    · exact ⟨e, slot_step_of_nonzero (fun _ => h2) hs rfl⟩
    · obtain ⟨s, hps⟩ := h1
      rw [step_eq]
      by_cases hw : (writable r Z && !r.ro) = true
      · rw [if_pos hw, ← hps, slot_assign_extension, hs]
        cases s with
        | nil =>
          rw [List.append_nil] at hps
          exact absurd hps.symm h2
        | cons n rest =>
          obtain ⟨e', he'⟩ := assign_ptr_cons n rest ty e r.value
          exact ⟨e', by simp [he']⟩
      · rw [if_neg hw]
        exact ⟨e, hs⟩
  · exact ⟨e, slot_step_of_nonzero (fun h => absurd h h1) hs rfl⟩

/-! ## Properties of the override mutator, continued -/

/-- C11: replacing any path segments of a plan by their title-case form
gives a mutator with the same outcome on every target. -/
theorem title_case_segments_same_effect (rs rs' : List Replace) (T : Val)
    (h : planVariant rs rs' = true) : mutate rs' T = mutate rs T :=
  mutate_planVariant h T

/-- Witness of `title_case_segments_same_effect`: the path
`spec.template.spec.affinity` written `Spec.Template.Spec.Affinity`. -/
theorem title_case_segments_same_effect_witness :
    planVariant [⟨["spec", "template", "spec", "affinity"], affinityNode, false⟩]
      [⟨["Spec", "Template", "Spec", "Affinity"], affinityNode, false⟩] = true ∧
    mutate [⟨["Spec", "Template", "Spec", "Affinity"], affinityNode, false⟩]
        (deployment 3 (.nilptr (.ptr tAffinity))) =
      mutate [⟨["spec", "template", "spec", "affinity"], affinityNode, false⟩]
        (deployment 3 (.nilptr (.ptr tAffinity))) :=
  ⟨by decide, title_case_segments_same_effect _ _ _ (by decide)⟩

/-- C19: for any plan, a slot of the target that holds a non-zero value which
is neither a struct nor a pointer holds the same value after the call, and a
slot that holds a non-nil pointer holds a non-nil pointer after the call. -/
theorem filled_slots_kept (rs : List Replace) (T : Val) (q : List String) :
    (∀ c, slot q T false = some c → c.val.Kind ≠ Kind.Struct → c.val.Kind ≠ Kind.Ptr →
      c.val.IsZero = false → slot q (mutate rs T).result false = some c) ∧
    (∀ ty e ro, slot q T false = some ⟨.ptr ty e, ro⟩ →
      ∃ e', slot q (mutate rs T).result false = some ⟨.ptr ty e', ro⟩) := by
  constructor
  · intro c hs h1 h2 hz
    exact mutate_invariant (fun Z => slot q Z false = some c)
      (fun r _ _ hZ => slot_step_of_leaf hZ (fieldsOf_none_of_kind h1 h2) hz) hs
  · intro ty e ro hs
    exact mutate_invariant (fun Z => ∃ e', slot q Z false = some ⟨.ptr ty e', ro⟩)
      (fun r _ _ hZ => by
        obtain ⟨e₀, he₀⟩ := hZ
        exact slot_step_of_ptr he₀) ⟨e, hs⟩

/-- Witness of `filled_slots_kept`: the plan with the nested paths `a.b` and
`a` on a target whose `N` is 4 and whose `A` points at an `Inner`. -/
theorem filled_slots_kept_witness :
    slot ["N"] (targetNA 4 (.ptr (.ptr tInner) (inner 0 3))) false = some ⟨.int tInt 4, false⟩ ∧
    slot ["N"] (mutate (planOf ownerNestedFirst) (targetNA 4 (.ptr (.ptr tInner) (inner 0 3)))).result
        false = some ⟨.int tInt 4, false⟩ ∧
    ∃ e', slot ["A"]
        (mutate (planOf ownerNestedFirst) (targetNA 4 (.ptr (.ptr tInner) (inner 0 3)))).result
        false = some ⟨.ptr (.ptr tInner) e', false⟩ :=
  ⟨by decide,
    (filled_slots_kept (planOf ownerNestedFirst) (targetNA 4 (.ptr (.ptr tInner) (inner 0 3)))
      ["N"]).1 _ (by decide) (by decide) (by decide) (by decide),
    (filled_slots_kept (planOf ownerNestedFirst) (targetNA 4 (.ptr (.ptr tInner) (inner 0 3)))
      ["A"]).2 (.ptr tInner) (inner 0 3) false (by decide)⟩

/-! ## The owner mutator -/

theorem mark_of_identifies {scheme : Scheme} {owner : Owner} {r : OwnerReference}
    (h : identifies r (controllerRef scheme owner) = true) :
    mark r = controllerRef scheme owner := by
  simp only [identifies, Bool.and_eq_true, beq_iff_eq] at h
  obtain ⟨⟨⟨h1, h2⟩, h3⟩, h4⟩ := h
  cases r
  simp only at h1 h2 h3 h4
  simp [mark, controllerRef, h1, h2, h3, h4]

theorem identifies_controllerRef (scheme : Scheme) (owner : Owner) :
    identifies (controllerRef scheme owner) (controllerRef scheme owner) = true := by
  simp [identifies]

theorem controllerRef_controller (scheme : Scheme) (owner : Owner) :
    (controllerRef scheme owner).controller = some true := rfl

/-- The setter succeeds exactly when every reference with `controller=true`
identifies the parent, and then it upserts the parent's reference. -/
theorem setControllerReference_ok {owner : Owner} {controlled : ObjectMeta} {scheme : Scheme}
    (h : ∀ r ∈ controlled.ownerReferences, r.controller = some true →
      identifies r (controllerRef scheme owner) = true) :
    SetControllerReference owner controlled scheme =
      ({ controlled with
          ownerReferences := upsertOwnerRef (controllerRef scheme owner) controlled.ownerReferences },
        none) := by
  unfold SetControllerReference
  have hf : controlled.ownerReferences.find?
      (fun r => r.controller == some true && !identifies r (controllerRef scheme owner)) = none := by
    rw [List.find?_eq_none]
    intro r hr hp
    simp only [Bool.and_eq_true, beq_iff_eq, Bool.not_eq_true'] at hp
    rw [h r hr hp.1] at hp
    exact Bool.noConfusion hp.2
  simp only [hf]

theorem setControllerReference_conflict {owner : Owner} {controlled : ObjectMeta}
    {scheme : Scheme} {r : OwnerReference} (hr : r ∈ controlled.ownerReferences)
    (hc : r.controller = some true) (hd : identifies r (controllerRef scheme owner) = false) :
    ∃ existing, existing ∈ controlled.ownerReferences ∧ existing.controller = some true ∧
      identifies existing (controllerRef scheme owner) = false ∧
      SetControllerReference owner controlled scheme =
        (controlled, some (.alreadyOwned existing)) := by
  cases hf : controlled.ownerReferences.find?
      (fun r => r.controller == some true && !identifies r (controllerRef scheme owner)) with
  | none =>
    rw [List.find?_eq_none] at hf
    have := hf r hr
    simp [hc, hd] at this
  | some existing =>
    have hp := List.find?_some hf
    simp only [Bool.and_eq_true, beq_iff_eq, Bool.not_eq_true'] at hp
    refine ⟨existing, List.mem_of_find?_eq_some hf, hp.1, hp.2, ?_⟩
    simp only [SetControllerReference, hf]

theorem mem_markFirst_mark (p : OwnerReference → Bool) (refs : List OwnerReference)
    (h : refs.any p = true) : ∃ r ∈ refs, p r = true ∧ mark r ∈ markFirst p refs := by
  induction refs with
  | nil => simp at h
  | cons r rs ih =>
    unfold markFirst
    by_cases hp : p r = true
    · rw [if_pos hp]
      exact ⟨r, List.mem_cons_self _ _, hp, List.mem_cons_self _ _⟩
    · rw [if_neg hp]
      have hrs : rs.any p = true := by
        simp only [List.any_cons, Bool.or_eq_true] at h
        rcases h with h | h
        · exact absurd h hp
        · exact h
      obtain ⟨r', hr', hp', hm⟩ := ih hrs
      exact ⟨r', List.mem_cons_of_mem _ hr', hp', List.mem_cons_of_mem _ hm⟩

theorem mem_markFirst_of_mem {p : OwnerReference → Bool} {r : OwnerReference}
    {refs : List OwnerReference} (hr : r ∈ refs) (hp : p r = false) : r ∈ markFirst p refs := by
  induction refs with
  | nil => cases hr
  | cons r' rs ih =>
    unfold markFirst
    by_cases h : p r' = true
    · rw [if_pos h]
      rcases List.mem_cons.1 hr with e | e
      · rw [e, h] at hp
        exact Bool.noConfusion hp
      · exact List.mem_cons_of_mem _ e
    · rw [if_neg h]
      rcases List.mem_cons.1 hr with e | e
      · rw [e]
        exact List.mem_cons_self _ _
      · exact List.mem_cons_of_mem _ (ih e)

theorem mem_upsertOwnerRef_self (scheme : Scheme) (owner : Owner) (refs : List OwnerReference) :
    controllerRef scheme owner ∈ upsertOwnerRef (controllerRef scheme owner) refs := by
  unfold upsertOwnerRef
  split
  · rename_i h
    obtain ⟨r, -, hp, hm⟩ := mem_markFirst_mark _ refs h
    simp only [Bool.and_eq_true] at hp
    rw [mark_of_identifies hp.1] at hm
    exact hm
  · split
    · rename_i h
      obtain ⟨r, -, hp, hm⟩ := mem_markFirst_mark _ refs h
      rw [mark_of_identifies hp] at hm
      exact hm
    · simp

theorem mem_upsertOwnerRef_of_mem {ref r : OwnerReference} {refs : List OwnerReference}
    (hr : r ∈ refs) (hd : identifies r ref = false) : r ∈ upsertOwnerRef ref refs := by
  unfold upsertOwnerRef
  split
  · exact mem_markFirst_of_mem hr (by simp [hd])
  · split
    · exact mem_markFirst_of_mem hr hd
    · exact List.mem_append_left _ hr

theorem upsertOwnerRef_append {ref : OwnerReference} {refs : List OwnerReference}
    (hd : ∀ r ∈ refs, identifies r ref = false) : upsertOwnerRef ref refs = refs ++ [ref] := by
  have h1 : refs.any (fun r => identifies r ref && r.controller == some true) = false := by
    rw [List.any_eq_false]
    intro r hr
    simp [hd r hr]
  have h2 : refs.any (fun r => identifies r ref) = false := by
    rw [List.any_eq_false]
    intro r hr
    simp [hd r hr]
  unfold upsertOwnerRef
  simp [h1, h2]

theorem controllers_markFirst_of_none (p : OwnerReference → Bool) (ref : OwnerReference)
    (hc : ref.controller = some true) (refs : List OwnerReference)
    (hp : ∀ r, p r = true → mark r = ref) (hany : refs.any p = true)
    (hnone : controllers refs = []) : controllers (markFirst p refs) = [ref] := by
  induction refs with
  | nil => simp at hany
  | cons r rs ih =>
    have hr : (r.controller == some true) = false := by
      by_contra hn
      have hn' : (r.controller == some true) = true := by simpa using hn
      simp [controllers, List.filter_cons, hn'] at hnone
    have hrs : controllers rs = [] := by
      simpa [controllers, List.filter_cons, hr] using hnone
    unfold markFirst
    by_cases h : p r = true
    · rw [if_pos h, hp r h]
      have hb : (ref.controller == some true) = true := by simp [hc]
      unfold controllers at hrs ⊢
      simp only [List.filter_cons, hb, if_true, hrs]
    · rw [if_neg h]
      have hany' : rs.any p = true := by
        simp only [List.any_cons, Bool.or_eq_true] at hany
        rcases hany with e | e
        · exact absurd e h
        · exact e
      have := ih hany' hrs
      unfold controllers at this ⊢
      simp only [List.filter_cons, hr, Bool.false_eq_true, if_false]
      exact this

theorem controllers_markFirst_of_one (p : OwnerReference → Bool) (ref : OwnerReference)
    (hc : ref.controller = some true) (refs : List OwnerReference)
    (hp : ∀ r, p r = true → mark r = ref ∧ r.controller = some true)
    (hall : ∀ r ∈ refs, r.controller = some true → p r = true)
    (hany : refs.any p = true) (hone : (controllers refs).length ≤ 1) :
    controllers (markFirst p refs) = [ref] := by
  induction refs with
  | nil => simp at hany
  | cons r rs ih =>
    have hb : (ref.controller == some true) = true := by simp [hc]
    unfold markFirst
    by_cases h : p r = true
    · rw [if_pos h, (hp r h).1]
      have hr : (r.controller == some true) = true := by simp [(hp r h).2]
      have hrs : controllers rs = [] := by
        unfold controllers at hone ⊢
        simp only [List.filter_cons, hr, if_true, List.length_cons] at hone
        exact List.length_eq_zero.1 (by omega)
      unfold controllers at hrs ⊢
      simp only [List.filter_cons, hb, if_true, hrs]
    · rw [if_neg h]
      have hr : (r.controller == some true) = false := by
        by_contra hn
        have hn' : r.controller = some true := by simpa using hn
        exact h (hall r (List.mem_cons_self _ _) hn')
      have hany' : rs.any p = true := by
        simp only [List.any_cons, Bool.or_eq_true] at hany
        rcases hany with e | e
        · exact absurd e h
        · exact e
      have hone' : (controllers rs).length ≤ 1 := by
        unfold controllers at hone ⊢
        simpa only [List.filter_cons, hr, Bool.false_eq_true, if_false] using hone
      have := ih (fun r' hr' => hall r' (List.mem_cons_of_mem _ hr')) hany' hone'
      unfold controllers at this ⊢
      simp only [List.filter_cons, hr, Bool.false_eq_true, if_false]
      exact this

theorem controllers_upsertOwnerRef (scheme : Scheme) (owner : Owner)
    (refs : List OwnerReference)
    (h1 : ∀ r ∈ refs, r.controller = some true →
      identifies r (controllerRef scheme owner) = true)
    (h2 : (controllers refs).length ≤ 1) :
    controllers (upsertOwnerRef (controllerRef scheme owner) refs) =
      [controllerRef scheme owner] := by
  unfold upsertOwnerRef
  split
  · rename_i hany
    refine controllers_markFirst_of_one _ _ rfl refs ?_ ?_ hany h2
    · intro r hr
      simp only [Bool.and_eq_true, beq_iff_eq] at hr
      exact ⟨mark_of_identifies hr.1, hr.2⟩
    · intro r hr hc
      simp [h1 r hr hc, hc]
  · rename_i hany
    have hnone : controllers refs = [] := by
      unfold controllers
      rw [List.filter_eq_nil_iff]
      intro r hr hc
      have hc' : r.controller = some true := by simpa using hc
      apply hany
      rw [List.any_eq_true]
      exact ⟨r, hr, by simp [h1 r hr hc', hc']⟩
    split
    · rename_i hany2
      exact controllers_markFirst_of_none _ _ rfl refs (fun r hr => mark_of_identifies hr)
        hany2 hnone
    · unfold controllers at hnone ⊢
      simp [List.filter_append, hnone, controllerRef]

/-- C12: on a target that carries no object metadata the owner mutator
returns `ErrorResourceType` and leaves the target as it is, whatever the
controller-reference setter would do: the setter is not called. -/
theorem owner_mutation_without_metadata
    (setControllerReference : Owner → ObjectMeta → Scheme → ObjectMeta × Option Error)
    (scheme : Scheme) (owner : Owner) (content : String) :
    GetOwnerMutation setControllerReference scheme owner (.plain content) =
      (.plain content, some ErrorResourceType) := rfl

/-- C13: when the target has a reference with `controller=true` that
identifies a different owner than the parent, the owner mutator returns the
setter's `AlreadyOwned` error, wrapped, and the target is as before. -/
theorem owner_conflict_fails (scheme : Scheme) (owner : Owner) (resourceMeta : ObjectMeta)
    (r : OwnerReference) (hr : r ∈ resourceMeta.ownerReferences)
    (hc : r.controller = some true)
    (hd : identifies r (controllerRef scheme owner) = false) :
    ∃ existing, existing ∈ resourceMeta.ownerReferences ∧
      GetOwnerMutation SetControllerReference scheme owner (.object resourceMeta) =
        (.object resourceMeta,
          some (.wrapped (.alreadyOwned existing) "cannot set controller reference")) := by
  obtain ⟨existing, hmem, -, -, hset⟩ := setControllerReference_conflict hr hc hd
  refine ⟨existing, hmem, ?_⟩
  simp only [GetOwnerMutation, hset, Wrapf, Option.map_some']

/-- Witness of `owner_conflict_fails`: the repository's test with a
controller owner. -/
theorem owner_conflict_fails_witness :
    nsRef "owner" "the-uid" (some true) none ∈
      (ObjectMeta.mk "secret" [nsRef "owner" "the-uid" (some true) none]).ownerReferences ∧
    GetOwnerMutation SetControllerReference sampleScheme unesco
        (.object ⟨"secret", [nsRef "owner" "the-uid" (some true) none]⟩) =
      (.object ⟨"secret", [nsRef "owner" "the-uid" (some true) none]⟩,
        some (.wrapped (.alreadyOwned (nsRef "owner" "the-uid" (some true) none))
          "cannot set controller reference")) :=
  ⟨by decide, by
    obtain ⟨existing, hmem, h⟩ := owner_conflict_fails sampleScheme unesco
      ⟨"secret", [nsRef "owner" "the-uid" (some true) none]⟩
      (nsRef "owner" "the-uid" (some true) none) (by decide) (by decide) (by decide)
    rw [List.mem_singleton.1 hmem] at h
    exact h⟩

/-- C14, counterexample: the target already lists the parent twice with
`controller=true`; no reference belongs to a different owner, so the call
succeeds, and afterwards two references have `controller=true`. -/
theorem duplicate_owner_two_controllers :
    GetOwnerMutation SetControllerReference sampleScheme unesco
        (.object ⟨"secret", [nsRef "unesco" "775665789" (some true) none,
          nsRef "unesco" "775665789" (some true) (some true)]⟩) =
      (.object ⟨"secret", [nsRef "unesco" "775665789" (some true) (some true),
          nsRef "unesco" "775665789" (some true) (some true)]⟩, none) ∧
    (controllers [nsRef "unesco" "775665789" (some true) (some true),
      nsRef "unesco" "775665789" (some true) (some true)]).length = 2 := by
  decide

/-- C14, amended: when at most one reference of the target has
`controller=true` or carries the parent's kind and name before the call, then
after a successful call exactly one reference has `controller=true`, and it is
the parent's controller reference. -/
theorem owner_unique_controller (scheme : Scheme) (owner : Owner)
    (resourceMeta resourceMeta' : ObjectMeta)
    (hok : GetOwnerMutation SetControllerReference scheme owner (.object resourceMeta) =
      (.object resourceMeta', none))
    (hone : (resourceMeta.ownerReferences.filter (fun r =>
      r.controller == some true || named r (controllerRef scheme owner))).length ≤ 1) :
    controllers resourceMeta'.ownerReferences = [controllerRef scheme owner] := by
  have hall : ∀ r ∈ resourceMeta.ownerReferences, r.controller = some true →
      identifies r (controllerRef scheme owner) = true := by
    intro r hr hc
    by_contra hn
    have hd : identifies r (controllerRef scheme owner) = false := by simpa using hn
    obtain ⟨existing, -, -, -, hset⟩ := setControllerReference_conflict hr hc hd
    simp [GetOwnerMutation, hset, Wrapf] at hok
  have hctl : (controllers resourceMeta.ownerReferences).length ≤ 1 := by
    refine le_trans (List.Sublist.length_le ?_) hone
    unfold controllers
    apply List.monotone_filter_right
    intro r hr
    simp [hr]
  simp only [GetOwnerMutation, setControllerReference_ok hall, Wrapf, Option.map_none',
    Prod.mk.injEq, Resource.object.injEq, and_true] at hok
  rw [← hok]
  exact controllers_upsertOwnerRef scheme owner _ hall hctl

/-- Witness of `owner_unique_controller`: a target that lists another owner
without `controller=true` and the parent with it. -/
theorem owner_unique_controller_witness :
    GetOwnerMutation SetControllerReference sampleScheme unesco
        (.object ⟨"secret", [nsRef "owner" "the-uid" (some false) none,
          nsRef "unesco" "775665789" (some true) none]⟩) =
      (.object ⟨"secret", [nsRef "owner" "the-uid" (some false) none,
          nsRef "unesco" "775665789" (some true) (some true)]⟩, none) ∧
    controllers [nsRef "owner" "the-uid" (some false) none,
        nsRef "unesco" "775665789" (some true) (some true)] =
      [controllerRef sampleScheme unesco] :=
  ⟨by decide,
    owner_unique_controller sampleScheme unesco
      ⟨"secret", [nsRef "owner" "the-uid" (some false) none,
        nsRef "unesco" "775665789" (some true) none]⟩
      ⟨"secret", [nsRef "owner" "the-uid" (some false) none,
        nsRef "unesco" "775665789" (some true) (some true)]⟩ (by decide) (by decide)⟩

/-- C15, counterexample: the only reference of the target has
`controller=false` and identifies the parent; the call marks it, so the
reference as it was before the call is no longer present. -/
theorem non_controller_parent_reference_changed :
    GetOwnerMutation SetControllerReference sampleScheme unesco
        (.object ⟨"secret", [nsRef "unesco" "775665789" (some false) none]⟩) =
      (.object ⟨"secret", [nsRef "unesco" "775665789" (some true) (some true)]⟩, none) ∧
    nsRef "unesco" "775665789" (some false) none ∉
      [nsRef "unesco" "775665789" (some true) (some true)] := by
  decide

/-- C15, amended: when no reference of the target has `controller=true`, the
call succeeds, every reference that does not identify the parent is still
present unchanged, and the parent's controller reference is present; when no
reference identifies the parent it is appended to the list as it was. -/
theorem non_controller_owners_retained (scheme : Scheme) (owner : Owner)
    (resourceMeta : ObjectMeta)
    (hnc : ∀ r ∈ resourceMeta.ownerReferences, r.controller ≠ some true) :
    ∃ resourceMeta',
      GetOwnerMutation SetControllerReference scheme owner (.object resourceMeta) =
        (.object resourceMeta', none) ∧
      (∀ r ∈ resourceMeta.ownerReferences, identifies r (controllerRef scheme owner) = false →
        r ∈ resourceMeta'.ownerReferences) ∧
      controllerRef scheme owner ∈ resourceMeta'.ownerReferences ∧
      ((∀ r ∈ resourceMeta.ownerReferences, identifies r (controllerRef scheme owner) = false) →
        resourceMeta'.ownerReferences =
          resourceMeta.ownerReferences ++ [controllerRef scheme owner]) := by
  have hall : ∀ r ∈ resourceMeta.ownerReferences, r.controller = some true →
      identifies r (controllerRef scheme owner) = true :=
    fun r hr hc => absurd hc (hnc r hr)
  refine ⟨⟨resourceMeta.name,
    upsertOwnerRef (controllerRef scheme owner) resourceMeta.ownerReferences⟩, ?_, ?_, ?_, ?_⟩
  · simp only [GetOwnerMutation, setControllerReference_ok hall, Wrapf, Option.map_none']
  · intro r hr hd
    exact mem_upsertOwnerRef_of_mem hr hd
  · exact mem_upsertOwnerRef_self scheme owner _
  · intro hd
    exact upsertOwnerRef_append hd

/-- Witness of `non_controller_owners_retained`: the repository's test with
non-controller owners. -/
theorem non_controller_owners_retained_witness :
    (∀ r ∈ (ObjectMeta.mk "secret" [nsRef "owner" "the-uid" (some false) none]).ownerReferences,
      r.controller ≠ some true) ∧
    ∃ resourceMeta',
      GetOwnerMutation SetControllerReference sampleScheme unesco
          (.object ⟨"secret", [nsRef "owner" "the-uid" (some false) none]⟩) =
        (.object resourceMeta', none) ∧
      controllerRef sampleScheme unesco ∈ resourceMeta'.ownerReferences :=
  ⟨by decide, by
    obtain ⟨m, h1, -, h3, -⟩ := non_controller_owners_retained sampleScheme unesco
      ⟨"secret", [nsRef "owner" "the-uid" (some false) none]⟩ (by decide)
    exact ⟨m, h1, h3⟩⟩

/-- C16: when the only reference of the target has `controller=true` and
identifies the parent, the call succeeds and the list consists of the parent's
controller reference alone. -/
theorem same_owner_reference_kept (scheme : Scheme) (owner : Owner) (name : String)
    (r : OwnerReference) (_hc : r.controller = some true)
    (hi : identifies r (controllerRef scheme owner) = true) :
    GetOwnerMutation SetControllerReference scheme owner (.object ⟨name, [r]⟩) =
      (.object ⟨name, [controllerRef scheme owner]⟩, none) := by
  have hall : ∀ r' ∈ (ObjectMeta.mk name [r]).ownerReferences, r'.controller = some true →
      identifies r' (controllerRef scheme owner) = true := by
    intro r' hr' _
    rw [List.mem_singleton.1 hr']
    exact hi
  simp only [GetOwnerMutation, setControllerReference_ok hall, Wrapf, Option.map_none',
    upsertOwnerRef, markFirst, List.any_cons, List.any_nil, Bool.or_false, hi, _hc,
    beq_self_eq_true, Bool.and_self, if_true, mark_of_identifies hi]

/-- Witness of `same_owner_reference_kept`: the repository's test with the
same owner. -/
theorem same_owner_reference_kept_witness :
    (nsRef "unesco" "775665789" (some true) none).controller = some true ∧
    identifies (nsRef "unesco" "775665789" (some true) none)
      (controllerRef sampleScheme unesco) = true ∧
    GetOwnerMutation SetControllerReference sampleScheme unesco
        (.object ⟨"secret", [nsRef "unesco" "775665789" (some true) none]⟩) =
      (.object ⟨"secret", [nsRef "unesco" "775665789" (some true) (some true)]⟩, none) :=
  ⟨rfl, by decide,
    same_owner_reference_kept sampleScheme unesco "secret"
      (nsRef "unesco" "775665789" (some true) none) rfl (by decide)⟩

/-! ## Objects in memory: locality -/

/-- Induction over the declared fields of a struct in memory. -/
@[induction_eliminator]
theorem HFields.fieldsInd {motive : HFields → Prop} (nil : motive .nil)
    (cons : ∀ n t v rest, motive rest → motive (.cons n t v rest)) : ∀ fs, motive fs
  | .nil => nil
  | .cons n t v rest => cons n t v rest (HFields.fieldsInd nil cons rest)

theorem HFields.find_ptrs (fs : HFields) (n : String) (v : HVal) (h : fs.find n = some v) :
    ∀ b ∈ v.ptrs, b ∈ fs.ptrs := by
  induction fs with
  | nil => simp [HFields.find] at h
  | cons m t w rest ih =>
    intro b hb
    by_cases hm : m = n
    · simp [HFields.find, hm] at h
      subst h
      simp [HFields.ptrs, hb]
    · simp [HFields.find, hm] at h
      simp [HFields.ptrs, ih h b hb]

theorem HVal.getIn_ptrs : ∀ (p : List String) (v w : HVal), HVal.getIn p v = some w →
    ∀ b ∈ w.ptrs, b ∈ v.ptrs
  | [], v, w, h => by
    simp [HVal.getIn] at h
    subst h
    exact fun b hb => hb
  | n :: rest, .struct ty fs, w, h => by
    intro b hb
    simp only [HVal.getIn] at h
    cases hf : fs.find n with
    | none => simp [hf] at h
    | some fv =>
      simp only [hf] at h
      have h1 := HVal.getIn_ptrs rest fv w h b hb
      simpa [HVal.ptrs] using HFields.find_ptrs fs n fv hf b h1
  | _ :: _, .bool _ _, _, h => by simp [HVal.getIn] at h
  | _ :: _, .int _ _, _, h => by simp [HVal.getIn] at h
  | _ :: _, .str _ _, _, h => by simp [HVal.getIn] at h
  | _ :: _, .ref _ _, _, h => by simp [HVal.getIn] at h
  | _ :: _, .ptr _ _, _, h => by simp [HVal.getIn] at h

theorem HFields.modify_ptrs (fs : HFields) (n : String) (f : HVal → HVal) (S : Nat → Prop)
    (hf : ∀ v, fs.find n = some v → ∀ b ∈ (f v).ptrs, b ∈ v.ptrs ∨ S b) :
    ∀ b ∈ (fs.modify n f).ptrs, b ∈ fs.ptrs ∨ S b := by
  induction fs with
  | nil => intro b hb; simp [HFields.modify, HFields.ptrs] at hb
  | cons m t w rest ih =>
    intro b hb
    by_cases hm : m = n
    · simp only [HFields.modify, hm, if_true, HFields.ptrs, List.mem_append] at hb ⊢
      rcases hb with hb | hb
      · rcases hf w (by simp [HFields.find, hm]) b hb with h1 | h1
        · exact Or.inl (Or.inl h1)
        · exact Or.inr h1
      · exact Or.inl (Or.inr hb)
    · simp only [HFields.modify, hm, if_false, HFields.ptrs, List.mem_append] at hb ⊢
      rcases hb with hb | hb
      · exact Or.inl (Or.inl hb)
      · rcases ih (fun v hv => hf v (by simpa [HFields.find, hm] using hv)) b hb with h1 | h1
        · exact Or.inl (Or.inr h1)
        · exact Or.inr h1

theorem HVal.putIn_ptrs : ∀ (p : List String) (v x : HVal),
    ∀ b ∈ (HVal.putIn p v x).ptrs, b ∈ v.ptrs ∨ b ∈ x.ptrs
  | [], v, x => by
    intro b hb
    simp only [HVal.putIn] at hb
    exact Or.inr hb
  | n :: rest, .struct ty fs, x => by
    intro b hb
    simp only [HVal.putIn, HVal.ptrs] at hb ⊢
    exact HFields.modify_ptrs fs n _ (fun b => b ∈ x.ptrs)
      (fun v _ b hb => HVal.putIn_ptrs rest v x b hb) b hb
  | _ :: _, .bool _ _, _ => by intro b hb; simp only [HVal.putIn] at hb; exact Or.inl hb
  | _ :: _, .int _ _, _ => by intro b hb; simp only [HVal.putIn] at hb; exact Or.inl hb
  | _ :: _, .str _ _, _ => by intro b hb; simp only [HVal.putIn] at hb; exact Or.inl hb
  | _ :: _, .ref _ _, _ => by intro b hb; simp only [HVal.putIn] at hb; exact Or.inl hb
  | _ :: _, .ptr _ _, _ => by intro b hb; simp only [HVal.putIn] at hb; exact Or.inl hb

theorem store_length (h : Heap) (l : Loc) (x : HVal) : (store h l x).length = h.length := by
  unfold store
  cases h[l.cell]? <;> simp

theorem store_getElem?_ne (h : Heap) (l : Loc) (x : HVal) (a : Nat) (ha : a ≠ l.cell) :
    (store h l x)[a]? = h[a]? := by
  unfold store
  cases h[l.cell]? with
  | none => rfl
  | some v => simp [List.getElem?_set, Ne.symm ha]

theorem store_getElem?_cell (h : Heap) (l : Loc) (x v : HVal) (hv : h[l.cell]? = some v) :
    (store h l x)[l.cell]? = some (v.putIn l.path x) := by
  have hlt : l.cell < h.length := by
    rcases List.getElem?_eq_some.1 hv with ⟨hlt, _⟩
    exact hlt
  simp [store, hv, List.getElem?_set, hlt]

theorem load_cell (h : Heap) (l : Loc) (x : HVal) (hl : load h l = some x) :
    ∃ v, h[l.cell]? = some v ∧ v.getIn l.path = some x := by
  unfold load at hl
  cases hc : h[l.cell]? with
  | none => simp [hc] at hl
  | some v => exact ⟨v, rfl, by simpa [hc] using hl⟩

theorem load_ptrs (h : Heap) (l : Loc) (x : HVal) (hl : load h l = some x) :
    l.cell < h.length ∧ ∀ b ∈ x.ptrs, b ∈ cellPtrs h l.cell := by
  obtain ⟨v, hv, hg⟩ := load_cell h l x hl
  refine ⟨(List.getElem?_eq_some.1 hv).1, fun b hb => ?_⟩
  simp only [cellPtrs, hv]
  exact HVal.getIn_ptrs l.path v x hg b hb

theorem load_agree {A : Nat → Bool} {h₁ h₂ : Heap} (hag : AgreeOn A h₁ h₂) (l : Loc)
    (hl : A l.cell = true) : load h₁ l = load h₂ l := by
  simp only [load, hag l.cell hl]

theorem kindAt_agree {A : Nat → Bool} {h₁ h₂ : Heap} (hag : AgreeOn A h₁ h₂)
    (filed : Option HValue) (hin : InRegion A filed) : kindAt h₁ filed = kindAt h₂ filed := by
  cases filed with
  | none => rfl
  | some v => simp only [kindAt, load_agree hag v.loc (hin v rfl)]

theorem elemAt_agree {A : Nat → Bool} {h₁ h₂ : Heap} (hag : AgreeOn A h₁ h₂)
    (filed : Option HValue) (hin : InRegion A filed) : elemAt h₁ filed = elemAt h₂ filed := by
  cases filed with
  | none => rfl
  | some v => simp only [elemAt, load_agree hag v.loc (hin v rfl)]

theorem fieldAt_agree {A : Nat → Bool} {h₁ h₂ : Heap} (hag : AgreeOn A h₁ h₂)
    (filed : Option HValue) (name : String) (hin : InRegion A filed) :
    fieldAt h₁ filed name = fieldAt h₂ filed name := by
  cases filed with
  | none => rfl
  | some v => simp only [fieldAt, load_agree hag v.loc (hin v rfl)]

theorem elemAt_region {A : Nat → Bool} {h : Heap} (hc : Closed h A)
    (filed : Option HValue) (hin : InRegion A filed) : InRegion A (elemAt h filed) := by
  cases filed with
  | none => intro w hw; simp [elemAt] at hw
  | some v =>
    intro w hw
    simp only [elemAt] at hw
    cases hl : load h v.loc with
    | none => simp [hl] at hw
    | some x =>
      cases x with
      | ptr ty addr =>
        cases addr with
        | none => simp [hl] at hw
        | some a =>
          simp only [hl, Option.some.injEq] at hw
          subst hw
          obtain ⟨hlt, hp⟩ := load_ptrs h v.loc _ hl
          exact hc v.loc.cell hlt (hin v rfl) a (hp a (by simp [HVal.ptrs]))
      | bool _ _ => simp [hl] at hw
      | int _ _ => simp [hl] at hw
      | str _ _ => simp [hl] at hw
      | ref _ _ => simp [hl] at hw
      | struct _ _ => simp [hl] at hw

theorem fieldAt_region {A : Nat → Bool} {h : Heap}
    (filed : Option HValue) (name : String) (hin : InRegion A filed) :
    InRegion A (fieldAt h filed name) := by
  cases filed with
  | none => intro w hw; simp [fieldAt] at hw
  | some v =>
    intro w hw
    simp only [fieldAt] at hw
    cases hl : load h v.loc with
    | none => simp [hl] at hw
    | some x =>
      cases x with
      | struct ty fs =>
        cases hf : fs.find name with
        | none => simp [hl, hf] at hw
        | some fv =>
          simp only [hl, hf, Option.some.injEq] at hw
          subst hw
          exact hin v rfl
      | bool _ _ => simp [hl] at hw
      | int _ _ => simp [hl] at hw
      | str _ _ => simp [hl] at hw
      | ref _ _ => simp [hl] at hw
      | ptr _ _ => simp [hl] at hw

theorem walkH_local {A : Nat → Bool} {h₁ h₂ : Heap} (hag : AgreeOn A h₁ h₂)
    (hc : Closed h₁ A) : ∀ (p : List String) (filed : Option HValue), InRegion A filed →
    walkH h₁ p filed = walkH h₂ p filed ∧
      ∀ f, walkH h₁ p filed = some (some f) → A f.loc.cell = true
  | [], filed, hin => ⟨rfl, fun f hf => hin f (by simpa [walkH] using hf)⟩
  | name :: rest, filed, hin => by
    have hk := kindAt_agree hag filed hin
    have he := elemAt_agree hag filed hin
    have hin1 : InRegion A (if kindAt h₁ filed = Kind.Ptr then elemAt h₁ filed else filed) := by
      split
      · exact elemAt_region hc filed hin
      · exact hin
    have hk1 := kindAt_agree hag _ hin1
    have hf1 := fieldAt_agree hag _ (Title name) hin1
    have hin2 := fieldAt_region (h := h₁) _ (Title name) hin1
    have ih := walkH_local hag hc rest _ hin2
    simp only [walkH, ← hk, ← he, ← hk1, ← hf1]
    generalize (if kindAt h₁ filed = Kind.Ptr then elemAt h₁ filed else filed) = g at ih ⊢
    by_cases hs : kindAt h₁ g = Kind.Struct
    · simpa [hs] using ih
    · simp [hs]

theorem store_agree {A : Nat → Bool} {h₁ h₂ : Heap} (hag : AgreeOn A h₁ h₂) (l : Loc)
    (x : HVal) (hl : A l.cell = true) : AgreeOn A (store h₁ l x) (store h₂ l x) := by
  intro a ha
  by_cases hal : a = l.cell
  · subst hal
    have h12 := hag l.cell hl
    cases hv : h₁[l.cell]? with
    | none =>
      have hv2 : h₂[l.cell]? = none := by rw [← h12]; exact hv
      simp [store, hv, hv2]
    | some v =>
      have hv2 : h₂[l.cell]? = some v := by rw [← h12]; exact hv
      rw [store_getElem?_cell h₁ l x v hv, store_getElem?_cell h₂ l x v hv2]
  · rw [store_getElem?_ne h₁ l x a hal, store_getElem?_ne h₂ l x a hal]
    exact hag a ha

theorem store_closed {A : Nat → Bool} {h : Heap} (hc : Closed h A) (l : Loc) (x : HVal)
    (hx : ∀ b ∈ x.ptrs, A b = true) : Closed (store h l x) A := by
  intro a halt ha b hb
  rw [store_length] at halt
  by_cases hal : a = l.cell
  · subst hal
    cases hv : h[l.cell]? with
    | none =>
      simp only [cellPtrs, store, hv] at hb
      simp at hb
    | some v =>
      simp only [cellPtrs, store_getElem?_cell h l x v hv] at hb
      rcases HVal.putIn_ptrs l.path v x b hb with h1 | h1
      · exact hc l.cell halt ha b (by simpa [cellPtrs, hv] using h1)
      · exact hx b h1
  · simp only [cellPtrs, store_getElem?_ne h l x a hal] at hb
    exact hc a halt ha b hb

theorem store_outside {A : Nat → Bool} (h : Heap) (l : Loc) (x : HVal) (hl : A l.cell = true)
    (a : Nat) (ha : A a = false) : (store h l x)[a]? = h[a]? := by
  apply store_getElem?_ne
  intro hal
  subst hal
  simp [hl] at ha

/-- One entry reads and writes inside the region only. -/
theorem applyReplaceH_local {A : Nat → Bool} {h₁ h₂ : Heap} (hag : AgreeOn A h₁ h₂)
    (hc : Closed h₁ A) (r : HReplace) (target : Nat) (ht : A target = true)
    (hr : A r.value.loc.cell = true) :
    (applyReplaceH r target h₁).2 = (applyReplaceH r target h₂).2 ∧
      AgreeOn A (applyReplaceH r target h₁).1 (applyReplaceH r target h₂).1 ∧
      Closed (applyReplaceH r target h₁).1 A ∧
      ∀ a, A a = false → (applyReplaceH r target h₁).1[a]? = h₁[a]? ∧
        (applyReplaceH r target h₂).1[a]? = h₂[a]? := by
  have hin : InRegion A (some ⟨⟨target, []⟩, false⟩) := by
    intro v hv
    simp only [Option.some.injEq] at hv
    subst hv
    exact ht
  obtain ⟨hw, hwr⟩ := walkH_local hag hc r.field _ hin
  have hsrc := load_agree hag r.value.loc hr
  unfold applyReplaceH
  rw [← hw, ← hsrc]
  cases hwalk : walkH h₁ r.field (some ⟨⟨target, []⟩, false⟩) with
  | none => exact ⟨rfl, hag, hc, fun a _ => ⟨rfl, rfl⟩⟩
  | some o =>
    cases o with
    | none => exact ⟨rfl, hag, hc, fun a _ => ⟨rfl, rfl⟩⟩
    | some filed =>
      have hfl := hwr filed hwalk
      have hcur := load_agree hag filed.loc hfl
      simp only [← hcur]
      cases hl1 : load h₁ filed.loc with
      | none => exact ⟨rfl, hag, hc, fun a _ => ⟨rfl, rfl⟩⟩
      | some cur =>
        cases hl2 : load h₁ r.value.loc with
        | none => exact ⟨rfl, hag, hc, fun a _ => ⟨rfl, rfl⟩⟩
        | some src =>
          simp only []
          by_cases hcond : (!filed.ro && cur.IsZero && cur.Type == src.Type) = true
          · rw [if_pos hcond, if_pos hcond]
            by_cases hro : r.value.ro = true
            · rw [if_pos hro, if_pos hro]
              exact ⟨rfl, hag, hc, fun a _ => ⟨rfl, rfl⟩⟩
            · rw [if_neg hro, if_neg hro]
              refine ⟨rfl, store_agree hag _ _ hfl, store_closed hc _ _ ?_,
                fun a ha => ⟨store_outside _ _ _ hfl a ha, store_outside _ _ _ hfl a ha⟩⟩
              intro b hb
              obtain ⟨hlt, hp⟩ := load_ptrs h₁ r.value.loc src hl2
              exact hc r.value.loc.cell hlt hr b (hp b hb)
          · rw [if_neg hcond, if_neg hcond]
            exact ⟨rfl, hag, hc, fun a _ => ⟨rfl, rfl⟩⟩

theorem mutateH_cons (r : HReplace) (rest : List HReplace) (target : Nat) (h : Heap) :
    mutateH (r :: rest) target h =
      if (applyReplaceH r target h).2 = Effect.panicked then ⟨(applyReplaceH r target h).1, true⟩
      else mutateH rest target (applyReplaceH r target h).1 := by
  rcases hx : applyReplaceH r target h with ⟨h', e⟩
  cases e <;> simp [mutateH, hx]

/-- A call reads and writes inside a closed region that holds the target and
the slots the plan refers to: two memories that agree on the region give the
same panic status and agree on the region afterwards, the region stays closed,
and no object outside it is changed. -/
theorem mutateH_local {A : Nat → Bool} (target : Nat) (ht : A target = true) :
    ∀ (plan : List HReplace) (h₁ h₂ : Heap), AgreeOn A h₁ h₂ → Closed h₁ A →
      (∀ r ∈ plan, A r.value.loc.cell = true) →
      (mutateH plan target h₁).panicked = (mutateH plan target h₂).panicked ∧
        AgreeOn A (mutateH plan target h₁).heap (mutateH plan target h₂).heap ∧
        Closed (mutateH plan target h₁).heap A ∧
        ∀ a, A a = false → (mutateH plan target h₁).heap[a]? = h₁[a]? ∧
          (mutateH plan target h₂).heap[a]? = h₂[a]?
  | [], h₁, h₂, hag, hc, _ => ⟨rfl, hag, hc, fun _ _ => ⟨rfl, rfl⟩⟩
  | r :: rest, h₁, h₂, hag, hc, hp => by
    obtain ⟨he, hag', hc', hout⟩ :=
      applyReplaceH_local hag hc r target ht (hp r (List.mem_cons_self _ _))
    rw [mutateH_cons, mutateH_cons, ← he]
    by_cases hpan : (applyReplaceH r target h₁).2 = Effect.panicked
    · rw [if_pos hpan, if_pos hpan]
      exact ⟨rfl, hag', hc', hout⟩
    · rw [if_neg hpan, if_neg hpan]
      obtain ⟨i1, i2, i3, i4⟩ := mutateH_local target ht rest _ _ hag' hc'
        (fun r hr => hp r (List.mem_cons_of_mem _ hr))
      refine ⟨i1, i2, i3, fun a ha => ?_⟩
      obtain ⟨j1, j2⟩ := i4 a ha
      obtain ⟨k1, k2⟩ := hout a ha
      exact ⟨j1.trans k1, j2.trans k2⟩

theorem extends_append (h t : Heap) : h <+: h ++ t := ⟨t, rfl⟩

theorem getElem?_of_extends {h h' : Heap} (hp : h <+: h') (a : Nat) (ha : a < h.length) :
    h'[a]? = h[a]? := by
  obtain ⟨t, rfl⟩ := hp
  exact List.getElem?_append_left ha

theorem cellPtrs_of_extends {h h' : Heap} (hp : h <+: h') (a : Nat) (ha : a < h.length) :
    cellPtrs h' a = cellPtrs h a := by
  simp only [cellPtrs, getElem?_of_extends hp a ha]

mutual
/-- The deep copy only adds objects to the memory. -/
theorem deepCopy_extends : ∀ (v : Val) (h : Heap), h <+: (deepCopy v h).1
  | .bool _ _, h => by simp [deepCopy]
  | .int _ _, h => by simp [deepCopy]
  | .str _ _, h => by simp [deepCopy]
  | .ref _ _, h => by simp [deepCopy]
  | .nilptr _, h => by simp [deepCopy]
  | .ptr _ e, h => by
    simp only [deepCopy]
    exact (deepCopy_extends e h).trans (extends_append _ _)
  | .struct _ fs, h => by
    simp only [deepCopy]
    exact deepCopyFields_extends fs h
/-- The deep copy of the fields only adds objects to the memory. -/
theorem deepCopyFields_extends : ∀ (fs : Fields) (h : Heap), h <+: (deepCopyFields fs h).1
  | .nil, h => by simp [deepCopyFields]
  | .cons _ _ v rest, h => by
    simp only [deepCopyFields]
    exact (deepCopy_extends v h).trans (deepCopyFields_extends rest _)
end

theorem FreshCopy.refl (h : Heap) : FreshCopy h h [] :=
  ⟨fun b hb => by simp at hb, fun a h1 h2 => absurd h1 (by omega)⟩

theorem FreshCopy.append {h h₁ h₂ : Heap} {p q : List Nat} (h01 : h <+: h₁) (h12 : h₁ <+: h₂)
    (c1 : FreshCopy h h₁ p) (c2 : FreshCopy h₁ h₂ q) : FreshCopy h h₂ (p ++ q) := by
  have l01 := h01.length_le
  have l12 := h12.length_le
  refine ⟨fun b hb => ?_, fun a ha1 ha2 b hb => ?_⟩
  · rcases List.mem_append.1 hb with hb | hb
    · have := c1.1 b hb
      omega
    · have := c2.1 b hb
      omega
  · by_cases ha : a < h₁.length
    · rw [cellPtrs_of_extends h12 a ha] at hb
      have := c1.2 a ha1 ha b hb
      omega
    · have := c2.2 a (by omega) ha2 b hb
      omega

theorem FreshCopy.push {h h₁ : Heap} {p : List Nat} (h01 : h <+: h₁) (x : HVal)
    (c1 : FreshCopy h h₁ p) (hx : x.ptrs = p) :
    FreshCopy h (h₁ ++ [x]) [h₁.length] := by
  have l01 := h01.length_le
  refine ⟨fun b hb => ?_, fun a ha1 ha2 b hb => ?_⟩
  · simp only [List.mem_singleton] at hb
    subst hb
    simp only [List.length_append, List.length_singleton]
    omega
  · simp only [List.length_append, List.length_singleton] at ha2 ⊢
    by_cases ha : a < h₁.length
    · rw [cellPtrs_of_extends (extends_append _ _) a ha] at hb
      have := c1.2 a ha1 ha b hb
      omega
    · have hae : a = h₁.length := by omega
      subst hae
      simp only [cellPtrs, List.getElem?_concat_length, hx] at hb
      have := c1.1 b hb
      omega

mutual
/-- The deep copy is self-contained: its pointers point at the objects it
added. -/
theorem deepCopy_fresh : ∀ (v : Val) (h : Heap),
    FreshCopy h (deepCopy v h).1 (deepCopy v h).2.ptrs
  | .bool _ _, h => by simpa [deepCopy, HVal.ptrs] using FreshCopy.refl h
  | .int _ _, h => by simpa [deepCopy, HVal.ptrs] using FreshCopy.refl h
  | .str _ _, h => by simpa [deepCopy, HVal.ptrs] using FreshCopy.refl h
  | .ref _ _, h => by simpa [deepCopy, HVal.ptrs] using FreshCopy.refl h
  | .nilptr _, h => by simpa [deepCopy, HVal.ptrs] using FreshCopy.refl h
  | .ptr _ e, h => by
    simp only [deepCopy, HVal.ptrs]
    exact FreshCopy.push (deepCopy_extends e h) _ (deepCopy_fresh e h) rfl
  | .struct _ fs, h => by
    simp only [deepCopy, HVal.ptrs]
    exact deepCopyFields_fresh fs h
/-- The deep copy of the fields is self-contained. -/
theorem deepCopyFields_fresh : ∀ (fs : Fields) (h : Heap),
    FreshCopy h (deepCopyFields fs h).1 (deepCopyFields fs h).2.ptrs
  | .nil, h => by simpa [deepCopyFields, HFields.ptrs] using FreshCopy.refl h
  | .cons _ _ v rest, h => by
    simp only [deepCopyFields, HFields.ptrs]
    exact FreshCopy.append (deepCopy_extends v h) (deepCopyFields_extends rest _)
      (deepCopy_fresh v h) (deepCopyFields_fresh rest _)
end

theorem fresh_iff (lo hi a : Nat) : fresh lo hi a = true ↔ lo ≤ a ∧ a < hi := by
  simp [fresh]

theorem appendItemsH_eq (replaces : List HReplace) (v : String) (value : HValue) :
    appendItemsH replaces v value =
      replaces ++ (Split v ',').map (fun item => ⟨Split item '.', value⟩) := by
  unfold appendItemsH
  generalize Split v ',' = items
  induction items generalizing replaces with
  | nil => simp
  | cons i is ih => simp [List.foldl, ih]

/-- The plan refers to slots of the region the search starts in, when the
region is closed. -/
theorem searchH_region {A : Nat → Bool} {h : Heap} (hc : Closed h A) (fs : Fields) (loc : Loc)
    (ro : Bool) (replaces : List HReplace) :
    A loc.cell = true → (∀ r ∈ replaces, A r.value.loc.cell = true) →
      ∀ r ∈ searchH h fs loc ro replaces, A r.value.loc.cell = true := by
  induction fs, loc, ro, replaces using searchH.induct h with
  | case1 loc ro replaces =>
    intro _ hacc r hr
    exact hacc r (by simpa [searchH] using hr)
  | case2 name v val rest loc ro replaces ih =>
    intro hl hacc r hr
    rw [searchH] at hr
    refine ih hl (fun r hr => ?_) r hr
    rw [appendItemsH_eq, List.mem_append] at hr
    rcases hr with hr | hr
    · exact hacc r hr
    · obtain ⟨item, _, rfl⟩ := List.mem_map.1 hr
      exact hl
  | case3 name ty ty1 fs rest loc ro replaces ty2 a hload ih1 ih2 =>
    intro hl hacc r hr
    rw [searchH] at hr
    simp only [hload] at hr
    obtain ⟨hlt, hp⟩ := load_ptrs h _ _ hload
    have ha : A a = true := hc loc.cell hlt hl a (hp a (by simp [HVal.ptrs]))
    exact ih2 hl (ih1 ha hacc) r hr
  | case4 name ty ty1 fs rest loc ro replaces hno ih =>
    intro hl hacc r hr
    rw [searchH] at hr
    split at hr
    · rename_i ty2 a hload
      exact absurd hload (fun hx => hno ty2 a hx)
    · exact ih hl hacc r hr
  | case5 name ty fs rest loc ro replaces ih1 ih2 =>
    intro hl hacc r hr
    rw [searchH] at hr
    exact ih2 hl (ih1 hl hacc) r hr
  | case6 name val rest loc ro replaces h1 h2 ih =>
    intro hl hacc r hr
    rw [searchH] at hr
    · exact ih hl hacc r hr
    · exact h1
    · exact h2

/-- Building the mutator only adds objects to the memory, the copy is
self-contained, and the plan refers to slots of the copy. -/
theorem GetOverrideMutationH_fresh (owner : Val) (h h' : Heap) (plan : List HReplace)
    (hf : GetOverrideMutationH owner h = some (h', plan)) :
    h <+: h' ∧ Closed h' (fresh h.length h'.length) ∧
      ∀ r ∈ plan, fresh h.length h'.length r.value.loc.cell = true := by
  cases owner with
  | struct ty fs =>
    simp only [GetOverrideMutationH, Option.some.injEq, Prod.mk.injEq] at hf
    obtain ⟨rfl, rfl⟩ := hf
    have hp := deepCopyFields_extends fs h
    have hfr := FreshCopy.push hp (HVal.struct ty (deepCopyFields fs h).2)
      (deepCopyFields_fresh fs h) (by simp [HVal.ptrs])
    have hcl : Closed ((deepCopyFields fs h).1 ++ [HVal.struct ty (deepCopyFields fs h).2])
        (fresh h.length
          ((deepCopyFields fs h).1 ++ [HVal.struct ty (deepCopyFields fs h).2]).length) := by
      intro a halt ha b hb
      rw [fresh_iff] at ha ⊢
      exact hfr.2 a ha.1 ha.2 b hb
    refine ⟨hp.trans (extends_append _ _), hcl, ?_⟩
    refine searchH_region hcl fs _ false [] ?_ (fun r hr => by simp at hr)
    rw [fresh_iff]
    have := hp.length_le
    simp only [List.length_append, List.length_singleton]
    omega
  | bool _ _ => simp [GetOverrideMutationH] at hf
  | int _ _ => simp [GetOverrideMutationH] at hf
  | str _ _ => simp [GetOverrideMutationH] at hf
  | ref _ _ => simp [GetOverrideMutationH] at hf
  | nilptr _ => simp [GetOverrideMutationH] at hf
  | ptr _ _ => simp [GetOverrideMutationH] at hf

/-! ## Properties of the override mutator over the memory -/

/-- The repository's override test, run over the memory: the target read back
from the memory after the call is the target the mutator over values
returns. -/
theorem memory_agrees_on_override_test :
    ∃ h plan, GetOverrideMutationH (harbor "Spec" affinityNode) [] = some (h, plan) ∧
      (mutateH plan (layOut (deployment 3 (.nilptr (.ptr tAffinity))) h).length.pred
          (layOut (deployment 3 (.nilptr (.ptr tAffinity))) h)).panicked = false ∧
      ((mutateH plan (layOut (deployment 3 (.nilptr (.ptr tAffinity))) h).length.pred
          (layOut (deployment 3 (.nilptr (.ptr tAffinity))) h)).heap.getLast?.bind
        (HVal.toVal 16 (mutateH plan (layOut (deployment 3 (.nilptr (.ptr tAffinity))) h).length.pred
          (layOut (deployment 3 (.nilptr (.ptr tAffinity))) h)).heap)) =
        some (mutate (planOf (harbor "Spec" affinityNode))
          (deployment 3 (.nilptr (.ptr tAffinity)))).result :=
  ⟨_, _, rfl, by decide, by decide⟩

/-- C17, counterexample: the mutator built for `Parent{B: 5, A: &Inner{}}`,
with `B` tagged `a.b` and `A` tagged `a`, gives a fresh target `A.B = 0` when
it is called on it first, and `A.B = 5` when it has been called twice on
another target before: the first call there stores the copy's pointer, the
second writes `B` through it into the copy's `Inner`.  The parent's value at
factory time is the same in both runs. -/
theorem effect_depends_on_earlier_calls :
    GetOverrideMutationH parentBA [] = some (layOut parentBA [], planBA 1) ∧
    (mutateH (planBA 1) 3 (layOut parentBA [] ++ [freshTarget, freshTarget])).panicked = false ∧
    readAt (mutateH (planBA 1) 3 (layOut parentBA [] ++ [freshTarget, freshTarget])).heap 3
      ["a", "b"] = some (.int tInt 0) ∧
    (mutateH (planBA 1) 2 (mutateH (planBA 1) 2
      (layOut parentBA [] ++ [freshTarget, freshTarget])).heap).heap[3]? = some freshTarget ∧
    (mutateH (planBA 1) 3 (mutateH (planBA 1) 2 (mutateH (planBA 1) 2
      (layOut parentBA [] ++ [freshTarget, freshTarget])).heap).heap).panicked = false ∧
    readAt (mutateH (planBA 1) 3 (mutateH (planBA 1) 2 (mutateH (planBA 1) 2
      (layOut parentBA [] ++ [freshTarget, freshTarget])).heap).heap).heap 3
      ["a", "b"] = some (.int tInt 5) := by
  decide

/-- C17: building the mutator changes no object already in memory, and the
plan refers to slots of the deep copy only.  A call of the returned mutator
works inside any region `A` that holds the copy and the target and whose
objects point at objects of the region only: on two memories that agree on
`A`, such as the memory before and after a mutation of the original parent,
the two calls panic or return together and leave memories that agree on `A`,
and an object outside `A`, such as the original parent, is left as it was. -/
theorem override_isolated_from_parent (owner : Val) (h h' : Heap) (plan : List HReplace)
    (A : Nat → Bool) (target : Nat) (h₁ h₂ : Heap) (a : Nat)
    (hf : GetOverrideMutationH owner h = some (h', plan))
    (hcopy : ∀ c, fresh h.length h'.length c = true → A c = true)
    (ht : A target = true) (hclosed : Closed h₁ A) (hagree : AgreeOn A h₁ h₂)
    (ha : A a = false) :
    h <+: h' ∧ (∀ r ∈ plan, fresh h.length h'.length r.value.loc.cell = true) ∧
    (mutateH plan target h₁).panicked = (mutateH plan target h₂).panicked ∧
    AgreeOn A (mutateH plan target h₁).heap (mutateH plan target h₂).heap ∧
    (mutateH plan target h₁).heap[a]? = h₁[a]? ∧
    (mutateH plan target h₂).heap[a]? = h₂[a]? := by
  obtain ⟨hp, _, hplan⟩ := GetOverrideMutationH_fresh owner h h' plan hf
  obtain ⟨i1, i2, _, i4⟩ := mutateH_local target ht plan h₁ h₂ hagree hclosed
    (fun r hr => hcopy _ (hplan r hr))
  exact ⟨hp, hplan, i1, i2, (i4 a ha).1, (i4 a ha).2⟩

/-- Witness of `override_isolated_from_parent`: the original parent at the
addresses 0 and 1, its copy at 2 and 3, a fresh target at 4; the second memory
has `B` of the original parent set to 7 after the mutator was built. -/
theorem override_isolated_from_parent_witness :
    GetOverrideMutationH parentBA memParentBA = some (memCopyBA, planBA 3) ∧
    Closed (memCopyBA ++ [freshTarget]) (fresh 2 5) ∧
    (store (memCopyBA ++ [freshTarget]) ⟨1, ["B"]⟩ (.int tInt 7))[1]? ≠
      (memCopyBA ++ [freshTarget])[1]? ∧
    (memParentBA <+: memCopyBA ∧
      (∀ r ∈ planBA 3, fresh memParentBA.length memCopyBA.length r.value.loc.cell = true) ∧
      (mutateH (planBA 3) 4 (memCopyBA ++ [freshTarget])).panicked =
        (mutateH (planBA 3) 4
          (store (memCopyBA ++ [freshTarget]) ⟨1, ["B"]⟩ (.int tInt 7))).panicked ∧
      AgreeOn (fresh 2 5) (mutateH (planBA 3) 4 (memCopyBA ++ [freshTarget])).heap
        (mutateH (planBA 3) 4
          (store (memCopyBA ++ [freshTarget]) ⟨1, ["B"]⟩ (.int tInt 7))).heap ∧
      (mutateH (planBA 3) 4 (memCopyBA ++ [freshTarget])).heap[1]? =
        (memCopyBA ++ [freshTarget])[1]? ∧
      (mutateH (planBA 3) 4
          (store (memCopyBA ++ [freshTarget]) ⟨1, ["B"]⟩ (.int tInt 7))).heap[1]? =
        (store (memCopyBA ++ [freshTarget]) ⟨1, ["B"]⟩ (.int tInt 7))[1]?) :=
  ⟨by decide, by decide, by decide,
    override_isolated_from_parent parentBA memParentBA memCopyBA (planBA 3) (fresh 2 5) 4
      (memCopyBA ++ [freshTarget])
      (store (memCopyBA ++ [freshTarget]) ⟨1, ["B"]⟩ (.int tInt 7)) 1
      (by decide)
      (fun c hc => by
        have h2 : memParentBA.length = 2 := by decide
        have h4 : memCopyBA.length = 4 := by decide
        rw [h2, h4, fresh_iff] at hc
        rw [fresh_iff]
        omega)
      (by decide) (by decide)
      (fun c hc => by
        rw [fresh_iff] at hc
        exact (store_getElem?_ne _ _ _ c (by simp only []; omega)).symm)
      (by decide)⟩

/-! ## Objects in memory: what a call leaves as it is -/

theorem HFields.find_modify_self (fs : HFields) (n : String) (f : HVal → HVal) :
    (fs.modify n f).find n = (fs.find n).map f := by
  induction fs with
  | nil => rfl
  | cons m t v rest ih =>
    by_cases h : m = n
    · simp [HFields.modify, HFields.find, h]
    · simp [HFields.modify, HFields.find, h, ih]

theorem HFields.find_modify_other (fs : HFields) {n m : String} (f : HVal → HVal) (h : n ≠ m) :
    (fs.modify n f).find m = fs.find m := by
  induction fs with
  | nil => rfl
  | cons k t v rest ih =>
    by_cases hk : k = n
    · subst hk
      simp [HFields.modify, HFields.find, h]
    · by_cases hm : k = m
      · subst hm
        simp [HFields.modify, HFields.find, hk]
      · simp [HFields.modify, HFields.find, hk, hm, ih]

theorem HFields.zero_of_find {fs : HFields} {n : String} {v : HVal}
    (hz : fs.allZero = true) (h : fs.find n = some v) : v.IsZero = true := by
  induction fs with
  | nil => simp [HFields.find] at h
  | cons m t w rest ih =>
    simp only [HFields.allZero, Bool.and_eq_true] at hz
    by_cases hm : m = n
    · simp only [HFields.find, hm, if_true, Option.some.injEq] at h
      rw [← h]
      exact hz.1
    · simp only [HFields.find, hm, if_false] at h
      exact ih hz.2 h

theorem HFields.everyFilled_find {fs : HFields} {n : String} {v : HVal}
    (hf : fs.everyFilled = true) (h : fs.find n = some v) : v.filled = true := by
  induction fs with
  | nil => simp [HFields.find] at h
  | cons m t w rest ih =>
    simp only [HFields.everyFilled, Bool.and_eq_true] at hf
    by_cases hm : m = n
    · simp only [HFields.find, hm, if_true, Option.some.injEq] at h
      rw [← h]
      exact hf.1
    · simp only [HFields.find, hm, if_false] at h
      exact ih hf.2 h

theorem HVal.everyFilled_of_filled {ty : Ty} {fs : HFields}
    (h : (HVal.struct ty fs).filled = true) : fs.everyFilled = true := by
  cases fs with
  | nil => simp [HVal.filled] at h
  | cons n t v rest => simpa [HVal.filled, HFields.everyFilled] using h

/-- A filled value is not zero. -/
theorem HVal.nonzero_of_filled : ∀ (v : HVal), v.filled = true → v.IsZero = false
  | .bool _ b, h => by simpa [HVal.filled, HVal.IsZero] using h
  | .int _ n, h => by simpa [HVal.filled, HVal.IsZero] using h
  | .str _ s, h => by simpa [HVal.filled, HVal.IsZero] using h
  | .ref _ c, h => by
    cases c <;> simp [HVal.filled, HVal.IsZero] at h ⊢
  | .ptr _ a, h => by
    cases a <;> simp [HVal.filled, HVal.IsZero] at h ⊢
  | .struct _ .nil, h => by simp [HVal.filled] at h
  | .struct _ (.cons _ _ v rest), h => by
    simp only [HVal.filled, Bool.and_eq_true] at h
    have := HVal.nonzero_of_filled v h.1
    simp [HVal.IsZero, HFields.allZero, this]

theorem HVal.getIn_append : ∀ (p q : List String) (v : HVal),
    HVal.getIn (p ++ q) v = (HVal.getIn p v).bind (HVal.getIn q)
  | [], q, v => by simp [HVal.getIn]
  | n :: p, q, .struct ty fs => by
    simp only [List.cons_append, HVal.getIn]
    cases hf : fs.find n with
    | none => simp
    | some fv => simp [HVal.getIn_append p q fv]
  | _ :: _, _, .bool _ _ => by simp [HVal.getIn]
  | _ :: _, _, .int _ _ => by simp [HVal.getIn]
  | _ :: _, _, .str _ _ => by simp [HVal.getIn]
  | _ :: _, _, .ref _ _ => by simp [HVal.getIn]
  | _ :: _, _, .ptr _ _ => by simp [HVal.getIn]

/-- A part of a filled value is filled. -/
theorem HVal.filled_getIn : ∀ (p : List String) (v d : HVal), HVal.getIn p v = some d →
    v.filled = true → d.filled = true
  | [], v, d, h, hf => by
    simp only [HVal.getIn, Option.some.injEq] at h
    rw [← h]
    exact hf
  | n :: p, .struct ty fs, d, h, hf => by
    simp only [HVal.getIn] at h
    cases hfind : fs.find n with
    | none => simp [hfind] at h
    | some fv =>
      simp only [hfind] at h
      exact HVal.filled_getIn p fv d h
        (HFields.everyFilled_find (HVal.everyFilled_of_filled hf) hfind)
  | _ :: _, .bool _ _, _, h, _ => by simp [HVal.getIn] at h
  | _ :: _, .int _ _, _, h, _ => by simp [HVal.getIn] at h
  | _ :: _, .str _ _, _, h, _ => by simp [HVal.getIn] at h
  | _ :: _, .ref _ _, _, h, _ => by simp [HVal.getIn] at h
  | _ :: _, .ptr _ _, _, h, _ => by simp [HVal.getIn] at h

/-- A part of a zero value is zero. -/
theorem HVal.zero_getIn : ∀ (p : List String) (v d : HVal), HVal.getIn p v = some d →
    v.IsZero = true → d.IsZero = true
  | [], v, d, h, hz => by
    simp only [HVal.getIn, Option.some.injEq] at h
    rw [← h]
    exact hz
  | n :: p, .struct ty fs, d, h, hz => by
    simp only [HVal.getIn] at h
    cases hfind : fs.find n with
    | none => simp [hfind] at h
    | some fv =>
      simp only [hfind] at h
      simp only [HVal.IsZero] at hz
      exact HVal.zero_getIn p fv d h (HFields.zero_of_find hz hfind)
  | _ :: _, .bool _ _, _, h, _ => by simp [HVal.getIn] at h
  | _ :: _, .int _ _, _, h, _ => by simp [HVal.getIn] at h
  | _ :: _, .str _ _, _, h, _ => by simp [HVal.getIn] at h
  | _ :: _, .ref _ _, _, h, _ => by simp [HVal.getIn] at h
  | _ :: _, .ptr _ _, _, h, _ => by simp [HVal.getIn] at h

/-- Writing a part leaves every part off its path as it is. -/
theorem HVal.getIn_putIn_incomp : ∀ (p q : List String) (v x : HVal), Incomp p q →
    HVal.getIn q (HVal.putIn p v x) = HVal.getIn q v
  | [], q, _, _, h => absurd h (not_incomp_nil_left q)
  | _ :: _, [], _, _, h => absurd h (not_incomp_nil_right _)
  | n :: p, m :: q, .struct ty fs, x, h => by
    simp only [HVal.putIn, HVal.getIn]
    by_cases hnm : n = m
    · subst hnm
      have hpq : Incomp p q := by
        rcases incomp_cons.1 h with h1 | h1
        · exact absurd rfl h1
        · exact h1
      rw [HFields.find_modify_self]
      cases hfind : fs.find n with
      | none => rfl
      | some fv =>
        simp only [Option.map_some']
        exact HVal.getIn_putIn_incomp p q fv x hpq
    · rw [HFields.find_modify_other _ _ hnm]
  | _ :: _, _ :: _, .bool _ _, _, _ => by simp [HVal.putIn]
  | _ :: _, _ :: _, .int _ _, _, _ => by simp [HVal.putIn]
  | _ :: _, _ :: _, .str _ _, _, _ => by simp [HVal.putIn]
  | _ :: _, _ :: _, .ref _ _, _, _ => by simp [HVal.putIn]
  | _ :: _, _ :: _, .ptr _ _, _, _ => by simp [HVal.putIn]

/-- Writing below a part changes the part by that write. -/
theorem HVal.getIn_putIn_append : ∀ (p q : List String) (v x : HVal),
    HVal.getIn p (HVal.putIn (p ++ q) v x) = (HVal.getIn p v).map (fun c => HVal.putIn q c x)
  | [], q, v, x => by simp [HVal.getIn]
  | n :: p, q, .struct ty fs, x => by
    simp only [List.cons_append, HVal.putIn, HVal.getIn]
    rw [HFields.find_modify_self]
    cases hfind : fs.find n with
    | none => rfl
    | some fv =>
      simp only [Option.map_some']
      exact HVal.getIn_putIn_append p q fv x
  | _ :: _, _, .bool _ _, _ => by simp [HVal.putIn, HVal.getIn]
  | _ :: _, _, .int _ _, _ => by simp [HVal.putIn, HVal.getIn]
  | _ :: _, _, .str _ _, _ => by simp [HVal.putIn, HVal.getIn]
  | _ :: _, _, .ref _ _, _ => by simp [HVal.putIn, HVal.getIn]
  | _ :: _, _, .ptr _ _, _ => by simp [HVal.putIn, HVal.getIn]

theorem HFields.allZero_modify (fs : HFields) (n : String) (f : HVal → HVal)
    (hf : ∀ fv, fs.find n = some fv → fv.IsZero = false → (f fv).IsZero = false)
    (hz : fs.allZero = false) : (fs.modify n f).allZero = false := by
  induction fs with
  | nil => simp [HFields.allZero] at hz
  | cons m t w rest ih =>
    by_cases hm : m = n
    · simp only [HFields.modify, hm, if_true, HFields.allZero, Bool.and_eq_false_iff] at hz ⊢
      rcases hz with hz | hz
      · exact Or.inl (hf w (by simp [HFields.find, hm]) hz)
      · exact Or.inr hz
    · simp only [HFields.modify, hm, if_false, HFields.allZero, Bool.and_eq_false_iff] at hz ⊢
      rcases hz with hz | hz
      · exact Or.inl hz
      · exact Or.inr (ih (fun fv hfv => hf fv (by simpa [HFields.find, hm] using hfv)) hz)

/-- A non-zero value stays non-zero when a zero part of it is written. -/
theorem HVal.putIn_nonzero : ∀ (p : List String) (v x : HVal),
    (∀ cur, HVal.getIn p v = some cur → cur.IsZero = true) → v.IsZero = false →
    (HVal.putIn p v x).IsZero = false
  | [], v, x, h, hz => by
    have := h v rfl
    rw [this] at hz
    exact Bool.noConfusion hz
  | n :: p, .struct ty fs, x, h, hz => by
    simp only [HVal.putIn, HVal.IsZero] at hz ⊢
    apply HFields.allZero_modify fs n _ _ hz
    intro fv hfv hnz
    apply HVal.putIn_nonzero p fv x _ hnz
    intro cur hcur
    apply h cur
    simp only [HVal.getIn, hfv]
    exact hcur
  | _ :: _, .bool _ _, _, _, hz => by simpa [HVal.putIn] using hz
  | _ :: _, .int _ _, _, _, hz => by simpa [HVal.putIn] using hz
  | _ :: _, .str _ _, _, _, hz => by simpa [HVal.putIn] using hz
  | _ :: _, .ref _ _, _, _, hz => by simpa [HVal.putIn] using hz
  | _ :: _, .ptr _ _, _, _, hz => by simpa [HVal.putIn] using hz

theorem load_store_other (h : Heap) (l m : Loc) (x : HVal) (hc : m.cell ≠ l.cell) :
    load (store h l x) m = load h m := by
  simp only [load, store_getElem?_ne h l x m.cell hc]

theorem load_store_incomp (h : Heap) (l m : Loc) (x : HVal) (hc : m.cell = l.cell)
    (hi : Incomp l.path m.path) : load (store h l x) m = load h m := by
  unfold load
  rw [hc]
  cases hv : h[l.cell]? with
  | none => simp [store, hv]
  | some v =>
    rw [store_getElem?_cell h l x v hv]
    exact HVal.getIn_putIn_incomp l.path m.path v x hi

/-- Writing a slot whose content is zero leaves every filled content as it
is. -/
theorem load_store_of_filled (h : Heap) (l m : Loc) (x cur c : HVal)
    (hcur : load h l = some cur) (hz : cur.IsZero = true)
    (hl : load h m = some c) (hf : c.filled = true) :
    load (store h l x) m = some c := by
  by_cases hc : m.cell = l.cell
  · obtain ⟨v, hv, hgl⟩ := load_cell h l cur hcur
    obtain ⟨w, hw, hgm⟩ := load_cell h m c hl
    rw [hc, hv] at hw
    cases hw
    by_cases h1 : l.path <+: m.path
    · obtain ⟨q, hq⟩ := h1
      rw [← hq, HVal.getIn_append, hgl] at hgm
      have := HVal.zero_getIn q cur c hgm hz
      rw [HVal.nonzero_of_filled c hf] at this
      exact Bool.noConfusion this
    · by_cases h2 : m.path <+: l.path
      · obtain ⟨q, hq⟩ := h2
        rw [← hq, HVal.getIn_append, hgm] at hgl
        have := HVal.nonzero_of_filled cur (HVal.filled_getIn q c cur hgl hf)
        rw [hz] at this
        exact Bool.noConfusion this
      · rw [load_store_incomp h l m x hc ⟨h1, h2⟩]
        exact hl
  · rw [load_store_other h l m x hc]
    exact hl

/-- Writing a slot whose content is zero leaves every non-zero content
non-zero. -/
theorem load_store_of_nonzero (h : Heap) (l m : Loc) (x cur c : HVal)
    (hcur : load h l = some cur) (hz : cur.IsZero = true)
    (hl : load h m = some c) (hnz : c.IsZero = false) :
    ∃ c', load (store h l x) m = some c' ∧ c'.IsZero = false := by
  by_cases hc : m.cell = l.cell
  · obtain ⟨v, hv, hgl⟩ := load_cell h l cur hcur
    obtain ⟨w, hw, hgm⟩ := load_cell h m c hl
    rw [hc, hv] at hw
    cases hw
    by_cases h1 : l.path <+: m.path
    · obtain ⟨q, hq⟩ := h1
      rw [← hq, HVal.getIn_append, hgl] at hgm
      have := HVal.zero_getIn q cur c hgm hz
      rw [hnz] at this
      exact Bool.noConfusion this
    · by_cases h2 : m.path <+: l.path
      · obtain ⟨q, hq⟩ := h2
        refine ⟨HVal.putIn q c x, ?_, ?_⟩
        · have hs : (store h l x)[m.cell]? = some (v.putIn l.path x) := by
            rw [hc]
            exact store_getElem?_cell h l x v hv
          simp only [load, hs]
          rw [← hq, HVal.getIn_putIn_append, hgm]
          rfl
        · apply HVal.putIn_nonzero q c x _ hnz
          intro cur' hcur'
          rw [← hq, HVal.getIn_append, hgm] at hgl
          have hgl' : HVal.getIn q c = some cur := hgl
          rw [hgl'] at hcur'
          cases hcur'
          exact hz
      · exact ⟨c, by rw [load_store_incomp h l m x hc ⟨h1, h2⟩]; exact hl, hnz⟩
  · exact ⟨c, by rw [load_store_other h l m x hc]; exact hl, hnz⟩

theorem load_store_same (h : Heap) (l : Loc) (x cur : HVal) (hcur : load h l = some cur) :
    load (store h l x) l = some x := by
  obtain ⟨v, hv, hgl⟩ := load_cell h l cur hcur
  have := HVal.getIn_putIn_append l.path [] v x
  rw [List.append_nil, hgl] at this
  simp only [load, store_getElem?_cell h l x v hv]
  rw [this]
  rfl

theorem mutateHE_cons (τ : TypeInfo) (r : HReplace) (rest : List HReplace) (target : Nat)
    (h : Heap) :
    mutateHE τ (r :: rest) target h =
      if (applyReplaceHE τ r target h).2 = .panicked then ⟨(applyReplaceHE τ r target h).1, true⟩
      else mutateHE τ rest target (applyReplaceHE τ r target h).1 := by
  rw [mutateHE]
  cases he : applyReplaceHE τ r target h with
  | mk h' e => cases e <;> simp

/-- What one entry does to the memory: nothing, or one write into a slot
whose content is zero. -/
theorem applyReplaceHE_cases (τ : TypeInfo) (r : HReplace) (target : Nat) (h : Heap) :
    (applyReplaceHE τ r target h).1 = h ∨
      ∃ l cur src, load h l = some cur ∧ cur.IsZero = true ∧
        (applyReplaceHE τ r target h).1 = store h l src := by
  unfold applyReplaceHE
  cases walkHE τ h r.field (some ⟨⟨target, []⟩, false, false⟩) with
  | aborted => exact Or.inl rfl
  | panicked => exact Or.inl rfl
  | ended o =>
    cases o with
    | none => exact Or.inl rfl
    | some filed =>
      dsimp only
      cases hl1 : load h filed.loc with
      | none => exact Or.inl rfl
      | some cur =>
        cases hl2 : load h r.value.loc with
        | none => exact Or.inl rfl
        | some src =>
          dsimp only
          by_cases hcond : (!(filed.ro || filed.ero) && cur.IsZero && cur.Type == src.Type) = true
          · rw [if_pos hcond]
            by_cases hro : r.value.ro = true
            · rw [if_pos hro]
              exact Or.inl rfl
            · rw [if_neg hro]
              simp only [Bool.and_eq_true] at hcond
              exact Or.inr ⟨filed.loc, cur, src, hl1, hcond.1.2, rfl⟩
          · rw [if_neg hcond]
            exact Or.inl rfl

theorem mutateHE_invariant (τ : TypeInfo) (P : Heap → Prop) (target : Nat)
    (hstep : ∀ r h, P h → P (applyReplaceHE τ r target h).1) :
    ∀ (plan : List HReplace) (h : Heap), P h → P (mutateHE τ plan target h).heap
  | [], h, hp => hp
  | r :: rest, h, hp => by
    rw [mutateHE_cons]
    split
    · exact hstep r h hp
    · exact mutateHE_invariant τ P target hstep rest _ (hstep r h hp)

theorem filled_kept (τ : TypeInfo) (plan : List HReplace) (target : Nat) (h : Heap) (m : Loc)
    (c : HVal) (hl : load h m = some c) (hf : c.filled = true) :
    load (mutateHE τ plan target h).heap m = some c := by
  apply mutateHE_invariant τ (fun h' => load h' m = some c) target _ plan h hl
  intro r h' hp
  rcases applyReplaceHE_cases τ r target h' with e | ⟨l, cur, src, hcur, hz, e⟩
  · rw [e]
    exact hp
  · rw [e]
    exact load_store_of_filled h' l m src cur c hcur hz hp hf

theorem nonzero_kept (τ : TypeInfo) (plan : List HReplace) (target : Nat) (h : Heap) (m : Loc)
    (c : HVal) (hl : load h m = some c) (hnz : c.IsZero = false) :
    ∃ c', load (mutateHE τ plan target h).heap m = some c' ∧ c'.IsZero = false := by
  apply mutateHE_invariant τ (fun h' => ∃ c', load h' m = some c' ∧ c'.IsZero = false) target _
    plan h ⟨c, hl, hnz⟩
  intro r h' hp
  obtain ⟨c₀, hc₀, hnz₀⟩ := hp
  rcases applyReplaceHE_cases τ r target h' with e | ⟨l, cur, src, hcur, hz, e⟩
  · rw [e]
    exact ⟨c₀, hc₀, hnz₀⟩
  · rw [e]
    exact load_store_of_nonzero h' l m src cur c₀ hcur hz hc₀ hnz₀

/-! ## Objects in memory: the way to a non-zero slot -/

theorem load_field {h : Heap} {l : Loc} {ty : Ty} {fs : HFields} (n : String)
    (hl : load h l = some (.struct ty fs)) : load h ⟨l.cell, l.path ++ [n]⟩ = fs.find n := by
  obtain ⟨v, hv, hg⟩ := load_cell h l _ hl
  simp only [load, hv]
  rw [HVal.getIn_append, hg]
  simp only [Option.some_bind, HVal.getIn]
  cases fs.find n <;> rfl

/-- A write into a zero slot leaves a non-zero content what it is or, when it
is a struct that holds the slot, a struct of the same type. -/
theorem load_store_shape (h : Heap) (l m : Loc) (src cur x : HVal)
    (hcur : load h l = some cur) (hz : cur.IsZero = true)
    (hl : load h m = some x) (hnz : x.IsZero = false) :
    ∃ x', load (store h l src) m = some x' ∧ x'.IsZero = false ∧
      (x' = x ∨ ∃ ty fs n g, x = .struct ty fs ∧ x' = .struct ty (fs.modify n g)) := by
  by_cases hc : m.cell = l.cell
  · obtain ⟨v, hv, hgl⟩ := load_cell h l cur hcur
    obtain ⟨w, hw, hgm⟩ := load_cell h m x hl
    rw [hc, hv] at hw
    cases hw
    by_cases h1 : l.path <+: m.path
    · obtain ⟨q, hq⟩ := h1
      rw [← hq, HVal.getIn_append, hgl] at hgm
      have := HVal.zero_getIn q cur x hgm hz
      rw [hnz] at this
      exact Bool.noConfusion this
    · by_cases h2 : m.path <+: l.path
      · obtain ⟨q, hq⟩ := h2
        rw [← hq, HVal.getIn_append, hgm] at hgl
        have hgl' : HVal.getIn q x = some cur := hgl
        have hs : (store h l src)[m.cell]? = some (v.putIn l.path src) := by
          rw [hc]
          exact store_getElem?_cell h l src v hv
        have hload : load (store h l src) m = some (HVal.putIn q x src) := by
          simp only [load, hs]
          rw [← hq, HVal.getIn_putIn_append, hgm]
          rfl
        refine ⟨HVal.putIn q x src, hload, ?_, ?_⟩
        · apply HVal.putIn_nonzero q x src _ hnz
          intro cur' hcur'
          rw [hgl'] at hcur'
          cases hcur'
          exact hz
        · cases q with
          | nil =>
            simp only [HVal.getIn, Option.some.injEq] at hgl'
            rw [hgl', hz] at hnz
            exact Bool.noConfusion hnz
          | cons n q' =>
            cases x with
            | struct ty fs => exact Or.inr ⟨ty, fs, n, _, rfl, rfl⟩
            | bool _ _ => simp [HVal.getIn] at hgl'
            | int _ _ => simp [HVal.getIn] at hgl'
            | str _ _ => simp [HVal.getIn] at hgl'
            | ref _ _ => simp [HVal.getIn] at hgl'
            | ptr _ _ => simp [HVal.getIn] at hgl'
      · exact ⟨x, by rw [load_store_incomp h l m src hc ⟨h1, h2⟩]; exact hl, hnz, Or.inl rfl⟩
  · exact ⟨x, by rw [load_store_other h l m src hc]; exact hl, hnz, Or.inl rfl⟩

theorem nonzero_of_field {h : Heap} {l : Loc} {ty : Ty} {fs : HFields} {n : String} {v : HVal}
    (hl : load h l = some (.struct ty fs)) (hv : load h ⟨l.cell, l.path ++ [n]⟩ = some v)
    (hnz : v.IsZero = false) : (HVal.struct ty fs).IsZero = false := by
  rw [load_field n hl] at hv
  cases hall : fs.allZero with
  | false => simpa [HVal.IsZero] using hall
  | true =>
    rw [HFields.zero_of_find hall hv] at hnz
    exact Bool.noConfusion hnz

theorem fieldOfH_loc (τ : TypeInfo) (ty : Ty) (l : Loc) (ro : Bool) (n : String) :
    (fieldOfH τ ty l ro n).loc = ⟨l.cell, l.path ++ [n]⟩ := rfl

/-- The struct a promoted field is found in is non-zero when the field is. -/
theorem FieldByIndexH_nonzero (τ : TypeInfo) (h : Heap) :
    ∀ (index : List String) (l : Loc) (ro : Bool) (c : HCursor),
      FieldByIndexH τ h index l ro = some c →
      (∃ v, load h c.loc = some v ∧ v.IsZero = false) →
      ∃ x, load h l = some x ∧ x.IsZero = false
  | [], _, _, _, hf, _ => by simp [FieldByIndexH] at hf
  | [x], l, ro, c, hf, hc => by
    unfold FieldByIndexH at hf
    cases hl : load h l with
    | none => simp [hl] at hf
    | some s =>
      cases s with
      | struct ty fs =>
        simp only [hl] at hf
        cases hfx : fs.find x with
        | none => simp [hfx] at hf
        | some fv =>
          simp only [hfx, Option.map_some', Option.some.injEq] at hf
          obtain ⟨v, hv, hnz⟩ := hc
          rw [← hf, fieldOfH_loc] at hv
          exact ⟨_, rfl, nonzero_of_field hl hv hnz⟩
      | bool _ _ => simp [hl] at hf
      | int _ _ => simp [hl] at hf
      | str _ _ => simp [hl] at hf
      | ref _ _ => simp [hl] at hf
      | ptr _ _ => simp [hl] at hf
  | x :: y :: rest, l, ro, c, hf, hc => by
    unfold FieldByIndexH at hf
    cases hl : load h l with
    | none => simp [hl] at hf
    | some s =>
      cases s with
      | struct ty fs =>
        simp only [hl] at hf
        have hfield := load_field x hl
        cases hfx : fs.find x with
        | none => simp [hfx] at hf
        | some fv =>
          rw [hfx] at hfield
          simp only [hfx] at hf
          refine ⟨_, rfl, ?_⟩
          cases fv with
          | ptr pty a =>
            cases a with
            | none => simp at hf
            | some a => exact nonzero_of_field hl hfield rfl
          | struct ty' fs' =>
            simp only at hf
            obtain ⟨z, hz1, hz2⟩ := FieldByIndexH_nonzero τ h (y :: rest) _ _ c hf hc
            rw [fieldOfH_loc] at hz1
            exact nonzero_of_field hl hz1 hz2
          | bool _ _ =>
            simp only at hf
            obtain ⟨z, hz1, hz2⟩ := FieldByIndexH_nonzero τ h (y :: rest) _ _ c hf hc
            rw [fieldOfH_loc] at hz1
            exact nonzero_of_field hl hz1 hz2
          | int _ _ =>
            simp only at hf
            obtain ⟨z, hz1, hz2⟩ := FieldByIndexH_nonzero τ h (y :: rest) _ _ c hf hc
            rw [fieldOfH_loc] at hz1
            exact nonzero_of_field hl hz1 hz2
          | str _ _ =>
            simp only at hf
            obtain ⟨z, hz1, hz2⟩ := FieldByIndexH_nonzero τ h (y :: rest) _ _ c hf hc
            rw [fieldOfH_loc] at hz1
            exact nonzero_of_field hl hz1 hz2
          | ref _ _ =>
            simp only at hf
            obtain ⟨z, hz1, hz2⟩ := FieldByIndexH_nonzero τ h (y :: rest) _ _ c hf hc
            rw [fieldOfH_loc] at hz1
            exact nonzero_of_field hl hz1 hz2
      | bool _ _ => simp [hl] at hf
      | int _ _ => simp [hl] at hf
      | str _ _ => simp [hl] at hf
      | ref _ _ => simp [hl] at hf
      | ptr _ _ => simp [hl] at hf

theorem HFields.find_modify_isSome (fs : HFields) (n m : String) (g : HVal → HVal) :
    ((fs.modify n g).find m).isSome = (fs.find m).isSome := by
  by_cases hnm : n = m
  · subst hnm
    rw [HFields.find_modify_self]
    cases fs.find n <;> rfl
  · rw [HFields.find_modify_other _ _ hnm]

/-- A write into a zero slot leaves a non-zero struct a struct of its type
with the same field names. -/
theorem load_store_struct (h : Heap) (l m : Loc) (src cur : HVal) (ty : Ty) (fs : HFields)
    (hcur : load h l = some cur) (hz : cur.IsZero = true)
    (hl : load h m = some (.struct ty fs)) (hnz : (HVal.struct ty fs).IsZero = false) :
    ∃ fs', load (store h l src) m = some (.struct ty fs') ∧
      ∀ n, (fs'.find n).isSome = (fs.find n).isSome := by
  obtain ⟨x', hx', -, hshape⟩ := load_store_shape h l m src cur _ hcur hz hl hnz
  rcases hshape with e | ⟨ty', fs₀, n, g, e1, e2⟩
  · exact ⟨fs, by rw [hx', e], fun _ => rfl⟩
  · cases e1
    exact ⟨_, by rw [hx', e2], fun k => HFields.find_modify_isSome fs n k g⟩

/-- A write into a zero slot leaves a non-nil pointer as it is. -/
theorem load_store_ptr (h : Heap) (l m : Loc) (src cur : HVal) (pty : Ty) (a : Nat)
    (hcur : load h l = some cur) (hz : cur.IsZero = true)
    (hl : load h m = some (.ptr pty (some a))) :
    load (store h l src) m = some (.ptr pty (some a)) := by
  obtain ⟨x', hx', -, hshape⟩ := load_store_shape h l m src cur _ hcur hz hl rfl
  rcases hshape with e | ⟨ty', fs₀, n, g, e1, e2⟩
  · rw [hx', e]
  · cases e1

/-- A promoted field with a non-zero content is found where it was after a
write into a zero slot. -/
theorem FieldByIndexH_store (τ : TypeInfo) (h : Heap) (l : Loc) (src cur : HVal)
    (hcur : load h l = some cur) (hz : cur.IsZero = true) :
    ∀ (index : List String) (l₀ : Loc) (ro : Bool) (c : HCursor),
      FieldByIndexH τ h index l₀ ro = some c →
      (∃ v, load h c.loc = some v ∧ v.IsZero = false) →
      FieldByIndexH τ (store h l src) index l₀ ro = some c
  | [], _, _, _, hf, _ => by simp [FieldByIndexH] at hf
  | [x], l₀, ro, c, hf, hc => by
    obtain ⟨s, hs, hsnz⟩ := FieldByIndexH_nonzero τ h [x] l₀ ro c hf hc
    unfold FieldByIndexH at hf ⊢
    cases s with
    | struct ty fs =>
      simp only [hs] at hf
      obtain ⟨fs', hfs', hnames⟩ := load_store_struct h l l₀ src cur ty fs hcur hz hs hsnz
      simp only [hfs']
      cases hfx : fs.find x with
      | none => simp [hfx] at hf
      | some fv =>
        simp only [hfx, Option.map_some', Option.some.injEq] at hf
        have := hnames x
        rw [hfx] at this
        cases hfx' : fs'.find x with
        | none => simp [hfx'] at this
        | some fv' => simp [hf]
    | bool _ _ => simp [hs] at hf
    | int _ _ => simp [hs] at hf
    | str _ _ => simp [hs] at hf
    | ref _ _ => simp [hs] at hf
    | ptr _ _ => simp [hs] at hf
  | x :: y :: rest, l₀, ro, c, hf, hc => by
    obtain ⟨s, hs, hsnz⟩ := FieldByIndexH_nonzero τ h (x :: y :: rest) l₀ ro c hf hc
    unfold FieldByIndexH at hf ⊢
    cases s with
    | struct ty fs =>
      simp only [hs] at hf
      obtain ⟨fs', hfs', hnames⟩ := load_store_struct h l l₀ src cur ty fs hcur hz hs hsnz
      simp only [hfs']
      have hfield := load_field x hs
      have hfield' := load_field x hfs'
      cases hfx : fs.find x with
      | none => simp [hfx] at hf
      | some fv =>
        rw [hfx] at hfield
        simp only [hfx] at hf
        cases fv with
        | ptr pty a =>
          cases a with
          | none => simp at hf
          | some a =>
            simp only at hf
            have hp := load_store_ptr h l _ src cur pty a hcur hz hfield
            rw [hfield'] at hp
            simp only [hp]
            exact FieldByIndexH_store τ h l src cur hcur hz (y :: rest) _ _ c hf hc
        | struct ty' fs₁ =>
          simp only at hf
          obtain ⟨z, hz1, hz2⟩ := FieldByIndexH_nonzero τ h (y :: rest) _ _ c hf hc
          rw [fieldOfH_loc, hfield] at hz1
          cases hz1
          obtain ⟨fs₂, hfs₂, -⟩ :=
            load_store_struct h l _ src cur ty' fs₁ hcur hz hfield hz2
          rw [hfield'] at hfs₂
          simp only [hfs₂]
          exact FieldByIndexH_store τ h l src cur hcur hz (y :: rest) _ _ c hf hc
        | bool _ _ =>
          simp only at hf
          obtain ⟨z, hz1, hz2⟩ := FieldByIndexH_nonzero τ h (y :: rest) _ _ c hf hc
          obtain ⟨x', hx', -, hshape⟩ := load_store_shape h l _ src cur _ hcur hz hfield
            (by rw [fieldOfH_loc, hfield] at hz1; cases hz1; exact hz2)
          rcases hshape with e | ⟨_, _, _, _, e1, _⟩
          · rw [hfield', e] at hx'
            simp only [hx']
            exact FieldByIndexH_store τ h l src cur hcur hz (y :: rest) _ _ c hf hc
          · cases e1
        | int _ _ =>
          simp only at hf
          obtain ⟨z, hz1, hz2⟩ := FieldByIndexH_nonzero τ h (y :: rest) _ _ c hf hc
          obtain ⟨x', hx', -, hshape⟩ := load_store_shape h l _ src cur _ hcur hz hfield
            (by rw [fieldOfH_loc, hfield] at hz1; cases hz1; exact hz2)
          rcases hshape with e | ⟨_, _, _, _, e1, _⟩
          · rw [hfield', e] at hx'
            simp only [hx']
            exact FieldByIndexH_store τ h l src cur hcur hz (y :: rest) _ _ c hf hc
          · cases e1
        | str _ _ =>
          simp only at hf
          obtain ⟨z, hz1, hz2⟩ := FieldByIndexH_nonzero τ h (y :: rest) _ _ c hf hc
          obtain ⟨x', hx', -, hshape⟩ := load_store_shape h l _ src cur _ hcur hz hfield
            (by rw [fieldOfH_loc, hfield] at hz1; cases hz1; exact hz2)
          rcases hshape with e | ⟨_, _, _, _, e1, _⟩
          · rw [hfield', e] at hx'
            simp only [hx']
            exact FieldByIndexH_store τ h l src cur hcur hz (y :: rest) _ _ c hf hc
          · cases e1
        | ref _ _ =>
          simp only at hf
          obtain ⟨z, hz1, hz2⟩ := FieldByIndexH_nonzero τ h (y :: rest) _ _ c hf hc
          obtain ⟨x', hx', -, hshape⟩ := load_store_shape h l _ src cur _ hcur hz hfield
            (by rw [fieldOfH_loc, hfield] at hz1; cases hz1; exact hz2)
          rcases hshape with e | ⟨_, _, _, _, e1, _⟩
          · rw [hfield', e] at hx'
            simp only [hx']
            exact FieldByIndexH_store τ h l src cur hcur hz (y :: rest) _ _ c hf hc
          · cases e1
    | bool _ _ => simp [hs] at hf
    | int _ _ => simp [hs] at hf
    | str _ _ => simp [hs] at hf
    | ref _ _ => simp [hs] at hf
    | ptr _ _ => simp [hs] at hf

theorem walkHE_none (τ : TypeInfo) (h : Heap) (names : List String) (f : HCursor) :
    walkHE τ h names none ≠ .ended (some f) := by
  cases names with
  | nil => simp [walkHE]
  | cons n rest => simp [walkHE, kindAtE]

theorem walkHE_struct (τ : TypeInfo) {h : Heap} {c : HCursor} {ty : Ty} {fs : HFields}
    (n : String) (rest : List String) (hl : load h c.loc = some (.struct ty fs)) :
    walkHE τ h (n :: rest) (some c) =
      match FieldByNameH τ h (some c) (Title n) with
      | .found c' => walkHE τ h rest (some c')
      | .absent => walkHE τ h rest none
      | .panic => .panicked := by
  simp [walkHE, kindAtE, hl, HVal.Kind]

theorem walkHE_ptr (τ : TypeInfo) {h : Heap} {c : HCursor} {pty : Ty} {a : Nat}
    (n : String) (rest : List String) (hl : load h c.loc = some (.ptr pty (some a))) :
    walkHE τ h (n :: rest) (some c) =
      match load h ⟨a, []⟩ with
      | some (.struct _ _) => walkHE τ h (n :: rest) (some ⟨⟨a, []⟩, c.ro, c.ero⟩)
      | _ => .aborted := by
  cases hl2 : load h ⟨a, []⟩ with
  | none => simp [walkHE, kindAtE, elemAtE, hl, hl2, HVal.Kind]
  | some x => cases x <;> simp [walkHE, kindAtE, elemAtE, hl, hl2, HVal.Kind]

theorem FieldByNameH_struct (τ : TypeInfo) {h : Heap} {c : HCursor} {ty : Ty} {fs : HFields}
    (name : String) (hl : load h c.loc = some (.struct ty fs)) :
    FieldByNameH τ h (some c) name =
      match fs.find name with
      | some _ => .found (fieldOfH τ ty c.loc c.ro name)
      | none =>
        match τ.promoted ty name with
        | none => .absent
        | some index =>
          match FieldByIndexH τ h index c.loc c.ro with
          | some f => .found f
          | none => .panic := by
  simp [FieldByNameH, hl]

/-- The struct a field is found in is non-zero when the field is. -/
theorem FieldByNameH_nonzero (τ : TypeInfo) {h : Heap} {c c' : HCursor} {ty : Ty}
    {fs : HFields} {name : String} (hl : load h c.loc = some (.struct ty fs))
    (hf : FieldByNameH τ h (some c) name = .found c')
    (hc : ∃ v, load h c'.loc = some v ∧ v.IsZero = false) :
    (HVal.struct ty fs).IsZero = false := by
  rw [FieldByNameH_struct τ name hl] at hf
  cases hfx : fs.find name with
  | some fv =>
    simp only [hfx, HLookup.found.injEq] at hf
    obtain ⟨v, hv, hnz⟩ := hc
    rw [← hf, fieldOfH_loc] at hv
    exact nonzero_of_field hl hv hnz
  | none =>
    simp only [hfx] at hf
    cases hp : τ.promoted ty name with
    | none => simp [hp] at hf
    | some index =>
      simp only [hp] at hf
      cases hi : FieldByIndexH τ h index c.loc c.ro with
      | none => simp [hi] at hf
      | some f =>
        simp only [hi, HLookup.found.injEq] at hf
        subst hf
        obtain ⟨x, hx, hxnz⟩ := FieldByIndexH_nonzero τ h index c.loc c.ro f hi hc
        rw [hl] at hx
        cases hx
        exact hxnz

/-- A field with a non-zero content is found where it was after a write into a
zero slot. -/
theorem FieldByNameH_store (τ : TypeInfo) (h : Heap) (l : Loc) (src cur : HVal)
    (hcur : load h l = some cur) (hz : cur.IsZero = true) {c c' : HCursor} {ty : Ty}
    {fs fs' : HFields} {name : String} (hl : load h c.loc = some (.struct ty fs))
    (hl' : load (store h l src) c.loc = some (.struct ty fs'))
    (hnames : ∀ n, (fs'.find n).isSome = (fs.find n).isSome)
    (hf : FieldByNameH τ h (some c) name = .found c')
    (hc : ∃ v, load h c'.loc = some v ∧ v.IsZero = false) :
    FieldByNameH τ (store h l src) (some c) name = .found c' := by
  rw [FieldByNameH_struct τ name hl] at hf
  rw [FieldByNameH_struct τ name hl']
  have hn := hnames name
  cases hfx : fs.find name with
  | some fv =>
    simp only [hfx] at hf
    rw [hfx] at hn
    cases hfx' : fs'.find name with
    | none => simp [hfx'] at hn
    | some fv' => simpa using hf
  | none =>
    simp only [hfx] at hf
    rw [hfx] at hn
    cases hfx' : fs'.find name with
    | some fv' => simp [hfx'] at hn
    | none =>
      simp only
      cases hp : τ.promoted ty name with
      | none => simp [hp] at hf
      | some index =>
        simp only [hp] at hf ⊢
        cases hi : FieldByIndexH τ h index c.loc c.ro with
        | none => simp [hi] at hf
        | some f =>
          simp only [hi, HLookup.found.injEq] at hf
          subst hf
          rw [FieldByIndexH_store τ h l src cur hcur hz index c.loc c.ro f hi hc]

/-- The walk to a non-zero slot starts from a non-zero slot. -/
theorem walkHE_nonzero (τ : TypeInfo) (h : Heap) :
    ∀ (names : List String) (c f : HCursor), walkHE τ h names (some c) = .ended (some f) →
      (∃ v, load h f.loc = some v ∧ v.IsZero = false) →
      ∃ x, load h c.loc = some x ∧ x.IsZero = false := by
  intro names
  induction names with
  | nil =>
    intro c f hw hf
    simp only [walkHE, HWalk.ended.injEq, Option.some.injEq] at hw
    subst hw
    exact hf
  | cons n rest ih =>
    have hstruct : ∀ (c f : HCursor) (ty : Ty) (fs : HFields),
        load h c.loc = some (.struct ty fs) →
        walkHE τ h (n :: rest) (some c) = .ended (some f) →
        (∃ v, load h f.loc = some v ∧ v.IsZero = false) →
        (HVal.struct ty fs).IsZero = false := by
      intro c f ty fs hl hw hf
      rw [walkHE_struct τ n rest hl] at hw
      cases hfb : FieldByNameH τ h (some c) (Title n) with
      | found c' =>
        simp only [hfb] at hw
        exact FieldByNameH_nonzero τ hl hfb (ih c' f hw hf)
      | absent =>
        simp only [hfb] at hw
        exact absurd hw (walkHE_none τ h rest f)
      | panic => simp [hfb] at hw
    intro c f hw hf
    cases hl : load h c.loc with
    | none => simp [walkHE, kindAtE, elemAtE, hl] at hw
    | some x =>
      cases x with
      | struct ty fs => exact ⟨_, rfl, hstruct c f ty fs hl hw hf⟩
      | ptr pty a =>
        cases a with
        | none => simp [walkHE, kindAtE, elemAtE, hl, HVal.Kind] at hw
        | some a => exact ⟨_, rfl, rfl⟩
      | bool _ _ => simp [walkHE, kindAtE, elemAtE, hl, HVal.Kind] at hw
      | int _ _ => simp [walkHE, kindAtE, elemAtE, hl, HVal.Kind] at hw
      | str _ _ => simp [walkHE, kindAtE, elemAtE, hl, HVal.Kind] at hw
      | ref _ _ => simp [walkHE, kindAtE, elemAtE, hl, HVal.Kind] at hw

/-- The walk to a non-zero slot ends in the same slot after a write into a
zero slot. -/
theorem walkHE_store (τ : TypeInfo) (h : Heap) (l : Loc) (src cur : HVal)
    (hcur : load h l = some cur) (hz : cur.IsZero = true) :
    ∀ (names : List String) (c f : HCursor), walkHE τ h names (some c) = .ended (some f) →
      (∃ v, load h f.loc = some v ∧ v.IsZero = false) →
      walkHE τ (store h l src) names (some c) = .ended (some f) := by
  intro names
  induction names with
  | nil =>
    intro c f hw _
    simpa [walkHE] using hw
  | cons n rest ih =>
    have hstruct : ∀ (c f : HCursor) (ty : Ty) (fs : HFields),
        load h c.loc = some (.struct ty fs) →
        walkHE τ h (n :: rest) (some c) = .ended (some f) →
        (∃ v, load h f.loc = some v ∧ v.IsZero = false) →
        ∃ fs', load (store h l src) c.loc = some (.struct ty fs') ∧
          walkHE τ (store h l src) (n :: rest) (some c) = .ended (some f) := by
      intro c f ty fs hl hw hf
      obtain ⟨x, hx, hxnz⟩ := walkHE_nonzero τ h (n :: rest) c f hw hf
      rw [hl] at hx
      cases hx
      obtain ⟨fs', hfs', hnames⟩ := load_store_struct h l c.loc src cur ty fs hcur hz hl hxnz
      refine ⟨fs', hfs', ?_⟩
      rw [walkHE_struct τ n rest hl] at hw
      rw [walkHE_struct τ n rest hfs']
      cases hfb : FieldByNameH τ h (some c) (Title n) with
      | found c' =>
        simp only [hfb] at hw
        have hc' := walkHE_nonzero τ h rest c' f hw hf
        rw [FieldByNameH_store τ h l src cur hcur hz hl hfs' hnames hfb hc']
        exact ih c' f hw hf
      | absent =>
        simp only [hfb] at hw
        exact absurd hw (walkHE_none τ h rest f)
      | panic => simp [hfb] at hw
    intro c f hw hf
    cases hl : load h c.loc with
    | none => simp [walkHE, kindAtE, elemAtE, hl] at hw
    | some x =>
      cases x with
      | struct ty fs =>
        obtain ⟨_, _, hw'⟩ := hstruct c f ty fs hl hw hf
        exact hw'
      | ptr pty a =>
        cases a with
        | none => simp [walkHE, kindAtE, elemAtE, hl, HVal.Kind] at hw
        | some a =>
          rw [walkHE_ptr τ n rest hl] at hw
          rw [walkHE_ptr τ n rest (load_store_ptr h l c.loc src cur pty a hcur hz hl)]
          cases hl2 : load h ⟨a, []⟩ with
          | none => simp [hl2] at hw
          | some y =>
            cases y with
            | struct ty fs =>
              simp only [hl2] at hw
              obtain ⟨fs', hfs', hw'⟩ :=
                hstruct ⟨⟨a, []⟩, c.ro, c.ero⟩ f ty fs hl2 hw hf
              simp only [hfs']
              exact hw'
            | bool _ _ => simp [hl2] at hw
            | int _ _ => simp [hl2] at hw
            | str _ _ => simp [hl2] at hw
            | ref _ _ => simp [hl2] at hw
            | ptr _ _ => simp [hl2] at hw
      | bool _ _ => simp [walkHE, kindAtE, elemAtE, hl, HVal.Kind] at hw
      | int _ _ => simp [walkHE, kindAtE, elemAtE, hl, HVal.Kind] at hw
      | str _ _ => simp [walkHE, kindAtE, elemAtE, hl, HVal.Kind] at hw
      | ref _ _ => simp [walkHE, kindAtE, elemAtE, hl, HVal.Kind] at hw

/-- The walk to a non-zero slot ends in the same slot, still non-zero, after a
call. -/
theorem walkHE_kept (τ : TypeInfo) (plan : List HReplace) (target : Nat) (h : Heap)
    (names : List String) (c f : HCursor) (hw : walkHE τ h names (some c) = .ended (some f))
    (hf : ∃ v, load h f.loc = some v ∧ v.IsZero = false) :
    walkHE τ (mutateHE τ plan target h).heap names (some c) = .ended (some f) ∧
      ∃ v, load (mutateHE τ plan target h).heap f.loc = some v ∧ v.IsZero = false := by
  apply mutateHE_invariant τ (fun h' => walkHE τ h' names (some c) = .ended (some f) ∧
    ∃ v, load h' f.loc = some v ∧ v.IsZero = false) target _ plan h ⟨hw, hf⟩
  intro r h' hp
  obtain ⟨hw', v, hv, hvnz⟩ := hp
  rcases applyReplaceHE_cases τ r target h' with e | ⟨l, cur, src, hcur, hz, e⟩
  · rw [e]
    exact ⟨hw', v, hv, hvnz⟩
  · rw [e]
    exact ⟨walkHE_store τ h' l src cur hcur hz names c f hw' ⟨v, hv, hvnz⟩,
      load_store_of_nonzero h' l f.loc src cur v hcur hz hv hvnz⟩

/-! ## Objects in memory: the way to the slot that is written -/

/-- A slot at or inside a zero slot holds a zero content. -/
theorem zero_of_inside {h : Heap} {l m : Loc} {cur x : HVal} (hcur : load h l = some cur)
    (hz : cur.IsZero = true) (hc : m.cell = l.cell) (hp : l.path <+: m.path)
    (hm : load h m = some x) : x.IsZero = true := by
  obtain ⟨v, hv, hgl⟩ := load_cell h l cur hcur
  obtain ⟨w, hw, hgm⟩ := load_cell h m x hm
  rw [hc, hv] at hw
  cases hw
  obtain ⟨q, hq⟩ := hp
  rw [← hq, HVal.getIn_append, hgl] at hgm
  exact HVal.zero_getIn q cur x hgm hz

/-- A write leaves a content that is not at or inside the written slot what it
is or, when it is a struct that holds the slot, a struct of the same type with
the same field names. -/
theorem load_store_apart (h : Heap) (l m : Loc) (src cur x : HVal)
    (hcur : load h l = some cur) (hl : load h m = some x)
    (hap : ¬ (m.cell = l.cell ∧ l.path <+: m.path)) :
    ∃ x', load (store h l src) m = some x' ∧
      (x' = x ∨ ∃ ty fs n g, x = .struct ty fs ∧ x' = .struct ty (fs.modify n g)) := by
  by_cases hc : m.cell = l.cell
  · have h1 : ¬ l.path <+: m.path := fun hp => hap ⟨hc, hp⟩
    obtain ⟨v, hv, hgl⟩ := load_cell h l cur hcur
    obtain ⟨w, hw, hgm⟩ := load_cell h m x hl
    rw [hc, hv] at hw
    cases hw
    by_cases h2 : m.path <+: l.path
    · obtain ⟨q, hq⟩ := h2
      rw [← hq, HVal.getIn_append, hgm] at hgl
      have hgl' : HVal.getIn q x = some cur := hgl
      have hs : (store h l src)[m.cell]? = some (v.putIn l.path src) := by
        rw [hc]
        exact store_getElem?_cell h l src v hv
      have hload : load (store h l src) m = some (HVal.putIn q x src) := by
        simp only [load, hs]
        rw [← hq, HVal.getIn_putIn_append, hgm]
        rfl
      refine ⟨HVal.putIn q x src, hload, ?_⟩
      cases q with
      | nil =>
        rw [List.append_nil] at hq
        exact absurd (hq ▸ List.prefix_refl _) h1
      | cons n q' =>
        cases x with
        | struct ty fs => exact Or.inr ⟨ty, fs, n, _, rfl, rfl⟩
        | bool _ _ => simp [HVal.getIn] at hgl'
        | int _ _ => simp [HVal.getIn] at hgl'
        | str _ _ => simp [HVal.getIn] at hgl'
        | ref _ _ => simp [HVal.getIn] at hgl'
        | ptr _ _ => simp [HVal.getIn] at hgl'
    · exact ⟨x, by rw [load_store_incomp h l m src hc ⟨h1, h2⟩]; exact hl, Or.inl rfl⟩
  · exact ⟨x, by rw [load_store_other h l m src hc]; exact hl, Or.inl rfl⟩

theorem load_store_apart_struct (h : Heap) (l m : Loc) (src cur : HVal) (ty : Ty)
    (fs : HFields) (hcur : load h l = some cur) (hl : load h m = some (.struct ty fs))
    (hap : ¬ (m.cell = l.cell ∧ l.path <+: m.path)) :
    ∃ fs', load (store h l src) m = some (.struct ty fs') ∧
      ∀ n, (fs'.find n).isSome = (fs.find n).isSome := by
  obtain ⟨x', hx', hshape⟩ := load_store_apart h l m src cur _ hcur hl hap
  rcases hshape with e | ⟨ty', fs₀, n, g, e1, e2⟩
  · exact ⟨fs, by rw [hx', e], fun _ => rfl⟩
  · cases e1
    exact ⟨_, by rw [hx', e2], fun k => HFields.find_modify_isSome fs n k g⟩

theorem load_store_apart_leaf (h : Heap) (l m : Loc) (src cur x : HVal)
    (hcur : load h l = some cur) (hl : load h m = some x)
    (hap : ¬ (m.cell = l.cell ∧ l.path <+: m.path)) (hk : x.Kind ≠ Kind.Struct) :
    load (store h l src) m = some x := by
  obtain ⟨x', hx', hshape⟩ := load_store_apart h l m src cur _ hcur hl hap
  rcases hshape with e | ⟨ty', fs₀, n, g, e1, e2⟩
  · rw [hx', e]
  · rw [e1] at hk
    exact absurd rfl hk

/-- A promoted field looked up from a slot at or inside a zero slot lies
deeper inside it. -/
theorem FieldByIndexH_inside (τ : TypeInfo) (h : Heap) (l : Loc) (cur : HVal)
    (hcur : load h l = some cur) (hz : cur.IsZero = true) :
    ∀ (index : List String) (l₀ : Loc) (ro : Bool) (c : HCursor),
      l₀.cell = l.cell → l.path <+: l₀.path → FieldByIndexH τ h index l₀ ro = some c →
      c.loc.cell = l.cell ∧ l.path <+: c.loc.path ∧ c.loc.path ≠ l.path
  | [], _, _, _, _, _, hf => by simp [FieldByIndexH] at hf
  | [x], l₀, ro, c, hc, hp, hf => by
    unfold FieldByIndexH at hf
    cases hl : load h l₀ with
    | none => simp [hl] at hf
    | some s =>
      cases s with
      | struct ty fs =>
        simp only [hl] at hf
        cases hfx : fs.find x with
        | none => simp [hfx] at hf
        | some fv =>
          simp only [hfx, Option.map_some', Option.some.injEq] at hf
          rw [← hf, fieldOfH_loc]
          obtain ⟨q, hq⟩ := hp
          refine ⟨hc, ⟨q ++ [x], by simp [← hq]⟩, ?_⟩
          intro e
          have : (l.path ++ (q ++ [x])).length = l.path.length := by
            rw [← List.append_assoc, hq]
            exact congrArg List.length e
          simp at this
      | bool _ _ => simp [hl] at hf
      | int _ _ => simp [hl] at hf
      | str _ _ => simp [hl] at hf
      | ref _ _ => simp [hl] at hf
      | ptr _ _ => simp [hl] at hf
  | x :: y :: rest, l₀, ro, c, hc, hp, hf => by
    unfold FieldByIndexH at hf
    cases hl : load h l₀ with
    | none => simp [hl] at hf
    | some s =>
      cases s with
      | struct ty fs =>
        simp only [hl] at hf
        have hfield := load_field x hl
        have hp' : l.path <+: l₀.path ++ [x] := by
          obtain ⟨q, hq⟩ := hp
          exact ⟨q ++ [x], by simp [← hq]⟩
        cases hfx : fs.find x with
        | none => simp [hfx] at hf
        | some fv =>
          rw [hfx] at hfield
          simp only [hfx] at hf
          have hzero : fv.IsZero = true :=
            zero_of_inside (m := ⟨l₀.cell, l₀.path ++ [x]⟩) hcur hz hc hp' hfield
          cases fv with
          | ptr pty a =>
            cases a with
            | none => simp at hf
            | some a => simp [HVal.IsZero] at hzero
          | struct ty' fs' =>
            simp only at hf
            exact FieldByIndexH_inside τ h l cur hcur hz (y :: rest) ⟨l₀.cell, l₀.path ++ [x]⟩ _ c hc hp' hf
          | bool _ _ =>
            simp only at hf
            exact FieldByIndexH_inside τ h l cur hcur hz (y :: rest) ⟨l₀.cell, l₀.path ++ [x]⟩ _ c hc hp' hf
          | int _ _ =>
            simp only at hf
            exact FieldByIndexH_inside τ h l cur hcur hz (y :: rest) ⟨l₀.cell, l₀.path ++ [x]⟩ _ c hc hp' hf
          | str _ _ =>
            simp only at hf
            exact FieldByIndexH_inside τ h l cur hcur hz (y :: rest) ⟨l₀.cell, l₀.path ++ [x]⟩ _ c hc hp' hf
          | ref _ _ =>
            simp only at hf
            exact FieldByIndexH_inside τ h l cur hcur hz (y :: rest) ⟨l₀.cell, l₀.path ++ [x]⟩ _ c hc hp' hf
      | bool _ _ => simp [hl] at hf
      | int _ _ => simp [hl] at hf
      | str _ _ => simp [hl] at hf
      | ref _ _ => simp [hl] at hf
      | ptr _ _ => simp [hl] at hf

/-- A walk that starts at or inside a zero slot ends inside it, and deeper
than the slot unless it starts at the slot and has no segment. -/
theorem walkHE_inside (τ : TypeInfo) (h : Heap) (l : Loc) (cur : HVal)
    (hcur : load h l = some cur) (hz : cur.IsZero = true) :
    ∀ (names : List String) (c f : HCursor), c.loc.cell = l.cell → l.path <+: c.loc.path →
      walkHE τ h names (some c) = .ended (some f) →
      f.loc.cell = l.cell ∧ l.path <+: f.loc.path ∧
        ((c.loc.path ≠ l.path ∨ names ≠ []) → f.loc.path ≠ l.path) := by
  intro names
  induction names with
  | nil =>
    intro c f hc hp hw
    simp only [walkHE, HWalk.ended.injEq, Option.some.injEq] at hw
    subst hw
    exact ⟨hc, hp, fun hne => hne.elim id (fun e => absurd rfl e)⟩
  | cons n rest ih =>
    have hstruct : ∀ (c f : HCursor) (ty : Ty) (fs : HFields), c.loc.cell = l.cell →
        l.path <+: c.loc.path → load h c.loc = some (.struct ty fs) →
        walkHE τ h (n :: rest) (some c) = .ended (some f) →
        f.loc.cell = l.cell ∧ l.path <+: f.loc.path ∧ f.loc.path ≠ l.path := by
      intro c f ty fs hc hp hl hw
      rw [walkHE_struct τ n rest hl] at hw
      cases hfb : FieldByNameH τ h (some c) (Title n) with
      | found c' =>
        simp only [hfb] at hw
        have hc' : c'.loc.cell = l.cell ∧ l.path <+: c'.loc.path ∧ c'.loc.path ≠ l.path := by
          rw [FieldByNameH_struct τ (Title n) hl] at hfb
          cases hfx : fs.find (Title n) with
          | some fv =>
            simp only [hfx, HLookup.found.injEq] at hfb
            rw [← hfb, fieldOfH_loc]
            obtain ⟨q, hq⟩ := hp
            refine ⟨hc, ⟨q ++ [Title n], by simp [← hq]⟩, ?_⟩
            intro e
            have : (l.path ++ (q ++ [Title n])).length = l.path.length := by
              rw [← List.append_assoc, hq]
              exact congrArg List.length e
            simp at this
          | none =>
            simp only [hfx] at hfb
            cases hpr : τ.promoted ty (Title n) with
            | none => simp [hpr] at hfb
            | some index =>
              simp only [hpr] at hfb
              cases hi : FieldByIndexH τ h index c.loc c.ro with
              | none => simp [hi] at hfb
              | some g =>
                simp only [hi, HLookup.found.injEq] at hfb
                subst hfb
                exact FieldByIndexH_inside τ h l cur hcur hz index c.loc c.ro g hc hp hi
        obtain ⟨i1, i2, i3⟩ := ih c' f hc'.1 hc'.2.1 hw
        exact ⟨i1, i2, i3 (Or.inl hc'.2.2)⟩
      | absent =>
        simp only [hfb] at hw
        exact absurd hw (walkHE_none τ h rest f)
      | panic => simp [hfb] at hw
    intro c f hc hp hw
    cases hl : load h c.loc with
    | none => simp [walkHE, kindAtE, elemAtE, hl] at hw
    | some x =>
      have hzero : x.IsZero = true := zero_of_inside hcur hz hc hp hl
      cases x with
      | struct ty fs =>
        obtain ⟨i1, i2, i3⟩ := hstruct c f ty fs hc hp hl hw
        exact ⟨i1, i2, fun _ => i3⟩
      | ptr pty a =>
        cases a with
        | none => simp [walkHE, kindAtE, elemAtE, hl, HVal.Kind] at hw
        | some a => simp [HVal.IsZero] at hzero
      | bool _ _ => simp [walkHE, kindAtE, elemAtE, hl, HVal.Kind] at hw
      | int _ _ => simp [walkHE, kindAtE, elemAtE, hl, HVal.Kind] at hw
      | str _ _ => simp [walkHE, kindAtE, elemAtE, hl, HVal.Kind] at hw
      | ref _ _ => simp [walkHE, kindAtE, elemAtE, hl, HVal.Kind] at hw

/-- A promoted field that is not deeper inside the written slot is found where
it was after the write. -/
theorem FieldByIndexH_store_final (τ : TypeInfo) (h : Heap) (l : Loc) (src cur : HVal)
    (hcur : load h l = some cur) (hz : cur.IsZero = true) :
    ∀ (index : List String) (l₀ : Loc) (ro : Bool) (c : HCursor),
      FieldByIndexH τ h index l₀ ro = some c →
      ¬ (c.loc.cell = l.cell ∧ l.path <+: c.loc.path ∧ c.loc.path ≠ l.path) →
      FieldByIndexH τ (store h l src) index l₀ ro = some c
  | [], _, _, _, hf, _ => by simp [FieldByIndexH] at hf
  | [x], l₀, ro, c, hf, hfin => by
    have hap : ¬ (l₀.cell = l.cell ∧ l.path <+: l₀.path) := fun hin =>
      hfin (FieldByIndexH_inside τ h l cur hcur hz [x] l₀ ro c hin.1 hin.2 hf)
    unfold FieldByIndexH at hf ⊢
    cases hl : load h l₀ with
    | none => simp [hl] at hf
    | some s =>
      cases s with
      | struct ty fs =>
        simp only [hl] at hf
        obtain ⟨fs', hfs', hnames⟩ := load_store_apart_struct h l l₀ src cur ty fs hcur hl hap
        simp only [hfs']
        cases hfx : fs.find x with
        | none => simp [hfx] at hf
        | some fv =>
          simp only [hfx, Option.map_some', Option.some.injEq] at hf
          have := hnames x
          rw [hfx] at this
          cases hfx' : fs'.find x with
          | none => simp [hfx'] at this
          | some fv' => simp [hf]
      | bool _ _ => simp [hl] at hf
      | int _ _ => simp [hl] at hf
      | str _ _ => simp [hl] at hf
      | ref _ _ => simp [hl] at hf
      | ptr _ _ => simp [hl] at hf
  | x :: y :: rest, l₀, ro, c, hf, hfin => by
    have hap : ¬ (l₀.cell = l.cell ∧ l.path <+: l₀.path) := fun hin =>
      hfin (FieldByIndexH_inside τ h l cur hcur hz (x :: y :: rest) l₀ ro c hin.1 hin.2 hf)
    unfold FieldByIndexH at hf ⊢
    cases hl : load h l₀ with
    | none => simp [hl] at hf
    | some s =>
      cases s with
      | struct ty fs =>
        simp only [hl] at hf
        obtain ⟨fs', hfs', hnames⟩ := load_store_apart_struct h l l₀ src cur ty fs hcur hl hap
        simp only [hfs']
        have hfield := load_field x hl
        have hfield' := load_field x hfs'
        cases hfx : fs.find x with
        | none => simp [hfx] at hf
        | some fv =>
          rw [hfx] at hfield
          simp only [hfx] at hf
          have hinl : ∀ (hrec : FieldByIndexH τ h (y :: rest) ⟨l₀.cell, l₀.path ++ [x]⟩
              (fieldOfH τ ty l₀ ro x).ro = some c) (hk : fv.Kind ≠ Kind.Ptr),
              (match fs'.find x with
                | some (.ptr _ (some a)) =>
                  FieldByIndexH τ (store h l src) (y :: rest) ⟨a, []⟩ (fieldOfH τ ty l₀ ro x).ro
                | some (.ptr _ none) => none
                | some _ =>
                  FieldByIndexH τ (store h l src) (y :: rest) (fieldOfH τ ty l₀ ro x).loc
                    (fieldOfH τ ty l₀ ro x).ro
                | none => none) = some c := by
            intro hrec hk
            have hap' : ¬ ((⟨l₀.cell, l₀.path ++ [x]⟩ : Loc).cell = l.cell ∧
                l.path <+: (⟨l₀.cell, l₀.path ++ [x]⟩ : Loc).path) := fun hin =>
              hfin (FieldByIndexH_inside τ h l cur hcur hz (y :: rest) _ _ c hin.1 hin.2 hrec)
            have ih := FieldByIndexH_store_final τ h l src cur hcur hz (y :: rest) _ _ c hrec hfin
            obtain ⟨x', hx', hshape⟩ := load_store_apart h l _ src cur _ hcur hfield hap'
            rw [hfield'] at hx'
            rw [hx']
            rcases hshape with e | ⟨ty', fs₀, n', g, e1, e2⟩
            · rw [e]
              cases fv with
              | ptr _ _ => exact absurd rfl hk
              | struct _ _ => exact ih
              | bool _ _ => exact ih
              | int _ _ => exact ih
              | str _ _ => exact ih
              | ref _ _ => exact ih
            · rw [e2]
              exact ih
          cases fv with
          | ptr pty a =>
            cases a with
            | none => simp at hf
            | some a =>
              simp only at hf
              have hap' : ¬ ((⟨l₀.cell, l₀.path ++ [x]⟩ : Loc).cell = l.cell ∧
                  l.path <+: (⟨l₀.cell, l₀.path ++ [x]⟩ : Loc).path) := fun hin => by
                have := zero_of_inside hcur hz hin.1 hin.2 hfield
                simp [HVal.IsZero] at this
              have hp := load_store_apart_leaf h l _ src cur _ hcur hfield hap'
                (by simp [HVal.Kind])
              rw [hfield'] at hp
              simp only [hp]
              exact FieldByIndexH_store_final τ h l src cur hcur hz (y :: rest) _ _ c hf hfin
          | struct ty' fs₁ => exact hinl hf (by simp [HVal.Kind])
          | bool _ _ => exact hinl hf (by simp [HVal.Kind])
          | int _ _ => exact hinl hf (by simp [HVal.Kind])
          | str _ _ => exact hinl hf (by simp [HVal.Kind])
          | ref _ _ => exact hinl hf (by simp [HVal.Kind])
      | bool _ _ => simp [hl] at hf
      | int _ _ => simp [hl] at hf
      | str _ _ => simp [hl] at hf
      | ref _ _ => simp [hl] at hf
      | ptr _ _ => simp [hl] at hf

/-- A field that is not deeper inside the written slot is found where it was
after the write. -/
theorem FieldByNameH_store_final (τ : TypeInfo) (h : Heap) (l : Loc) (src cur : HVal)
    (hcur : load h l = some cur) (hz : cur.IsZero = true) {c c' : HCursor} {ty : Ty}
    {fs fs' : HFields} {name : String} (hl : load h c.loc = some (.struct ty fs))
    (hl' : load (store h l src) c.loc = some (.struct ty fs'))
    (hnames : ∀ n, (fs'.find n).isSome = (fs.find n).isSome)
    (hf : FieldByNameH τ h (some c) name = .found c')
    (hfin : ¬ (c'.loc.cell = l.cell ∧ l.path <+: c'.loc.path ∧ c'.loc.path ≠ l.path)) :
    FieldByNameH τ (store h l src) (some c) name = .found c' := by
  rw [FieldByNameH_struct τ name hl] at hf
  rw [FieldByNameH_struct τ name hl']
  have hn := hnames name
  cases hfx : fs.find name with
  | some fv =>
    simp only [hfx] at hf
    rw [hfx] at hn
    cases hfx' : fs'.find name with
    | none => simp [hfx'] at hn
    | some fv' => simpa using hf
  | none =>
    simp only [hfx] at hf
    rw [hfx] at hn
    cases hfx' : fs'.find name with
    | some fv' => simp [hfx'] at hn
    | none =>
      simp only
      cases hp : τ.promoted ty name with
      | none => simp [hp] at hf
      | some index =>
        simp only [hp] at hf ⊢
        cases hi : FieldByIndexH τ h index c.loc c.ro with
        | none => simp [hi] at hf
        | some f =>
          simp only [hi, HLookup.found.injEq] at hf
          subst hf
          rw [FieldByIndexH_store_final τ h l src cur hcur hz index c.loc c.ro f hi hfin]

/-- The walk to a zero slot ends in the same slot after the slot has been
written. -/
theorem walkHE_store_final (τ : TypeInfo) (h : Heap) (l : Loc) (src cur : HVal)
    (hcur : load h l = some cur) (hz : cur.IsZero = true) :
    ∀ (names : List String) (c f : HCursor), walkHE τ h names (some c) = .ended (some f) →
      f.loc = l → walkHE τ (store h l src) names (some c) = .ended (some f) := by
  intro names
  induction names with
  | nil =>
    intro c f hw _
    simpa [walkHE] using hw
  | cons n rest ih =>
    have hapart : ∀ (c f : HCursor), walkHE τ h (n :: rest) (some c) = .ended (some f) →
        f.loc = l → ¬ (c.loc.cell = l.cell ∧ l.path <+: c.loc.path) := by
      intro c f hw hfl hin
      have := (walkHE_inside τ h l cur hcur hz (n :: rest) c f hin.1 hin.2 hw).2.2
        (Or.inr (List.cons_ne_nil _ _))
      rw [hfl] at this
      exact this rfl
    have hstruct : ∀ (c f : HCursor) (ty : Ty) (fs : HFields),
        load h c.loc = some (.struct ty fs) →
        walkHE τ h (n :: rest) (some c) = .ended (some f) → f.loc = l →
        ∃ fs', load (store h l src) c.loc = some (.struct ty fs') ∧
          walkHE τ (store h l src) (n :: rest) (some c) = .ended (some f) := by
      intro c f ty fs hl hw hfl
      obtain ⟨fs', hfs', hnames⟩ :=
        load_store_apart_struct h l c.loc src cur ty fs hcur hl (hapart c f hw hfl)
      refine ⟨fs', hfs', ?_⟩
      rw [walkHE_struct τ n rest hl] at hw
      rw [walkHE_struct τ n rest hfs']
      cases hfb : FieldByNameH τ h (some c) (Title n) with
      | found c' =>
        simp only [hfb] at hw
        have hfin : ¬ (c'.loc.cell = l.cell ∧ l.path <+: c'.loc.path ∧ c'.loc.path ≠ l.path) := by
          intro hin
          have := (walkHE_inside τ h l cur hcur hz rest c' f hin.1 hin.2.1 hw).2.2
            (Or.inl hin.2.2)
          rw [hfl] at this
          exact this rfl
        rw [FieldByNameH_store_final τ h l src cur hcur hz hl hfs' hnames hfb hfin]
        exact ih c' f hw hfl
      | absent =>
        simp only [hfb] at hw
        exact absurd hw (walkHE_none τ h rest f)
      | panic => simp [hfb] at hw
    intro c f hw hfl
    cases hl : load h c.loc with
    | none => simp [walkHE, kindAtE, elemAtE, hl] at hw
    | some x =>
      cases x with
      | struct ty fs =>
        obtain ⟨_, _, hw'⟩ := hstruct c f ty fs hl hw hfl
        exact hw'
      | ptr pty a =>
        cases a with
        | none => simp [walkHE, kindAtE, elemAtE, hl, HVal.Kind] at hw
        | some a =>
          have hp := load_store_apart_leaf h l c.loc src cur _ hcur hl (hapart c f hw hfl)
            (by simp [HVal.Kind])
          rw [walkHE_ptr τ n rest hl] at hw
          rw [walkHE_ptr τ n rest hp]
          cases hl2 : load h ⟨a, []⟩ with
          | none => simp [hl2] at hw
          | some y =>
            cases y with
            | struct ty fs =>
              simp only [hl2] at hw
              obtain ⟨fs', hfs', hw'⟩ :=
                hstruct ⟨⟨a, []⟩, c.ro, c.ero⟩ f ty fs hl2 hw hfl
              simp only [hfs']
              exact hw'
            | bool _ _ => simp [hl2] at hw
            | int _ _ => simp [hl2] at hw
            | str _ _ => simp [hl2] at hw
            | ref _ _ => simp [hl2] at hw
            | ptr _ _ => simp [hl2] at hw
      | bool _ _ => simp [walkHE, kindAtE, elemAtE, hl, HVal.Kind] at hw
      | int _ _ => simp [walkHE, kindAtE, elemAtE, hl, HVal.Kind] at hw
      | str _ _ => simp [walkHE, kindAtE, elemAtE, hl, HVal.Kind] at hw
      | ref _ _ => simp [walkHE, kindAtE, elemAtE, hl, HVal.Kind] at hw

/-- The walk depends on the segments through their title-case form only. -/
theorem walkHE_title (τ : TypeInfo) (h : Heap) :
    ∀ (names names' : List String) (c : Option HCursor), names.map Title = names'.map Title →
      walkHE τ h names c = walkHE τ h names' c
  | [], [], _, _ => rfl
  | [], _ :: _, _, e => by simp at e
  | _ :: _, [], _, e => by simp at e
  | n :: rest, n' :: rest', c, e => by
    simp only [List.map_cons, List.cons.injEq] at e
    have ih := fun c' => walkHE_title τ h rest rest' c' e.2
    simp only [walkHE, e.1, ih]
/-! ## Embedded fields: lookups decided among the declared fields -/

theorem Fields.structTypes_find {fs : Fields} {n : String} {fv : Val}
    (h : fs.find n = some fv) : ∀ ty ∈ fv.structTypes, ty ∈ fs.structTypes := by
  induction fs with
  | nil => simp [Fields.find] at h
  | cons m t w rest ih =>
    intro ty hty
    by_cases hm : m = n
    · simp only [Fields.find, hm, if_true, Option.some.injEq] at h
      subst h
      simp [Fields.structTypes, hty]
    · simp only [Fields.find, hm, if_false] at h
      simp [Fields.structTypes, ih h ty hty]

theorem Fields.structTypes_modify (fs : Fields) (n : String) (f : Val → Val) (S : Ty → Prop)
    (hf : ∀ fv, fs.find n = some fv → ∀ ty ∈ (f fv).structTypes, ty ∈ fv.structTypes ∨ S ty) :
    ∀ ty ∈ (fs.modify n f).structTypes, ty ∈ fs.structTypes ∨ S ty := by
  induction fs with
  | nil => intro ty hty; simp [Fields.modify, Fields.structTypes] at hty
  | cons m t w rest ih =>
    intro ty hty
    by_cases hm : m = n
    · simp only [Fields.modify, hm, if_true, Fields.structTypes, List.mem_append] at hty ⊢
      rcases hty with h1 | h1
      · rcases hf w (by simp [Fields.find, hm]) ty h1 with h2 | h2
        · exact Or.inl (Or.inl h2)
        · exact Or.inr h2
      · exact Or.inl (Or.inr h1)
    · simp only [Fields.modify, hm, if_false, Fields.structTypes, List.mem_append] at hty ⊢
      rcases hty with h1 | h1
      · exact Or.inl (Or.inl h1)
      · rcases ih (fun fv hfv => hf fv (by simpa [Fields.find, hm] using hfv)) ty h1 with h2 | h2
        · exact Or.inl (Or.inr h2)
        · exact Or.inr h2

/-- A write brings no struct type into the target that was not in the target
or in the value written. -/
theorem structTypes_assign : ∀ (p : List String) (v x : Val),
    ∀ ty ∈ (assign p v x).structTypes, ty ∈ v.structTypes ∨ ty ∈ x.structTypes
  | [], v, x => by
    intro ty hty
    simp only [assign] at hty
    exact Or.inr hty
  | n :: p, .struct sty fs, x => by
    intro ty hty
    simp only [assign, Val.structTypes, List.mem_cons] at hty ⊢
    rcases hty with h1 | h1
    · exact Or.inl (Or.inl h1)
    · rcases Fields.structTypes_modify fs n _ (fun ty => ty ∈ x.structTypes)
        (fun fv _ ty hty => structTypes_assign p fv x ty hty) ty h1 with h2 | h2
      · exact Or.inl (Or.inr h2)
      · exact Or.inr h2
  | n :: p, .ptr pty (.struct sty fs), x => by
    intro ty hty
    simp only [assign, Val.structTypes, List.mem_cons] at hty ⊢
    rcases hty with h1 | h1
    · exact Or.inl (Or.inl h1)
    · rcases Fields.structTypes_modify fs n _ (fun ty => ty ∈ x.structTypes)
        (fun fv _ ty hty => structTypes_assign p fv x ty hty) ty h1 with h2 | h2
      · exact Or.inl (Or.inr h2)
      · exact Or.inr h2
  | _ :: _, .bool _ _, _ => by intro ty hty; simp only [assign] at hty; exact Or.inl hty
  | _ :: _, .int _ _, _ => by intro ty hty; simp only [assign] at hty; exact Or.inl hty
  | _ :: _, .str _ _, _ => by intro ty hty; simp only [assign] at hty; exact Or.inl hty
  | _ :: _, .ref _ _, _ => by intro ty hty; simp only [assign] at hty; exact Or.inl hty
  | _ :: _, .nilptr _, _ => by intro ty hty; simp only [assign] at hty; exact Or.inl hty
  | _ :: _, .ptr _ (.bool _ _), _ => by intro ty hty; simp only [assign] at hty; exact Or.inl hty
  | _ :: _, .ptr _ (.int _ _), _ => by intro ty hty; simp only [assign] at hty; exact Or.inl hty
  | _ :: _, .ptr _ (.str _ _), _ => by intro ty hty; simp only [assign] at hty; exact Or.inl hty
  | _ :: _, .ptr _ (.ref _ _), _ => by intro ty hty; simp only [assign] at hty; exact Or.inl hty
  | _ :: _, .ptr _ (.nilptr _), _ => by intro ty hty; simp only [assign] at hty; exact Or.inl hty
  | _ :: _, .ptr _ (.ptr _ _), _ => by intro ty hty; simp only [assign] at hty; exact Or.inl hty

theorem walk_none : ∀ (p : List String), walk p none = if p = [] then some none else none
  | [] => rfl
  | _ :: _ => by simp [walk, kindOf]

theorem walkE_none (τ : TypeInfo) : ∀ (p : List String) (names : List String),
    walkE τ p none names = if p = [] then .ended none names else .aborted
  | [], _ => rfl
  | _ :: _, _ => by simp [walkE, kindOfE]

theorem walkE_plain (τ : TypeInfo) (tys : List Ty) (names : List String) :
    ∀ (p : List String) (v : Val) (ro : Bool) (acc : List String),
      PlainFor τ tys (names ++ p.map Title) → (∀ ty ∈ v.structTypes, ty ∈ tys) →
      (walkE τ p (some ⟨v, ro, false⟩) acc).agrees (walk p (some ⟨v, ro⟩)) (acc ++ p.map Title)
  | [], v, ro, acc, _, _ => by
    simp [walkE, walk, Walk.agrees, Value.toCursor]
  | name :: rest, v, ro, acc, hp, hv => by
    have hname : ∀ ty ∈ tys, τ.promoted ty (Title name) = none ∧
        (τ.embedded ty (Title name) = true → isExported (Title name) = true) :=
      fun ty hty => hp ty hty (Title name) (by simp)
    have hrest : PlainFor τ tys ((names ++ [Title name]) ++ rest.map Title) := by
      intro ty hty n hn
      apply hp ty hty n
      simpa using hn
    have key : ∀ (sty : Ty) (fs : Fields) (ro' : Bool), (∀ ty ∈ (Val.struct sty fs).structTypes, ty ∈ tys) →
        (match FieldByName τ (some ⟨.struct sty fs, ro', false⟩) (Title name) with
          | .found c index => walkE τ rest (some c) (acc ++ index)
          | .absent => walkE τ rest none acc
          | .panic => Walk.panicked).agrees
          (walk rest (fieldByName (some ⟨.struct sty fs, ro'⟩) (Title name)))
          (acc ++ (name :: rest).map Title) := by
      intro sty fs ro' hs
      have hsty : sty ∈ tys := hs sty (by simp [Val.structTypes])
      obtain ⟨hprom, hemb⟩ := hname sty hsty
      simp only [FieldByName, fieldByName]
      cases hfind : fs.find (Title name) with
      | none =>
        simp only [hprom, walkE_none, walk_none]
        by_cases hr : rest = []
        · simp [hr, Walk.agrees]
        · simp [hr, Walk.agrees]
      | some fv =>
        have hflags : fieldOf τ sty ro' (Title name) fv = ⟨fv, ro' || !isExported (Title name), false⟩ := by
          unfold fieldOf
          cases hx : isExported (Title name) <;> cases he : τ.embedded sty (Title name) <;>
            simp_all
        simp only [hflags]
        have hfv : ∀ ty ∈ fv.structTypes, ty ∈ tys := by
          intro ty hty
          apply hs ty
          simp only [Val.structTypes, List.mem_cons]
          exact Or.inr (Fields.structTypes_find hfind ty hty)
        have ih := walkE_plain τ tys (names ++ [Title name]) rest fv
          (ro' || !isExported (Title name)) (acc ++ [Title name]) hrest hfv
        simpa [List.append_assoc] using ih
    cases v with
    | struct sty fs =>
      have := key sty fs ro hv
      simpa [walkE, walk, kindOfE, kindOf, Val.Kind] using this
    | ptr pty e =>
      cases e with
      | struct sty fs =>
        have := key sty fs ro (fun ty hty => hv ty (by simpa [Val.structTypes] using hty))
        simpa [walkE, walk, kindOfE, kindOf, elemOfE, elemOf, Val.Kind] using this
      | bool _ _ => simp [walkE, walk, kindOfE, kindOf, elemOfE, elemOf, Val.Kind, Walk.agrees]
      | int _ _ => simp [walkE, walk, kindOfE, kindOf, elemOfE, elemOf, Val.Kind, Walk.agrees]
      | str _ _ => simp [walkE, walk, kindOfE, kindOf, elemOfE, elemOf, Val.Kind, Walk.agrees]
      | ref _ _ => simp [walkE, walk, kindOfE, kindOf, elemOfE, elemOf, Val.Kind, Walk.agrees]
      | nilptr _ => simp [walkE, walk, kindOfE, kindOf, elemOfE, elemOf, Val.Kind, Walk.agrees]
      | ptr _ _ => simp [walkE, walk, kindOfE, kindOf, elemOfE, elemOf, Val.Kind, Walk.agrees]
    | bool _ _ => simp [walkE, walk, kindOfE, kindOf, Val.Kind, Walk.agrees]
    | int _ _ => simp [walkE, walk, kindOfE, kindOf, Val.Kind, Walk.agrees]
    | str _ _ => simp [walkE, walk, kindOfE, kindOf, Val.Kind, Walk.agrees]
    | ref _ _ => simp [walkE, walk, kindOfE, kindOf, Val.Kind, Walk.agrees]
    | nilptr _ => simp [walkE, walk, kindOfE, kindOf, elemOfE, elemOf, Val.Kind, Walk.agrees]

theorem applyReplaceE_plain (τ : TypeInfo) (tys : List Ty) (r : Replace) (T : Val)
    (hp : PlainFor τ tys r.path) (hT : ∀ ty ∈ T.structTypes, ty ∈ tys) :
    applyReplaceE τ r T = applyReplace r T := by
  have h := walkE_plain τ tys [] r.field T false [] (by simpa [Replace.path] using hp) hT
  unfold applyReplaceE applyReplace
  cases hw : walk r.field (some ⟨T, false⟩) with
  | none =>
    rw [hw] at h
    simp only [Walk.agrees] at h
    rw [h]
  | some o =>
    cases o with
    | none =>
      rw [hw] at h
      simp only [Walk.agrees] at h
      obtain ⟨ns, hns⟩ := h
      rw [hns]
    | some c =>
      rw [hw] at h
      simp only [Walk.agrees, List.nil_append] at h
      rw [h]
      simp [Value.toCursor, canSet]

theorem applyReplace_structTypes (r : Replace) (T : Val) :
    ∀ ty ∈ (applyReplace r T).1.structTypes, ty ∈ T.structTypes ∨ ty ∈ r.value.structTypes := by
  intro ty hty
  rw [applyReplace_eq] at hty
  by_cases hw : writable r T = true
  · rw [if_pos hw] at hty
    by_cases hro : r.ro = true
    · rw [if_pos hro] at hty
      exact Or.inl hty
    · rw [if_neg hro] at hty
      exact structTypes_assign _ _ _ ty hty
  · rw [if_neg hw] at hty
    exact Or.inl hty

/-- When every lookup is decided among the declared fields, the mutator with
embedded fields is the mutator of the first embedding. -/
theorem mutateE_plainFor (τ : TypeInfo) (tys : List Ty) (names : List String)
    (hp : PlainFor τ tys names) :
    ∀ (rs : List Replace) (T : Val),
      (∀ r ∈ rs, (∀ n ∈ r.path, n ∈ names) ∧ ∀ ty ∈ r.value.structTypes, ty ∈ tys) →
      (∀ ty ∈ T.structTypes, ty ∈ tys) → mutateE τ rs T = mutate rs T
  | [], T, _, _ => rfl
  | r :: rest, T, hrs, hT => by
    have hr := hrs r (List.mem_cons_self _ _)
    have hstep : applyReplaceE τ r T = applyReplace r T :=
      applyReplaceE_plain τ tys r T (fun ty hty n hn => hp ty hty n (hr.1 n hn)) hT
    have hnext : ∀ ty ∈ (applyReplace r T).1.structTypes, ty ∈ tys := by
      intro ty hty
      rcases applyReplace_structTypes r T ty hty with h1 | h1
      · exact hT ty h1
      · exact hr.2 ty h1
    have ih := mutateE_plainFor τ tys names hp rest (applyReplace r T).1
      (fun r' hr' => hrs r' (List.mem_cons_of_mem _ hr')) hnext
    unfold mutateE mutate
    rw [hstep]
    rcases hx : applyReplace r T with ⟨T', e⟩
    rw [hx] at ih
    cases e <;> simp [ih]

theorem mem_typesOf_value {rs : List Replace} {r : Replace} (T : Val) (hr : r ∈ rs) :
    ∀ ty ∈ r.value.structTypes, ty ∈ typesOf rs T := by
  intro ty hty
  unfold typesOf
  rw [List.mem_append, List.mem_flatten]
  exact Or.inr ⟨_, List.mem_map_of_mem _ hr, hty⟩

theorem mem_namesOf {rs : List Replace} {r : Replace} (hr : r ∈ rs) :
    ∀ n ∈ r.path, n ∈ namesOf rs := by
  intro n hn
  unfold namesOf
  rw [List.mem_flatten]
  exact ⟨_, List.mem_map_of_mem _ hr, hn⟩

theorem mutateE_plain {τ : TypeInfo} {rs : List Replace} {T : Val} (hp : Plain τ rs T) :
    mutateE τ rs T = mutate rs T :=
  mutateE_plainFor τ (typesOf rs T) (namesOf rs) hp rs T
    (fun _ hr => ⟨mem_namesOf hr, mem_typesOf_value T hr⟩)
    (fun ty hty => by unfold typesOf; exact List.mem_append_left _ hty)

theorem mutate_structTypes (rs : List Replace) (T : Val) :
    ∀ ty ∈ (mutate rs T).result.structTypes, ty ∈ typesOf rs T := by
  apply mutate_invariant (fun Z => ∀ ty ∈ Z.structTypes, ty ∈ typesOf rs T)
  · intro r hr Z hZ ty hty
    rcases applyReplace_structTypes r Z ty hty with h1 | h1
    · exact hZ ty h1
    · exact mem_typesOf_value T hr ty h1
  · intro ty hty
    unfold typesOf
    exact List.mem_append_left _ hty

/-- The condition is kept by a call. -/
theorem plain_after {τ : TypeInfo} {rs : List Replace} {T : Val} (hp : Plain τ rs T) :
    Plain τ rs (mutate rs T).result := by
  intro ty hty n hn
  apply hp ty _ n hn
  unfold typesOf at hty
  rcases List.mem_append.1 hty with h1 | h1
  · exact mutate_structTypes rs T ty h1
  · unfold typesOf
    exact List.mem_append_right _ h1

theorem twice_mutateE_plain {τ : TypeInfo} {rs : List Replace} {T : Val} (hp : Plain τ rs T) :
    twice (mutateE τ rs) T = twice (mutate rs) T := by
  unfold twice
  rw [mutateE_plain hp, mutateE_plain (plain_after hp)]

theorem getOverrideMutationE_eq {τ : TypeInfo} {owner : Val} {m : Val → Outcome}
    (h : GetOverrideMutationE τ owner = some m) : m = mutateE τ (planE τ owner) := by
  cases owner with
  | struct ty fs =>
    simp only [GetOverrideMutationE, Option.some.injEq] at h
    rw [← h]
    rfl
  | bool _ _ => simp [GetOverrideMutationE] at h
  | int _ _ => simp [GetOverrideMutationE] at h
  | str _ _ => simp [GetOverrideMutationE] at h
  | ref _ _ => simp [GetOverrideMutationE] at h
  | nilptr _ => simp [GetOverrideMutationE] at h
  | ptr _ _ => simp [GetOverrideMutationE] at h

/-! ## Plans that fill ancestors first: idempotence -/

theorem Fields.wellTyped_modify {Γ : TypeEnv} (fs : Fields) (n : String) (f : Val → Val) :
    ∀ ds, fs.WellTyped Γ ds = true →
      (∀ fv, fs.find n = some fv → (f fv).Type = fv.Type ∧ (f fv).WellTyped Γ = true) →
      (fs.modify n f).WellTyped Γ ds = true := by
  induction fs with
  | nil => intro ds h _; exact h
  | cons m t v rest ih =>
    intro ds h hf
    cases ds with
    | nil => simp [Fields.WellTyped] at h
    | cons d ds =>
      simp only [Fields.WellTyped, Bool.and_eq_true] at h
      by_cases hm : m = n
      · have hfv := hf v (by simp [Fields.find, hm])
        simp only [Fields.modify, hm, if_true, Fields.WellTyped, Bool.and_eq_true]
        rw [hfv.1]
        rw [hm] at h
        exact ⟨⟨⟨⟨h.1.1.1.1, h.1.1.1.2⟩, h.1.1.2⟩, hfv.2⟩, h.2⟩
      · simp only [Fields.modify, hm, if_false, Fields.WellTyped, Bool.and_eq_true]
        refine ⟨h.1, ih ds h.2 ?_⟩
        intro fv hfind
        exact hf fv (by simpa [Fields.find, hm] using hfind)

theorem Val.wellTyped_setFields {Γ : TypeEnv} {v : Val} {fs gs : Fields}
    (h : v.WellTyped Γ = true) (hf : v.fieldsOf = some fs)
    (hg : ∀ ds, fs.WellTyped Γ ds = true → gs.WellTyped Γ ds = true) :
    (v.setFields gs).WellTyped Γ = true := by
  cases v with
  | struct ty fs0 =>
    simp only [Val.fieldsOf, Option.some.injEq] at hf
    subst hf
    simp only [Val.WellTyped, Bool.and_eq_true] at h
    simp only [Val.setFields, Val.WellTyped, Bool.and_eq_true]
    exact ⟨h.1, hg _ h.2⟩
  | ptr pty e =>
    cases e with
    | struct ty fs0 =>
      simp only [Val.fieldsOf, Option.some.injEq] at hf
      subst hf
      simp only [Val.WellTyped, Bool.and_eq_true] at h
      simp only [Val.setFields, Val.WellTyped, Bool.and_eq_true]
      exact ⟨h.1, h.2.1, hg _ h.2.2⟩
    | _ => simp [Val.fieldsOf] at hf
  | _ => simp [Val.fieldsOf] at hf

/-- A write of a well-typed value into a slot of its type keeps the target
well typed. -/
theorem assign_wellTyped {Γ : TypeEnv} {p : List String} {Z v : Val} {ro : Bool} {c : Value}
    (hZ : Z.WellTyped Γ = true) (hv : v.WellTyped Γ = true) (hs : slot p Z ro = some c)
    (ht : c.val.Type = v.Type) :
    (assign p Z v).Type = Z.Type ∧ (assign p Z v).WellTyped Γ = true := by
  induction p generalizing Z ro with
  | nil =>
    simp only [slot, Option.some.injEq] at hs
    subst hs
    exact ⟨ht.symm, hv⟩
  | cons n rest ih =>
    rw [slot_cons] at hs
    rw [assign_cons]
    cases hf : Z.fieldsOf with
    | none => simp [hf] at hs
    | some fs =>
      simp only [hf] at hs ⊢
      cases hn : fs.find n with
      | none => simp [hn] at hs
      | some fv =>
        simp only [hn] at hs
        obtain ⟨ds, hds⟩ := Val.wellTyped_fieldsOf hZ hf
        refine ⟨Val.type_setFields _ _, Val.wellTyped_setFields hZ hf ?_⟩
        intro ds' hds'
        apply Fields.wellTyped_modify fs n _ ds' hds'
        intro fv' hfv'
        rw [hn] at hfv'
        cases hfv'
        exact ih (Fields.wellTyped_find hds hn) hs

theorem step_wellTyped {Γ : TypeEnv} {r : Replace} {Z : Val} (hZ : Z.WellTyped Γ = true)
    (hv : r.value.WellTyped Γ = true) : (step r Z).WellTyped Γ = true := by
  rw [step_eq]
  by_cases hw : (writable r Z && !r.ro) = true
  · rw [if_pos hw]
    simp only [Bool.and_eq_true] at hw
    obtain ⟨c, hc, -, -, hct⟩ := (writable_iff r Z).1 hw.1
    exact (assign_wellTyped hZ hv hc hct).2
  · rw [if_neg hw]
    exact hZ

theorem run_wellTyped {Γ : TypeEnv} {rs : List Replace} {Z : Val} (hZ : Z.WellTyped Γ = true)
    (hv : ∀ r ∈ rs, r.value.WellTyped Γ = true) : (run rs Z).WellTyped Γ = true := by
  induction rs generalizing Z with
  | nil => exact hZ
  | cons r G ih =>
    exact ih (step_wellTyped hZ (hv r (List.mem_cons_self _ _)))
      (fun r' hr' => hv r' (List.mem_cons_of_mem _ hr'))

/-- An entry whose value is zero leaves a well-typed target as it is. -/
theorem step_of_zero {Γ : TypeEnv} {r : Replace} {Z : Val} (hZ : Z.WellTyped Γ = true)
    (hv : r.value.WellTyped Γ = true) (hz : r.value.IsZero = true) : step r Z = Z := by
  rw [step_eq]
  by_cases hw : (writable r Z && !r.ro) = true
  · rw [if_pos hw]
    simp only [Bool.and_eq_true] at hw
    obtain ⟨c, hc, -, hcz, hct⟩ := (writable_iff r Z).1 hw.1
    have heq : c.val = r.value :=
      Val.zero_unique c.val r.value (slot_wellTyped hZ hc) hv hct hcz hz
    rw [← heq]
    exact assign_slot_val hc
  · rw [if_neg hw]

theorem Fields.allZero_modify_false (fs : Fields) (n : String) (f : Val → Val)
    (h : fs.allZero = false)
    (hf : ∀ fv, fs.find n = some fv → fv.IsZero = false → (f fv).IsZero = false) :
    (fs.modify n f).allZero = false := by
  induction fs with
  | nil => simp [Fields.allZero] at h
  | cons m t v rest ih =>
    by_cases hm : m = n
    · simp only [Fields.modify, hm, if_true, Fields.allZero]
      simp only [Fields.allZero, Bool.and_eq_false_iff] at h
      rcases h with h | h
      · rw [hf v (by simp [Fields.find, hm]) h]
        rfl
      · rw [h]
        simp
    · simp only [Fields.modify, hm, if_false, Fields.allZero]
      simp only [Fields.allZero, Bool.and_eq_false_iff] at h
      rcases h with h | h
      · rw [h]
        rfl
      · rw [ih h (fun fv hfind => hf fv (by simpa [Fields.find, hm] using hfind))]
        simp

/-- A write into a zero slot inside a non-zero value leaves the value
non-zero. -/
theorem assign_nonzero {s : List String} {v x : Val} {ro : Bool} {c : Value}
    (hs : slot s v ro = some c) (hz : c.val.IsZero = true) (hnz : v.IsZero = false) :
    (assign s v x).IsZero = false := by
  induction s generalizing v ro with
  | nil =>
    simp only [slot, Option.some.injEq] at hs
    subst hs
    rw [hnz] at hz
    exact Bool.noConfusion hz
  | cons n rest ih =>
    rw [slot_cons] at hs
    rw [assign_cons]
    cases hf : v.fieldsOf with
    | none => simp [hf] at hs
    | some fs =>
      simp only [hf] at hs ⊢
      cases hn : fs.find n with
      | none => simp [hn] at hs
      | some fv =>
        simp only [hn] at hs
        cases v with
        | struct ty gs =>
          simp only [Val.fieldsOf, Option.some.injEq] at hf
          subst hf
          simp only [Val.setFields, Val.IsZero]
          apply Fields.allZero_modify_false
          · simpa [Val.IsZero] using hnz
          · intro fv' hfv' hnz'
            rw [hn] at hfv'
            cases hfv'
            exact ih hs hnz'
        | ptr pty e =>
          cases e with
          | struct ty gs => rfl
          | _ => simp [Val.fieldsOf] at hf
        | _ => simp [Val.fieldsOf] at hf

theorem type_assign_cons (n : String) (rest : List String) (v x : Val) :
    (assign (n :: rest) v x).Type = v.Type := by
  rw [assign_cons]
  cases v.fieldsOf with
  | none => rfl
  | some fs => exact Val.type_setFields _ _

/-- An entry that finds its slot not writable finds it not writable after any
entry whose path is no proper prefix of its own. -/
theorem writable_step_false_of_later {r r' : Replace} {Z : Val}
    (hc : r'.path <+: r.path → r'.path = r.path) (h : writable r Z = false) :
    writable r (step r' Z) = false := by
  by_cases h1 : r'.path <+: r.path
  · exact writable_step_false (Or.inl (hc h1)) h
  · by_cases h2 : r.path <+: r'.path
    · obtain ⟨s, hps⟩ := h2
      rw [step_eq]
      by_cases hw : (writable r' Z && !r'.ro) = true
      · rw [if_pos hw]
        simp only [Bool.and_eq_true] at hw
        obtain ⟨c', hc', -, hcz', -⟩ := (writable_iff r' Z).1 hw.1
        unfold writable at h ⊢
        rw [← hps, slot_assign_extension]
        rw [← hps, slot_append] at hc'
        cases hsl : slot r.path Z false with
        | none => rfl
        | some c =>
          rw [hsl] at h hc'
          simp only [Option.some_bind] at hc'
          simp only [Option.map_some']
          cases s with
          | nil =>
            rw [List.append_nil] at hps
            exact absurd (hps ▸ List.prefix_refl _) h1
          | cons n rest =>
            rw [type_assign_cons]
            cases hz : c.val.IsZero with
            | false =>
              rw [assign_nonzero hc' hcz' hz]
              simp
            | true =>
              simp only [hz] at h
              cases hro : c.ro
              · have ht : (c.val.Type == r.value.Type) = false := by simpa [hro] using h
                simp [ht]
              · simp
      · rw [if_neg hw]
        exact h
    · exact writable_step_false (Or.inr ⟨h1, h2⟩) h

theorem writable_run_false_of_later {r : Replace} {G : List Replace} {Z : Val}
    (hc : ∀ r' ∈ G, r'.path <+: r.path → r'.path = r.path) (h : writable r Z = false) :
    writable r (run G Z) = false := by
  induction G generalizing Z with
  | nil => exact h
  | cons r' G ih =>
    exact ih (fun r'' h'' => hc r'' (List.mem_cons_of_mem _ h''))
      (writable_step_false_of_later (hc r' (List.mem_cons_self _ _)) h)

/-- After a call that did not panic on a plan that fills ancestors first,
every entry leaves the target as it is and does not panic. -/
theorem inert_after {Γ : TypeEnv} {rs : List Replace} {T : Val} (hord : AncestorsFirst rs)
    (hT : T.WellTyped Γ = true) (hv : ∀ r ∈ rs, r.value.WellTyped Γ = true)
    (hnp : (mutate rs T).panicked = false) :
    ∀ r ∈ rs, step r (run rs T) = run rs T ∧ (writable r (run rs T) && r.ro) = false := by
  induction rs generalizing T with
  | nil => intro r hr; cases hr
  | cons r₀ G ih =>
    unfold AncestorsFirst at hord
    rw [List.pairwise_cons] at hord
    rw [mutate_cons] at hnp
    by_cases hw : (writable r₀ T && r₀.ro) = true
    · rw [if_pos hw] at hnp
      exact Bool.noConfusion hnp
    · rw [if_neg hw] at hnp
      have hv₀ := hv r₀ (List.mem_cons_self _ _)
      have hvG : ∀ r ∈ G, r.value.WellTyped Γ = true :=
        fun r hr => hv r (List.mem_cons_of_mem _ hr)
      have hT1 : (step r₀ T).WellTyped Γ = true := step_wellTyped hT hv₀
      intro r hr
      show step r (run G (step r₀ T)) = run G (step r₀ T) ∧
        (writable r (run G (step r₀ T)) && r.ro) = false
      rcases List.mem_cons.1 hr with rfl | hr
      · by_cases hwT : writable r T = true
        · have hro : r.ro = false := by
            cases hx : r.ro
            · rfl
            · simp [hwT, hx] at hw
          by_cases hz : r.value.IsZero = true
          · exact ⟨step_of_zero (run_wellTyped hT1 hvG) hv₀ hz, by simp [hro]⟩
          · have hz' : r.value.IsZero = false := by simpa using hz
            obtain ⟨c, hc, -, -, -⟩ := (writable_iff r T).1 hwT
            have hstep : step r T = assign r.path T r.value := by
              rw [step_eq, hwT, hro]
              rfl
            have hs1 : slot r.path (step r T) false = some ⟨r.value, c.ro⟩ := by
              rw [hstep]
              exact slot_assign_same _ hc
            have hw1 : writable r (step r T) = false := writable_false_of_nonzero hs1 hz'
            have hwn := writable_run_false_of_later hord.1 hw1
            exact ⟨step_of_not_writable hwn, by simp [hwn]⟩
        · have hwT' : writable r T = false := by simpa using hwT
          have hw1 : writable r (step r T) = false := by
            rw [step_of_not_writable hwT']
            exact hwT'
          have hwn := writable_run_false_of_later hord.1 hw1
          exact ⟨step_of_not_writable hwn, by simp [hwn]⟩
      · exact ih hord.2 hT1 hvG hnp r hr

theorem mutate_of_inert {rs : List Replace} {Y : Val}
    (h : ∀ r ∈ rs, step r Y = Y ∧ (writable r Y && r.ro) = false) :
    mutate rs Y = ⟨Y, false⟩ := by
  induction rs with
  | nil => rfl
  | cons r G ih =>
    have hr := h r (List.mem_cons_self _ _)
    rw [mutate_cons, hr.2, hr.1]
    exact ih (fun r' hr' => h r' (List.mem_cons_of_mem _ hr'))

/-- On a plan that fills ancestors first a second call changes nothing. -/
theorem mutate_idempotent_of_ancestorsFirst {Γ : TypeEnv} {rs : List Replace} {T : Val}
    (hord : AncestorsFirst rs) (hT : T.WellTyped Γ = true)
    (hv : ∀ r ∈ rs, r.value.WellTyped Γ = true) : twice (mutate rs) T = mutate rs T := by
  unfold twice
  by_cases h : (mutate rs T).panicked = true
  · rw [if_pos h]
  · rw [if_neg h]
    have h' : (mutate rs T).panicked = false := by simpa using h
    have hres := mutate_result h'
    rw [hres, mutate_of_inert (inert_after hord hT hv h')]
    cases hm : mutate rs T with
    | mk res pan =>
      rw [hm] at h' hres
      simp only at h' hres
      rw [h', hres]

theorem searchE_wellTyped {Γ : TypeEnv} (τ : TypeInfo) (ty : Ty) (fs : Fields) (ro : Bool)
    (replaces : List Replace) :
    ∀ ds, fs.WellTyped Γ ds = true → (∀ r ∈ replaces, r.value.WellTyped Γ = true) →
      ∀ r ∈ searchE τ ty fs ro replaces, r.value.WellTyped Γ = true := by
  induction ty, fs, ro, replaces using searchE.induct τ with
  | case1 ty ro replaces => intro ds _ hacc r hr; exact hacc r (by simpa [searchE] using hr)
  | case2 ty name v value rest ro replaces ih =>
    intro ds h hacc r hr
    cases ds with
    | nil => simp [Fields.WellTyped] at h
    | cons d ds =>
      simp only [Fields.WellTyped, Bool.and_eq_true] at h
      rw [searchE] at hr
      apply ih ds h.2 _ r hr
      intro r' hr'
      rw [appendItems_eq, List.mem_append] at hr'
      rcases hr' with hr' | hr'
      · exact hacc r' hr'
      · obtain ⟨item, _, rfl⟩ := List.mem_map.1 hr'
        exact h.1.2
  | case3 ty name pty ty' fs rest ro replaces ih1 ih2 =>
    intro ds h hacc r hr
    cases ds with
    | nil => simp [Fields.WellTyped] at h
    | cons d ds =>
      simp only [Fields.WellTyped, Val.WellTyped, Bool.and_eq_true] at h
      rw [searchE] at hr
      exact ih2 ds h.2 (ih1 _ h.1.2.2.2 hacc) r hr
  | case4 ty name ty' fs rest ro replaces ih1 ih2 =>
    intro ds h hacc r hr
    cases ds with
    | nil => simp [Fields.WellTyped] at h
    | cons d ds =>
      simp only [Fields.WellTyped, Val.WellTyped, Bool.and_eq_true] at h
      rw [searchE] at hr
      exact ih2 ds h.2 (ih1 _ h.1.2.2 hacc) r hr
  | case5 ty name value rest ro replaces h1 h2 ih =>
    intro ds h hacc r hr
    cases ds with
    | nil => simp [Fields.WellTyped] at h
    | cons d ds =>
      simp only [Fields.WellTyped, Bool.and_eq_true] at h
      rw [searchE] at hr
      · exact ih ds h.2 hacc r hr
      · exact h1
      · exact h2

theorem planE_wellTyped {Γ : TypeEnv} (τ : TypeInfo) {owner : Val}
    (h : owner.WellTyped Γ = true) : ∀ r ∈ planE τ owner, r.value.WellTyped Γ = true := by
  cases owner with
  | struct ty fs =>
    simp only [Val.WellTyped, Bool.and_eq_true] at h
    exact searchE_wellTyped τ ty fs false [] _ h.2 (fun r hr => by cases hr)
  | bool _ _ => intro r hr; simp [planE] at hr
  | int _ _ => intro r hr; simp [planE] at hr
  | str _ _ => intro r hr; simp [planE] at hr
  | ref _ _ => intro r hr; simp [planE] at hr
  | nilptr _ => intro r hr; simp [planE] at hr
  | ptr _ _ => intro r hr; simp [planE] at hr

/-! ## Properties of the override mutator over the memory, continued -/

/-- C3, amended: when a path leads to a slot of the target whose content is
non-zero before the call, then after the call, for any plan, the path leads to
the same slot and its content is non-zero; every part of the content that has
no zero field inside it (a non-zero scalar, a non-nil pointer, or a struct all
of whose fields are such) is the same as before, and so is the whole content
when it is of this kind.  Shared pointees and promoted fields are included. -/
theorem zero_free_slot_identical (τ : TypeInfo) (plan : List HReplace) (target : Nat) (h : Heap)
    (path : List String) (f : HCursor) (c : HVal)
    (hw : walkHE τ h path (some ⟨⟨target, []⟩, false, false⟩) = .ended (some f))
    (hl : load h f.loc = some c) (hnz : c.IsZero = false) :
    walkHE τ (mutateHE τ plan target h).heap path (some ⟨⟨target, []⟩, false, false⟩) =
      .ended (some f) ∧
    (∃ c', load (mutateHE τ plan target h).heap f.loc = some c' ∧ c'.IsZero = false) ∧
    (∀ q d, HVal.getIn q c = some d → d.filled = true →
      load (mutateHE τ plan target h).heap ⟨f.loc.cell, f.loc.path ++ q⟩ = some d) ∧
    (c.filled = true → load (mutateHE τ plan target h).heap f.loc = some c) := by
  obtain ⟨h1, h2⟩ := walkHE_kept τ plan target h path _ f hw ⟨c, hl, hnz⟩
  refine ⟨h1, h2, ?_, fun hf => filled_kept τ plan target h f.loc c hl hf⟩
  intro q d hq hd
  apply filled_kept τ plan target h _ d _ hd
  obtain ⟨v, hv, hg⟩ := load_cell h f.loc c hl
  simp only [load, hv]
  rw [HVal.getIn_append, hg]
  exact hq

/-- Witness of `zero_free_slot_identical`: the path `a` of the plan leads to
the slot `A` of the target at address 3, which holds a non-nil pointer. -/
theorem zero_free_slot_identical_witness :
    walkHE metaInfo memFilled ["a"] (some ⟨⟨3, []⟩, false, false⟩) =
      .ended (some ⟨⟨3, ["A"]⟩, false, false⟩) ∧
    load memFilled ⟨3, ["A"]⟩ = some (.ptr (.ptr tInner) (some 2)) ∧
    load (mutateHE metaInfo [⟨["a"], ⟨⟨1, ["A"]⟩, false⟩⟩] 3 memFilled).heap ⟨3, ["A"]⟩ =
      some (.ptr (.ptr tInner) (some 2)) :=
  ⟨by decide, by decide,
    (zero_free_slot_identical metaInfo [⟨["a"], ⟨⟨1, ["A"]⟩, false⟩⟩] 3 memFilled ["a"]
      ⟨⟨3, ["A"]⟩, false, false⟩ (.ptr (.ptr tInner) (some 2))
      (by decide) (by decide) (by decide)).2.2.2 (by decide)⟩

/-- C8, amended: when the first entry finds its slot reachable, settable, zero
and of its value's type, and its value is non-zero and was read through
exported fields, then the slot is non-zero after the call, every later entry
with the same path (segments in title case), and every later entry whose walk
ends in that slot, is skipped, and the slot holds the first entry's value after the call when the
value has no zero field inside it (a non-zero scalar, a non-nil pointer, or a
struct all of whose fields are such).  Shared pointees and promoted fields are
included. -/
theorem first_writer_wins (τ : TypeInfo) (e₁ : HReplace) (rest : List HReplace) (target : Nat)
    (h : Heap) (l : Loc) (cur src : HVal)
    (hw : walkHE τ h e₁.field (some ⟨⟨target, []⟩, false, false⟩) =
      .ended (some ⟨l, false, false⟩))
    (hcur : load h l = some cur) (hz : cur.IsZero = true)
    (hsrc : load h e₁.value.loc = some src) (ht : cur.Type = src.Type)
    (hro : e₁.value.ro = false) (hnz : src.IsZero = false) :
    (src.filled = true → load (mutateHE τ (e₁ :: rest) target h).heap l = some src) ∧
    (∃ c, load (mutateHE τ (e₁ :: rest) target h).heap l = some c ∧ c.IsZero = false) ∧
    (∀ pre e₂ post, rest = pre ++ e₂ :: post → e₂.field.map Title = e₁.field.map Title →
      applyReplaceHE τ e₂ target (mutateHE τ (e₁ :: pre) target h).heap =
        ((mutateHE τ (e₁ :: pre) target h).heap, .skipped)) ∧
    ∀ pre e₂ post f, rest = pre ++ e₂ :: post →
      walkHE τ (mutateHE τ (e₁ :: pre) target h).heap e₂.field
          (some ⟨⟨target, []⟩, false, false⟩) = .ended (some f) →
      f.loc = l →
      applyReplaceHE τ e₂ target (mutateHE τ (e₁ :: pre) target h).heap =
        ((mutateHE τ (e₁ :: pre) target h).heap, .skipped) := by
  have hstep : applyReplaceHE τ e₁ target h = (store h l src, .assigned) := by
    unfold applyReplaceHE
    rw [hw]
    dsimp only
    rw [hcur, hsrc]
    dsimp only
    simp [hz, ht, hro]
  have hcons : ∀ G, mutateHE τ (e₁ :: G) target h = mutateHE τ G target (store h l src) := by
    intro G
    rw [mutateHE_cons, hstep]
    simp
  have hslot : load (store h l src) l = some src := load_store_same h l src cur hcur
  have hskip : ∀ pre (e₂ : HReplace) f,
      walkHE τ (mutateHE τ (e₁ :: pre) target h).heap e₂.field
          (some ⟨⟨target, []⟩, false, false⟩) = .ended (some f) →
      f.loc = l →
      applyReplaceHE τ e₂ target (mutateHE τ (e₁ :: pre) target h).heap =
        ((mutateHE τ (e₁ :: pre) target h).heap, .skipped) := by
    intro pre e₂ f hwalk hloc
    obtain ⟨c, hc, hcnz⟩ := nonzero_kept τ pre target _ l src hslot hnz
    rw [← hcons pre] at hc
    unfold applyReplaceHE
    rw [hwalk]
    dsimp only
    rw [hloc, hc]
    cases load (mutateHE τ (e₁ :: pre) target h).heap e₂.value.loc with
    | none => rfl
    | some src₂ =>
      dsimp only
      simp [hcnz]
  refine ⟨?_, ?_, ?_, ?_⟩
  · intro hf
    rw [hcons]
    exact filled_kept τ rest target _ l src hslot hf
  · rw [hcons]
    exact nonzero_kept τ rest target _ l src hslot hnz
  · intro pre e₂ post _ hfield
    have hw1 := walkHE_store_final τ h l src cur hcur hz e₁.field _ _ hw rfl
    have hw2 := (walkHE_kept τ pre target (store h l src) e₁.field _ _ hw1
      ⟨src, hslot, hnz⟩).1
    rw [← hcons pre, walkHE_title τ _ e₁.field e₂.field _ hfield.symm] at hw2
    exact hskip pre e₂ _ hw2 rfl
  · intro pre e₂ post f _ hwalk hloc
    exact hskip pre e₂ f hwalk hloc

/-- Witness of `first_writer_wins`: the values 5 and 9 offered to `X`, the
parent's copy at address 0 and the target at address 1. -/
theorem first_writer_wins_witness :
    walkHE metaInfo memSamePath ["x"] (some ⟨⟨1, []⟩, false, false⟩) =
      .ended (some ⟨⟨1, ["X"]⟩, false, false⟩) ∧
    load memSamePath ⟨1, ["X"]⟩ = some (.int tInt 0) ∧
    load (mutateHE metaInfo [⟨["x"], ⟨⟨0, ["A"]⟩, false⟩⟩, ⟨["x"], ⟨⟨0, ["B"]⟩, false⟩⟩] 1
        memSamePath).heap ⟨1, ["X"]⟩ = some (.int tInt 5) :=
  ⟨by decide, by decide,
    (first_writer_wins metaInfo ⟨["x"], ⟨⟨0, ["A"]⟩, false⟩⟩ [⟨["x"], ⟨⟨0, ["B"]⟩, false⟩⟩] 1
      memSamePath ⟨1, ["X"]⟩ (.int tInt 0) (.int tInt 5)
      (by decide) (by decide) (by decide) (by decide) (by decide) (by decide) (by decide)).1
      (by decide)⟩

/-! ## Properties of the override mutator with embedded fields -/

theorem mutate_comm_of_incomp (r₁ r₂ : Replace) (T : Val) (h : Incomp r₁.path r₂.path)
    (h₁ : r₁.ro = false) (h₂ : r₂.ro = false) : mutate [r₁, r₂] T = mutate [r₂, r₁] T := by
  rw [mutate_pair, mutate_pair, step_comm T h, h₁, h₂]
  simp

theorem plain_swap {τ : TypeInfo} {r₁ r₂ : Replace} {T : Val} (h : Plain τ [r₁, r₂] T) :
    Plain τ [r₂, r₁] T := by
  intro ty hty n hn
  apply h ty _ n _
  · simp only [typesOf, List.map_cons, List.map_nil, List.flatten_cons, List.flatten_nil,
      List.append_nil, List.mem_append] at hty ⊢
    tauto
  · simp only [namesOf, List.map_cons, List.map_nil, List.flatten_cons, List.flatten_nil,
      List.append_nil, List.mem_append] at hn ⊢
    tauto

theorem plain_of_sub {τ : TypeInfo} {rs rs' : List Replace} {T Z : Val} (hp : Plain τ rs T)
    (hsub : ∀ r ∈ rs', r ∈ rs) (hZ : ∀ ty ∈ Z.structTypes, ty ∈ typesOf rs T) :
    Plain τ rs' Z := by
  intro ty hty n hn
  apply hp ty _ n _
  · unfold typesOf at hty
    rcases List.mem_append.1 hty with h1 | h1
    · exact hZ ty h1
    · rw [List.mem_flatten] at h1
      obtain ⟨l, hl, hty'⟩ := h1
      obtain ⟨r, hr, rfl⟩ := List.mem_map.1 hl
      exact mem_typesOf_value T (hsub r hr) ty hty'
  · unfold namesOf at hn
    rw [List.mem_flatten] at hn
    obtain ⟨l, hl, hn'⟩ := hn
    obtain ⟨r, hr, rfl⟩ := List.mem_map.1 hl
    exact mem_namesOf (hsub r hr) n hn'

theorem mutate_structTypes_sub {rs rs' : List Replace} (T : Val) (hsub : ∀ r ∈ rs', r ∈ rs) :
    ∀ ty ∈ (mutate rs' T).result.structTypes, ty ∈ typesOf rs T := by
  intro ty hty
  have := mutate_structTypes rs' T ty hty
  unfold typesOf at this ⊢
  rcases List.mem_append.1 this with h1 | h1
  · exact List.mem_append_left _ h1
  · rw [List.mem_flatten] at h1
    obtain ⟨l, hl, hty'⟩ := h1
    obtain ⟨r, hr, rfl⟩ := List.mem_map.1 hl
    exact mem_typesOf_value T (hsub r hr) ty hty'

/-- A promoted field: the plan path `name` leads to `Meta.Name` of a target
that embeds `Meta`, and the call writes there. -/
theorem promoted_field_written :
    planE metaInfo ownerName = [⟨["name"], .str tString "x", false⟩] ∧
    (GetOverrideMutationE metaInfo ownerName).map (fun m => m (holder "" (.nilptr (.ptr tInner)))) =
      some ⟨holder "x" (.nilptr (.ptr tInner)), false⟩ := by
  decide

/-- A nil embedded pointer: the plan path `name` leads through the nil
`*Meta` of the target, and `FieldByName` panics. -/
theorem promoted_through_nil_pointer_panics :
    (GetOverrideMutationE metaInfo ownerName).map (fun m => m ptrHolderNil) =
      some ⟨ptrHolderNil, true⟩ := by
  decide

/-- C4, counterexample: the slot `Meta.Name` of the target is neither a plan
path, nor a prefix of one, nor inside one, the only plan path being `Name`;
yet `Name` is a field promoted from the embedded `Meta`, and the call writes
`Meta.Name`. -/
theorem promoted_slot_overwritten :
    (planE metaInfo ownerName).map Replace.path = [["Name"]] ∧
    (∀ r ∈ planE metaInfo ownerName, Incomp r.path ["Meta", "Name"]) ∧
    slot ["Meta", "Name"] (holder "" (.nilptr (.ptr tInner))) false =
      some ⟨.str tString "", false⟩ ∧
    (GetOverrideMutationE metaInfo ownerName).map
        (fun m => slot ["Meta", "Name"] (m (holder "" (.nilptr (.ptr tInner)))).result false) =
      some (some ⟨.str tString "x", false⟩) := by
  decide

/-- C4, amended: when no segment of a plan path names a field promoted from an
embedded struct or an unexported embedded field, every slot of the target whose
path of field names is neither a plan path, nor a prefix of one, nor an
extension of one holds the same value after the call as before, for a target
in which no object is reached along two paths
(`shared_pointee_written_along_other_path` shows the call on one in which an
object is). -/
theorem out_of_plan_preserved (τ : TypeInfo) (owner : Val) (m : Val → Outcome) (T : Val)
    (q : List String) (hm : GetOverrideMutationE τ owner = some m)
    (hp : Plain τ (planE τ owner) T) (hq : ∀ r ∈ planE τ owner, Incomp r.path q) :
    slot q (m T).result false = slot q T false := by
  rw [getOverrideMutationE_eq hm, mutateE_plain hp]
  exact slot_mutate_of_incomp T hq

/-- Witness of `out_of_plan_preserved`: `Spec.Replicas` of a deployment. -/
theorem out_of_plan_preserved_witness :
    GetOverrideMutationE metaInfo (harbor "Spec" affinityNode) =
      some (mutateE metaInfo (planE metaInfo (harbor "Spec" affinityNode))) ∧
    Plain metaInfo (planE metaInfo (harbor "Spec" affinityNode))
      (deployment 3 (.nilptr (.ptr tAffinity))) ∧
    (∀ r ∈ planE metaInfo (harbor "Spec" affinityNode), Incomp r.path ["Spec", "Replicas"]) ∧
    slot ["Spec", "Replicas"]
        (mutateE metaInfo (planE metaInfo (harbor "Spec" affinityNode))
          (deployment 3 (.nilptr (.ptr tAffinity)))).result false =
      slot ["Spec", "Replicas"] (deployment 3 (.nilptr (.ptr tAffinity))) false :=
  ⟨rfl, by decide, by decide,
    out_of_plan_preserved metaInfo (harbor "Spec" affinityNode) _ _ _ rfl (by decide)
      (by decide)⟩

/-- C5, amended: if a plan path is missing in the target when the call starts
(a nil pointer, a value that is no struct, or a name that is no declared field
on the way), no segment of a plan path names a field promoted from an embedded
struct or an unexported embedded field, and no plan path is a proper prefix of
the path, then the path is still missing when the call ends, and its entry,
whenever it is reached, is skipped without a panic and without a write; the
call as a whole does not panic when every plan value was read through exported
fields.  The target is one in which no object is reached along two paths
(`shared_pointee_breaks_idempotence` shows the call on one in which an object
is, `promoted_through_nil_pointer_panics` a promoted field behind a nil
embedded pointer). -/
theorem missing_path_skipped (τ : TypeInfo) (rs : List Replace) (T : Val) (r : Replace)
    (hr : r ∈ rs) (hp : Plain τ rs T) (hs : slot r.path T false = none)
    (hpre : ∀ r' ∈ rs, r'.path <+: r.path → r'.path = r.path) :
    slot r.path (mutateE τ rs T).result false = none ∧
    (∀ pre post, rs = pre ++ r :: post →
      applyReplaceE τ r (mutateE τ pre T).result = ((mutateE τ pre T).result, .skipped)) ∧
    ((∀ r' ∈ rs, r'.ro = false) → (mutateE τ rs T).panicked = false) := by
  rw [mutateE_plain hp]
  refine ⟨slot_mutate_of_missing hpre hs, ?_, fun h => mutate_no_panic h T⟩
  intro pre post hsplit
  have hsub : ∀ r' ∈ pre, r' ∈ rs := by
    intro r' hr'
    rw [hsplit]
    exact List.mem_append_left _ hr'
  have hpre' : ∀ r' ∈ pre, r'.path <+: r.path → r'.path = r.path :=
    fun r' hr' => hpre r' (hsub r' hr')
  have hmiss := slot_mutate_of_missing hpre' hs
  have hT : ∀ ty ∈ T.structTypes, ty ∈ typesOf rs T := fun ty hty => by
    unfold typesOf
    exact List.mem_append_left _ hty
  rw [mutateE_plain (plain_of_sub hp hsub hT)]
  have hstep : applyReplaceE τ r (mutate pre T).result = applyReplace r (mutate pre T).result :=
    applyReplaceE_plain τ (typesOf rs T) r _
      (fun ty hty n hn => hp ty hty n (mem_namesOf hr n hn))
      (mutate_structTypes_sub T hsub)
  rw [hstep, applyReplace_eq, writable_false_of_slot_none hmiss]
  rfl

/-- Witness of `missing_path_skipped`: the deployment paths on a target that
has no `Spec` field. -/
theorem missing_path_skipped_witness :
    (⟨["spec", "template", "spec", "affinity"], affinityNode, false⟩ : Replace) ∈
      planE metaInfo (harbor "Spec" affinityNode) ∧
    Plain metaInfo (planE metaInfo (harbor "Spec" affinityNode)) targetNilA ∧
    slot ["Spec", "Template", "Spec", "Affinity"] targetNilA false = none ∧
    slot ["Spec", "Template", "Spec", "Affinity"]
        (mutateE metaInfo (planE metaInfo (harbor "Spec" affinityNode)) targetNilA).result
        false = none :=
  ⟨by decide, by decide, by decide,
    (missing_path_skipped metaInfo (planE metaInfo (harbor "Spec" affinityNode)) targetNilA
      ⟨["spec", "template", "spec", "affinity"], affinityNode, false⟩
      (by decide) (by decide) (by decide) (by decide)).1⟩

/-- C18, counterexample: the paths `name` and `meta.name` are not equal and
neither is a prefix of the other, yet both lead to `Meta.Name` of a target that
embeds `Meta`, and the entry applied first wins. -/
theorem promoted_paths_do_not_commute :
    Incomp (Replace.path ⟨["name"], .str tString "a", false⟩)
      (Replace.path ⟨["meta", "name"], .str tString "b", false⟩) ∧
    mutateE metaInfo [⟨["name"], .str tString "a", false⟩,
        ⟨["meta", "name"], .str tString "b", false⟩] (holder "" (.nilptr (.ptr tInner))) =
      ⟨holder "a" (.nilptr (.ptr tInner)), false⟩ ∧
    mutateE metaInfo [⟨["meta", "name"], .str tString "b", false⟩,
        ⟨["name"], .str tString "a", false⟩] (holder "" (.nilptr (.ptr tInner))) =
      ⟨holder "b" (.nilptr (.ptr tInner)), false⟩ ∧
    holder "a" (.nilptr (.ptr tInner)) ≠ holder "b" (.nilptr (.ptr tInner)) := by
  decide

/-- C18, amended: two entries whose title-case paths are incomparable, whose
segments name no field promoted from an embedded struct and no unexported
embedded field, and whose values were read through exported fields can be
applied in either order with the same outcome, for a target in which no object
is reached along two paths (`shared_pointee_order_matters` shows the two
orders on one in which an object is). -/
theorem independent_entries_commute (τ : TypeInfo) (r₁ r₂ : Replace) (T : Val)
    (h : Incomp r₁.path r₂.path) (hp : Plain τ [r₁, r₂] T)
    (h₁ : r₁.ro = false) (h₂ : r₂.ro = false) :
    mutateE τ [r₁, r₂] T = mutateE τ [r₂, r₁] T := by
  rw [mutateE_plain hp, mutateE_plain (plain_swap hp)]
  exact mutate_comm_of_incomp r₁ r₂ T h h₁ h₂

/-- Witness of `independent_entries_commute`: the paths `y` and `z`. -/
theorem independent_entries_commute_witness :
    Incomp (Replace.path ⟨["y"], .int tInt 7, false⟩) (Replace.path ⟨["z"], .int tInt 9, false⟩) ∧
    Plain metaInfo [⟨["y"], .int tInt 7, false⟩, ⟨["z"], .int tInt 9, false⟩] (targetYZ 0 0) ∧
    mutateE metaInfo [⟨["y"], .int tInt 7, false⟩, ⟨["z"], .int tInt 9, false⟩] (targetYZ 0 0) =
      ⟨targetYZ 7 9, false⟩ ∧
    mutateE metaInfo [⟨["y"], .int tInt 7, false⟩, ⟨["z"], .int tInt 9, false⟩] (targetYZ 0 0) =
      mutateE metaInfo [⟨["z"], .int tInt 9, false⟩, ⟨["y"], .int tInt 7, false⟩]
        (targetYZ 0 0) :=
  ⟨by decide, by decide, by decide,
    independent_entries_commute metaInfo ⟨["y"], .int tInt 7, false⟩ ⟨["z"], .int tInt 9, false⟩
      (targetYZ 0 0) (by decide) (by decide) rfl rfl⟩

/-- C20, counterexample: no path of the plan `x.b`, `meta.x` is a proper
prefix of the other, yet `X` is a field promoted from the embedded `Meta`: the
first call fills the nil pointer `Meta.X` and only the second call fills
`Meta.X.B`. -/
theorem promoted_path_breaks_idempotence :
    (planE metaInfo ownerPromoted).map Replace.path = [["X", "B"], ["Meta", "X"]] ∧
    NoProperPrefix (planE metaInfo ownerPromoted) ∧
    (GetOverrideMutationE metaInfo ownerPromoted).map
        (fun m => m (holder "" (.nilptr (.ptr tInner)))) =
      some ⟨holder "" (.ptr (.ptr tInner) (inner 0 0)), false⟩ ∧
    (GetOverrideMutationE metaInfo ownerPromoted).map
        (fun m => twice m (holder "" (.nilptr (.ptr tInner)))) =
      some ⟨holder "" (.ptr (.ptr tInner) (inner 5 0)), false⟩ ∧
    holder "" (.ptr (.ptr tInner) (inner 5 0)) ≠ holder "" (.ptr (.ptr tInner) (inner 0 0)) := by
  decide

/-- C20, amended: when no plan path is a proper prefix of another plan path
(segments in title case) and no segment names a field promoted from an embedded
struct or an unexported embedded field, applying the mutator twice leaves the
same outcome as applying it once, for a target in which no object is reached
along two paths (`shared_pointee_breaks_idempotence` shows the two calls on
one in which an object is); a plan with a single entry is such a plan. -/
theorem idempotent_without_nested_paths (τ : TypeInfo) (rs : List Replace) (T : Val)
    (hp : NoProperPrefix rs) (hpl : Plain τ rs T) :
    twice (mutateE τ rs) T = mutateE τ rs T ∧
    ∀ r : Replace, NoProperPrefix [r] ∧
      (Plain τ [r] T → twice (mutateE τ [r]) T = mutateE τ [r] T) := by
  refine ⟨?_, fun r => ?_⟩
  · rw [twice_mutateE_plain hpl, mutateE_plain hpl]
    exact mutate_idempotent hp T
  · have h1 : NoProperPrefix [r] := by
      intro r₁ h₁ r₂ h₂ _
      rw [List.mem_singleton.1 h₁, List.mem_singleton.1 h₂]
    refine ⟨h1, fun hr => ?_⟩
    rw [twice_mutateE_plain hr, mutateE_plain hr]
    exact mutate_idempotent h1 T

/-- Witness of `idempotent_without_nested_paths`: the paths `y` and `z`. -/
theorem idempotent_without_nested_paths_witness :
    NoProperPrefix [⟨["y"], .int tInt 7, false⟩, ⟨["z"], .int tInt 9, false⟩] ∧
    Plain metaInfo [⟨["y"], .int tInt 7, false⟩, ⟨["z"], .int tInt 9, false⟩] (targetYZ 0 0) ∧
    twice (mutateE metaInfo [⟨["y"], .int tInt 7, false⟩, ⟨["z"], .int tInt 9, false⟩])
        (targetYZ 0 0) =
      mutateE metaInfo [⟨["y"], .int tInt 7, false⟩, ⟨["z"], .int tInt 9, false⟩]
        (targetYZ 0 0) :=
  ⟨by decide, by decide,
    (idempotent_without_nested_paths metaInfo
      [⟨["y"], .int tInt 7, false⟩, ⟨["z"], .int tInt 9, false⟩] (targetYZ 0 0)
      (by decide) (by decide)).1⟩

/-! ## Properties of the override mutator: shared pointees -/

/-- A shared pointee: the fields `A` and `Z` of the target point at one
`Inner`; the only plan path is `a.b`, and the call changes what is read at
`z.b`. -/
theorem shared_pointee_written_along_other_path :
    Incomp ["A", "B"] ["Z", "B"] ∧
    readAtE metaInfo memShared 2 ["z", "b"] = some (.int tInt 0) ∧
    (mutateHE metaInfo [⟨["a", "b"], ⟨⟨1, ["B"]⟩, false⟩⟩] 2 memShared).panicked = false ∧
    readAtE metaInfo (mutateHE metaInfo [⟨["a", "b"], ⟨⟨1, ["B"]⟩, false⟩⟩] 2 memShared).heap 2
      ["z", "b"] = some (.int tInt 5) := by
  decide

/-- A shared pointee: the entries with the paths `a.b` and `z.b` both write
the one `Inner` that `A` and `Z` point at, and the entry applied first
wins. -/
theorem shared_pointee_order_matters :
    Incomp ["A", "B"] ["Z", "B"] ∧
    readAtE metaInfo
      (mutateHE metaInfo [⟨["a", "b"], ⟨⟨1, ["B"]⟩, false⟩⟩, ⟨["z", "b"], ⟨⟨1, ["D"]⟩, false⟩⟩]
        2 memShared).heap 2 ["a", "b"] = some (.int tInt 5) ∧
    readAtE metaInfo
      (mutateHE metaInfo [⟨["z", "b"], ⟨⟨1, ["D"]⟩, false⟩⟩, ⟨["a", "b"], ⟨⟨1, ["B"]⟩, false⟩⟩]
        2 memShared).heap 2 ["a", "b"] = some (.int tInt 7) := by
  decide

/-- A shared pointee: the fields `A` and `Z` of the target point at one
`Meta` whose `X` is nil.  No path of the plan `a.x.b`, `z.x` is a prefix of
the other and `a.x.b` is missing when the call starts; the first call fills
`X` through `z.x`, so that `a.x.b` is there when it ends, and the second call
writes it. -/
theorem shared_pointee_breaks_idempotence :
    Incomp ["A", "X", "B"] ["Z", "X"] ∧
    readAtE metaInfo memSharedMeta 3 ["a", "x", "b"] = none ∧
    readAtE metaInfo
      (mutateHE metaInfo [⟨["a", "x", "b"], ⟨⟨2, ["B"]⟩, false⟩⟩, ⟨["z", "x"], ⟨⟨2, ["Q"]⟩, false⟩⟩]
        3 memSharedMeta).heap 3 ["a", "x", "b"] = some (.int tInt 0) ∧
    readAtE metaInfo
      (mutateHE metaInfo [⟨["a", "x", "b"], ⟨⟨2, ["B"]⟩, false⟩⟩, ⟨["z", "x"], ⟨⟨2, ["Q"]⟩, false⟩⟩]
        3
        (mutateHE metaInfo
          [⟨["a", "x", "b"], ⟨⟨2, ["B"]⟩, false⟩⟩, ⟨["z", "x"], ⟨⟨2, ["Q"]⟩, false⟩⟩]
          3 memSharedMeta).heap).heap 3 ["a", "x", "b"] = some (.int tInt 5) := by
  decide

/-- A value offered to two slots: the tag `a,z` of the parent names two paths,
so the first call stores one pointer in `A` and in `Z` of a target whose
pointers were nil.  The plan `a`, `z`, `a.x.b`, `z.x` fills ancestors first;
the first call fills `X` of the shared `Meta` through `z.x`, and the second
call writes `a.x.b`.  Over values, where each slot gets a `Meta` of its own,
the second call changes nothing. -/
theorem shared_value_breaks_idempotence :
    GetOverrideMutationH ownerTwoPaths [] =
      some (layOut ownerTwoPaths [],
        [⟨["a"], ⟨⟨2, ["P"]⟩, false⟩⟩, ⟨["z"], ⟨⟨2, ["P"]⟩, false⟩⟩,
          ⟨["a", "x", "b"], ⟨⟨2, ["B"]⟩, false⟩⟩, ⟨["z", "x"], ⟨⟨2, ["Q"]⟩, false⟩⟩]) ∧
    AncestorsFirst (planE metaInfo ownerTwoPaths) ∧
    ¬ OnePathPerTag ownerTwoPaths ∧
    readAtE metaInfo
      (mutateHE metaInfo
        [⟨["a"], ⟨⟨2, ["P"]⟩, false⟩⟩, ⟨["z"], ⟨⟨2, ["P"]⟩, false⟩⟩,
          ⟨["a", "x", "b"], ⟨⟨2, ["B"]⟩, false⟩⟩, ⟨["z", "x"], ⟨⟨2, ["Q"]⟩, false⟩⟩]
        3 (layOut targetAZ (layOut ownerTwoPaths []))).heap 3 ["a", "x", "b"] =
      some (.int tInt 0) ∧
    readAtE metaInfo
      (mutateHE metaInfo
        [⟨["a"], ⟨⟨2, ["P"]⟩, false⟩⟩, ⟨["z"], ⟨⟨2, ["P"]⟩, false⟩⟩,
          ⟨["a", "x", "b"], ⟨⟨2, ["B"]⟩, false⟩⟩, ⟨["z", "x"], ⟨⟨2, ["Q"]⟩, false⟩⟩]
        3
        (mutateHE metaInfo
          [⟨["a"], ⟨⟨2, ["P"]⟩, false⟩⟩, ⟨["z"], ⟨⟨2, ["P"]⟩, false⟩⟩,
            ⟨["a", "x", "b"], ⟨⟨2, ["B"]⟩, false⟩⟩, ⟨["z", "x"], ⟨⟨2, ["Q"]⟩, false⟩⟩]
          3 (layOut targetAZ (layOut ownerTwoPaths []))).heap).heap 3 ["a", "x", "b"] =
      some (.int tInt 5) ∧
    twice (mutateE metaInfo (planE metaInfo ownerTwoPaths)) targetAZ =
      mutateE metaInfo (planE metaInfo ownerTwoPaths) targetAZ := by
  decide

/-! ## Properties of the override mutator: memory and values -/

/-- A promoted field over the memory: the plan path `name` on a target that
embeds `Meta`, the copy of the parent at address 0 and the target at address
1.  The target read back from the memory after the call is the target the
mutator over values returns; on a target whose embedded `*Meta` is nil the
call panics. -/
theorem memory_agrees_on_promoted_field :
    GetOverrideMutationH ownerName [] =
      some (layOut ownerName [], [⟨["name"], ⟨⟨0, ["N"]⟩, false⟩⟩]) ∧
    (mutateHE metaInfo [⟨["name"], ⟨⟨0, ["N"]⟩, false⟩⟩] 1
      (layOut (holder "" (.nilptr (.ptr tInner))) (layOut ownerName []))).panicked = false ∧
    ((mutateHE metaInfo [⟨["name"], ⟨⟨0, ["N"]⟩, false⟩⟩] 1
        (layOut (holder "" (.nilptr (.ptr tInner))) (layOut ownerName []))).heap[1]?.bind
      (HVal.toVal 16 (mutateHE metaInfo [⟨["name"], ⟨⟨0, ["N"]⟩, false⟩⟩] 1
        (layOut (holder "" (.nilptr (.ptr tInner))) (layOut ownerName []))).heap)) =
      some (mutateE metaInfo (planE metaInfo ownerName) (holder "" (.nilptr (.ptr tInner)))).result ∧
    (mutateHE metaInfo [⟨["name"], ⟨⟨0, ["N"]⟩, false⟩⟩] 1
      (layOut ptrHolderNil (layOut ownerName []))).panicked = true := by
  decide

/-- A plan that fills ancestors first over the memory: the paths `a` and `a.b`
on a target whose `A` is nil, the copy of the parent at the addresses 0 and 1
and the target at address 2.  The first call stores the copy's pointer in `A`
and writes `B` through it; the target read back from the memory is the target
the mutator over values returns, and a second call leaves the memory as it
is. -/
theorem memory_agrees_on_ancestors_first :
    GetOverrideMutationH ownerNestedLast [] =
      some (layOut ownerNestedLast [],
        [⟨["a"], ⟨⟨1, ["A"]⟩, false⟩⟩, ⟨["a", "b"], ⟨⟨1, ["B"]⟩, false⟩⟩]) ∧
    ((mutateHE metaInfo [⟨["a"], ⟨⟨1, ["A"]⟩, false⟩⟩, ⟨["a", "b"], ⟨⟨1, ["B"]⟩, false⟩⟩] 2
        (layOut targetNilA (layOut ownerNestedLast []))).heap[2]?.bind
      (HVal.toVal 16 (mutateHE metaInfo
        [⟨["a"], ⟨⟨1, ["A"]⟩, false⟩⟩, ⟨["a", "b"], ⟨⟨1, ["B"]⟩, false⟩⟩] 2
        (layOut targetNilA (layOut ownerNestedLast []))).heap)) =
      some (mutateE metaInfo (planE metaInfo ownerNestedLast) targetNilA).result ∧
    mutateHE metaInfo [⟨["a"], ⟨⟨1, ["A"]⟩, false⟩⟩, ⟨["a", "b"], ⟨⟨1, ["B"]⟩, false⟩⟩] 2
        (mutateHE metaInfo [⟨["a"], ⟨⟨1, ["A"]⟩, false⟩⟩, ⟨["a", "b"], ⟨⟨1, ["B"]⟩, false⟩⟩] 2
          (layOut targetNilA (layOut ownerNestedLast []))).heap =
      mutateHE metaInfo [⟨["a"], ⟨⟨1, ["A"]⟩, false⟩⟩, ⟨["a", "b"], ⟨⟨1, ["B"]⟩, false⟩⟩] 2
        (layOut targetNilA (layOut ownerNestedLast [])) := by
  decide

/-! ## Properties of the override mutator: idempotence -/

/-- C2, amended: when no path of the parent's plan is a proper prefix of the
path of an earlier entry (segments in title case), so that an entry that fills
an ancestor comes before the entries that go through it, applying the mutator
twice leaves the same outcome as applying it once; for a parent and a target
that are well typed under some type declarations `Γ`, plan paths none of whose
segments names a field promoted from an embedded struct or an unexported
embedded field, a parent each of whose tags names one path unless no plan path
is a proper prefix of another, and a target in which no object is reached
along two paths.  Over values every slot holds a value of its own;
`shared_value_breaks_idempotence` and `shared_pointee_breaks_idempotence`
show, over the memory, the two calls for a tag that names two paths and on a
target in which an object is reached along two paths. -/
theorem override_idempotent (τ : TypeInfo) (Γ : TypeEnv) (owner : Val) (m : Val → Outcome)
    (T : Val) (hm : GetOverrideMutationE τ owner = some m)
    (hwo : owner.WellTyped Γ = true) (hwt : T.WellTyped Γ = true)
    (hpl : Plain τ (planE τ owner) T) (hord : AncestorsFirst (planE τ owner))
    (_ : NoProperPrefix (planE τ owner) ∨ OnePathPerTag owner) :
    twice m T = m T := by
  rw [getOverrideMutationE_eq hm, twice_mutateE_plain hpl, mutateE_plain hpl]
  exact mutate_idempotent_of_ancestorsFirst hord hwt (planE_wellTyped τ hwo)

/-- Witness of `override_idempotent`: the path `a` ahead of the path `a.b`,
on a target whose `A` is nil. -/
theorem override_idempotent_witness :
    GetOverrideMutationE metaInfo ownerNestedLast =
      some (mutateE metaInfo (planE metaInfo ownerNestedLast)) ∧
    ownerNestedLast.WellTyped nestedEnv = true ∧ targetNilA.WellTyped nestedEnv = true ∧
    Plain metaInfo (planE metaInfo ownerNestedLast) targetNilA ∧
    AncestorsFirst (planE metaInfo ownerNestedLast) ∧ OnePathPerTag ownerNestedLast ∧
    ¬ NoProperPrefix (planE metaInfo ownerNestedLast) ∧
    mutateE metaInfo (planE metaInfo ownerNestedLast) targetNilA =
      ⟨targetPtrA (inner 5 0), false⟩ ∧
    twice (mutateE metaInfo (planE metaInfo ownerNestedLast)) targetNilA =
      mutateE metaInfo (planE metaInfo ownerNestedLast) targetNilA :=
  ⟨rfl, by decide, by decide, by decide, by decide, by decide, by decide, by decide,
    override_idempotent metaInfo nestedEnv ownerNestedLast _ targetNilA rfl (by decide)
      (by decide) (by decide) (by decide) (Or.inr (by decide))⟩

end Mutation
